import Mathlib

/-!
# go-stl: the STL decoder of package `stl`

A shallow embedding of `stl/stl.go` (functions `Read`, `nextLine`, `threeFloats`,
`getLine`, `getVertex`, `readAscii`, `readBinary`) together with functional models
of the Go standard-library calls the package makes, and theorems about them; and of the
loops of the tools `cmd/stl-mbb` (the bounding box) and `cmd/stl2voxels` (the PGM write-out
and `clamp`).

Conventions of the embedding.

* A byte is a `Nat` (a value below 256 in every real input); a Go `string`, a byte array
  and the unread part of an `io.Reader` are all a `List Nat`.
* A `float32` is represented by its IEEE-754 bit pattern (a `Nat` below `2 ^ 32`).
  `encoding/binary` fills a `float32` field of a struct with the word of the file stored
  through `float64` (`viaFloat64`), which changes one bit of a signalling NaN and nothing else.
* `strconv.ParseFloat(s, 32)` followed by the conversion `float32(f)` is a parameter
  `parseFloat` of the ASCII decoder: the theorems hold for every such function.
* A Go slice is an `Option (List _)`: `none` is the `nil` slice.
* A Go function returning `(value, error)` is an `Except`, and the top-level decoders return an
  `Outcome`: the pair `([]STLTri, error)`, a run-time panic, or the end of the process in a
  fatal error of the run time.
* `int` is 64 bits wide, so `int(numTris)` never wraps. The one allocation whose size the
  input chooses, `make([]STLTri, numTris)`, can fail: the memory it can obtain is a
  parameter `mem` of `readBinary` and `Read`.
* The comparison of two `float32` values is computed on their bit patterns (`float32Less`).
* A `float64` is NaN, an infinity or the rational number it stands for (`F64`); an operation
  returns its exact result rounded to the nearest `float64`, ties to even (`round64`).
-/

namespace STL

set_option maxRecDepth 100000

/-- A Go string or byte sequence. -/
abbrev Bytes := List Nat

/-- The bytes of an ASCII string literal of the source. -/
def bytes (s : String) : Bytes := s.toList.map Char.toNat

/-- A `float32`, as its IEEE-754 bit pattern. -/
abbrev F32 := Nat

/-- The record `STLTri` of `stl.go`. -/
structure STLTri where
  Nx : F32
  Ny : F32
  Nz : F32
  V1x : F32
  V1y : F32
  V1z : F32
  V2x : F32
  V2y : F32
  V2z : F32
  V3x : F32
  V3y : F32
  V3z : F32
deriving DecidableEq, Repr

/-- An operand of `fmt.Errorf` other than an error: a string printed with `%q`, or an integer
printed with `%v`. -/
inductive Arg where
  | q (s : Bytes)
  | v (n : Nat)
deriving DecidableEq, Repr

/-- Go `error` values that the package can produce. `Errorf format args` is
`fmt.Errorf(format, args...)`; `ErrorfV format args err` is `fmt.Errorf(format, args..., err)`,
where the last verb of the format is the `%v` that prints `err`. -/
inductive Error where
  | EOF
  | ErrUnexpectedEOF
  | ErrSyntax
  | ErrRange
  | NumError (Func : String) (Num : Bytes) (Err : Error)
  | PathError (Op : String) (Path : Bytes)
  | Errorf (format : String) (args : List Arg)
  | ErrorfV (format : String) (args : List Arg) (err : Error)
deriving DecidableEq, Repr

/-- What a call of a decoder does: it returns the pair `([]STLTri, error)`, or it panics with
`index out of range [index] with length length`, or the process ends with
`fatal error: runtime: out of memory` and nothing is returned. -/
inductive Outcome where
  | ret (tris : Option (List STLTri)) (err : Option Error)
  | panic (index : Nat) (length : Nat)
  | fatal
deriving DecidableEq, Repr

/-- Result of a helper that returns `(value, error)` and may panic. -/
inductive Res (α : Type) where
  | ok (a : α)
  | err (e : Error)
  | panic (index : Nat) (length : Nat)
deriving Repr

/-! ## Models of the standard library -/

/-- The bytes `'\t'`, `'\n'`, `'\v'`, `'\f'`, `'\r'`, `' '`. -/
def isAsciiSpace (c : Nat) : Bool :=
  c == 9 || c == 10 || c == 11 || c == 12 || c == 13 || c == 32

/-- UTF-8 encodings of the runes for which `unicode.IsSpace` holds: U+0009..U+000D, U+0020,
U+0085, U+00A0, U+1680, U+2000..U+200A, U+2028, U+2029, U+202F, U+205F, U+3000. -/
def spaceRunes : List Bytes :=
  [[9], [10], [11], [12], [13], [32],
   [0xC2, 0x85], [0xC2, 0xA0], [0xE1, 0x9A, 0x80],
   [0xE2, 0x80, 0x80], [0xE2, 0x80, 0x81], [0xE2, 0x80, 0x82], [0xE2, 0x80, 0x83],
   [0xE2, 0x80, 0x84], [0xE2, 0x80, 0x85], [0xE2, 0x80, 0x86], [0xE2, 0x80, 0x87],
   [0xE2, 0x80, 0x88], [0xE2, 0x80, 0x89], [0xE2, 0x80, 0x8A],
   [0xE2, 0x80, 0xA8], [0xE2, 0x80, 0xA9], [0xE2, 0x80, 0xAF], [0xE2, 0x81, 0x9F],
   [0xE3, 0x80, 0x80]]

/-- Remove from the front of `s`, at most `n` times, a byte sequence of `table`. -/
def stripRunes (table : List Bytes) : Nat → Bytes → Bytes
  | 0, s => s
  | n + 1, s =>
    match table.find? (fun r => r.isPrefixOf s) with
    | none => s
    | some r => stripRunes table n (s.drop r.length)

/-- Leading white space removed (`strings.TrimLeftFunc(s, unicode.IsSpace)`): a byte that does
not start the encoding of a white-space rune stops the scan. -/
def TrimLeft (s : Bytes) : Bytes := stripRunes spaceRunes s.length s

/-- Trailing white space removed (`strings.TrimRightFunc(s, unicode.IsSpace)`): the same scan
from the end of the string. -/
def TrimRight (s : Bytes) : Bytes :=
  (stripRunes (spaceRunes.map List.reverse) s.length s.reverse).reverse

/-- Model of `strings.TrimSpace`: leading and trailing white space, as defined by Unicode,
is removed. -/
def TrimSpace (s : Bytes) : Bytes := TrimRight (TrimLeft s)

/-- Model of `strings.HasPrefix`. -/
def HasPrefix (s pre : Bytes) : Bool := pre.isPrefixOf s

/-- Model of `strings.Split(s, sep)` for a separator of one byte: the pieces of `s` between
the occurrences of `sep`; there is always at least one piece. -/
def Split (s : Bytes) (sep : Nat) : List Bytes :=
  match s with
  | [] => [[]]
  | c :: cs =>
    if c = sep then [] :: Split cs sep
    else
      match Split cs sep with
      | [] => [[c]]
      | t :: ts => (c :: t) :: ts

/-- Model of `strings.Replace(s, old, new, -1)` for `old` and `new` of one byte. -/
def Replace (s : Bytes) (old new : Nat) : Bytes := s.map (fun c => if c = old then new else c)

/-- Model of `bufio.Reader.ReadString(delim)` on a reader whose unread bytes are the argument:
the bytes up to and including the first `delim`, and the rest of the reader; `none` when the
reader ends before a `delim` is found (the call then returns the error `io.EOF`). -/
def ReadString (delim : Nat) : Bytes → Option (Bytes × Bytes)
  | [] => none
  | c :: cs =>
    if c = delim then some ([c], cs)
    else
      match ReadString delim cs with
      | none => none
      | some (line, rest) => some (c :: line, rest)

/-- Model of `io.ReadFull`, through which `binary.Read` fills a fixed-size value of `n` bytes:
the `n` bytes read and the rest of the reader, or `io.EOF` when the reader is empty and
`io.ErrUnexpectedEOF` when it holds fewer than `n` bytes. -/
def ReadFull (n : Nat) (f : Bytes) : Except Error (Bytes × Bytes) :=
  if n ≤ f.length then .ok (f.take n, f.drop n)
  else if f.length = 0 then .error Error.EOF
  else .error Error.ErrUnexpectedEOF

/-- Model of `binary.LittleEndian.Uint32` on the four bytes of `bs` at offset `off`. -/
def Uint32 (bs : Bytes) (off : Nat) : Nat :=
  bs.getD off 0 + 256 * bs.getD (off + 1) 0 + 65536 * bs.getD (off + 2) 0
    + 16777216 * bs.getD (off + 3) 0

/-- Model of `math.Float32frombits`: a `float32` is represented by its bit pattern. -/
def Float32frombits (b : Nat) : F32 := b

/-- A `float32` bit pattern that is a NaN: exponent bits all ones and a non-zero fraction. -/
def float32IsNaN (b : F32) : Bool := (b / 2 ^ 23) % 256 == 255 && b % 2 ^ 23 != 0

/-- A `float32` bit pattern that is a signalling NaN: a NaN whose quiet bit (bit 22) is 0. -/
def float32IsSignalling (b : F32) : Bool := float32IsNaN b && (b / 2 ^ 22) % 2 == 0

/-- The conversions `float32(float64(x))` through which `binary.Read` fills a `float32` field
of a struct: it passes the decoded value as a `float64` to `reflect.Value.SetFloat`, which
stores it converted back. Every value comes back with its bits unchanged, except a signalling
NaN, which the conversion instructions of the processor (amd64, arm64) return with its quiet
bit set. -/
def viaFloat64 (b : F32) : F32 :=
  if float32IsSignalling b then b + 2 ^ 22 else b

/-- The decoding `binary.Read` makes of 48 bytes into an `STLTri`: the twelve fields in
declaration order, each a little-endian `float32` stored through `float64`. -/
def decodeSTLTri (bs : Bytes) : STLTri :=
  { Nx := viaFloat64 (Float32frombits (Uint32 bs 0))
    Ny := viaFloat64 (Float32frombits (Uint32 bs 4))
    Nz := viaFloat64 (Float32frombits (Uint32 bs 8))
    V1x := viaFloat64 (Float32frombits (Uint32 bs 12))
    V1y := viaFloat64 (Float32frombits (Uint32 bs 16))
    V1z := viaFloat64 (Float32frombits (Uint32 bs 20))
    V2x := viaFloat64 (Float32frombits (Uint32 bs 24))
    V2y := viaFloat64 (Float32frombits (Uint32 bs 28))
    V2z := viaFloat64 (Float32frombits (Uint32 bs 32))
    V3x := viaFloat64 (Float32frombits (Uint32 bs 36))
    V3y := viaFloat64 (Float32frombits (Uint32 bs 40))
    V3z := viaFloat64 (Float32frombits (Uint32 bs 44)) }

/-- The zero value of `STLTri`. -/
def STLTri.zero : STLTri := ⟨0, 0, 0, 0, 0, 0, 0, 0, 0, 0, 0, 0⟩

/-- Model of the built-in `append(tris, tri)`. -/
def append (tris : Option (List STLTri)) (tri : STLTri) : Option (List STLTri) :=
  match tris with
  | none => some [tri]
  | some l => some (l ++ [tri])

/-! ## The functions of `stl.go` -/

/-- `nextLine` of `stl.go`: the next line of the reader, trimmed, and the reader after it. -/
def nextLine (buf : Bytes) : Except Error (Bytes × Bytes) :=
  match ReadString 10 buf with
  | none => .error (Error.ErrorfV "error reading line: %v" [] Error.EOF)
  | some (line, buf) => .ok (TrimSpace line, buf)

section ascii

variable (parseFloat : Bytes → Except Error F32)

/-- `threeFloats` of `stl.go`. -/
def threeFloats (p1 p2 p3 : Bytes) : Except Error (F32 × F32 × F32) :=
  let p1 := Replace p1 44 46
  let p2 := Replace p2 44 46
  let p3 := Replace p3 44 46
  match parseFloat p1 with
  | .error err => .error (Error.ErrorfV "first float: %v" [] err)
  | .ok f1 =>
    match parseFloat p2 with
    | .error err => .error (Error.ErrorfV "second float: %v" [] err)
    | .ok f2 =>
      match parseFloat p3 with
      | .error err => .error (Error.ErrorfV "third float: %v" [] err)
      | .ok f3 => .ok (f1, f2, f3)

/-- `getLine` of `stl.go`: the reader after the line, or the error. -/
def getLine (buf : Bytes) (s : Bytes) : Except Error Bytes :=
  match nextLine buf with
  | .error err => .error err
  | .ok (line, buf) =>
    if !HasPrefix line s then .error (Error.Errorf "expected %q: %q" [Arg.q s, Arg.q line])
    else .ok buf

/-- `getVertex` of `stl.go`: the three floats and the reader after the line; the index
expressions `parts[1]`, `parts[2]`, `parts[3]` are evaluated in this order and the first one
out of range panics. -/
def getVertex (buf : Bytes) : Res ((F32 × F32 × F32) × Bytes) :=
  match nextLine buf with
  | .error err => .err err
  | .ok (line, buf) =>
    if !HasPrefix line (bytes "vertex ") then
      .err (Error.Errorf "expected vertex: %q" [Arg.q line])
    else
      let parts := Split line 32
      match parts.get? 1 with
      | none => .panic 1 parts.length
      | some p1 =>
        match parts.get? 2 with
        | none => .panic 2 parts.length
        | some p2 =>
          match parts.get? 3 with
          | none => .panic 3 parts.length
          | some p3 =>
            match threeFloats parseFloat p1 p2 p3 with
            | .error err => .err err
            | .ok v => .ok (v, buf)

/-- One pass through the body of the `for` loop of `readAscii`. -/
inductive Step where
  | done (o : Outcome)
  | next (buf : Bytes) (tris : Option (List STLTri))

/-- The body of the `for` loop of `readAscii`, from the state `(buf, tris)`: the loop is left
(by `break` or by a `return`), or the next iteration starts from a new state. -/
def readAsciiBody (buf : Bytes) (tris : Option (List STLTri)) : Step :=
  match nextLine buf with
  | .error err => .done (.ret none (some err))
  | .ok (line, buf) =>
    if HasPrefix line (bytes "endsolid") then .done (.ret tris none)
    else if !HasPrefix line (bytes "facet normal ") then
      .done (.ret none (some (Error.Errorf "expected facet normal, got %q" [Arg.q line])))
    else
      let parts := Split line 32
      if parts.length < 5 then
        .done (.ret none (some (Error.Errorf "expected 5 parts, got %v: %q"
          [Arg.v parts.length, Arg.q line])))
      else
        match threeFloats parseFloat (parts.getD 2 []) (parts.getD 3 []) (parts.getD 4 []) with
        | .error err => .done (.ret none (some (Error.ErrorfV "nx, ny, nz parse: %v" [] err)))
        | .ok (nx, ny, nz) =>
          match getLine buf (bytes "outer loop") with
          | .error err => .done (.ret none (some err))
          | .ok buf =>
            match getVertex parseFloat buf with
            | .panic i n => .done (.panic i n)
            | .err err => .done (.ret none (some (Error.ErrorfV "v1x, v1y, v1z parse: %v" [] err)))
            | .ok ((v1x, v1y, v1z), buf) =>
              match getVertex parseFloat buf with
              | .panic i n => .done (.panic i n)
              | .err err =>
                .done (.ret none (some (Error.ErrorfV "v2x, v2y, v2z parse: %v" [] err)))
              | .ok ((v2x, v2y, v2z), buf) =>
                match getVertex parseFloat buf with
                | .panic i n => .done (.panic i n)
                | .err err =>
                  .done (.ret none (some (Error.ErrorfV "v3x, v3y, v3z parse: %v" [] err)))
                | .ok ((v3x, v3y, v3z), buf) =>
                  match getLine buf (bytes "endloop") with
                  | .error err => .done (.ret none (some err))
                  | .ok buf =>
                    match getLine buf (bytes "endfacet") with
                    | .error err => .done (.ret none (some err))
                    | .ok buf =>
                      .next buf (append tris
                        ⟨nx, ny, nz, v1x, v1y, v1z, v2x, v2y, v2z, v3x, v3y, v3z⟩)

/-- The `for` loop of `readAscii`, run for at most `fuel` iterations; `none` when the
iterations are used up before the loop is left. -/
def readAsciiLoop : Nat → Bytes → Option (List STLTri) → Option Outcome
  | 0, _, _ => none
  | fuel + 1, buf, tris =>
    match readAsciiBody parseFloat buf tris with
    | .done o => some o
    | .next buf tris => readAsciiLoop fuel buf tris

/-- `readAscii` of `stl.go`, on a reader whose unread bytes are `f`. Every iteration of the loop
reads at least one byte, so `f.length + 1` iterations are enough (`readAscii_terminates`). -/
def readAscii (f : Bytes) : Option Outcome :=
  match ReadString 10 f with
  | none => some (.ret none (some (Error.ErrorfV "error reading first line: %v" [] Error.EOF)))
  | some (_, buf) => readAsciiLoop parseFloat (buf.length + 1) buf none

end ascii

/-- The `for` loop of `readBinary`, with `k` iterations left to run, the next one for index `i`:
the reader is `f` and `tris` is the slice made before the loop. -/
def readBinaryLoop : Nat → Nat → Bytes → List STLTri → Outcome
  | 0, _, _, tris => .ret (some tris) none
  | k + 1, i, f, tris =>
    match ReadFull 48 f with
    | .error err => .ret none (some (Error.ErrorfV "read triangle #%v: %v" [Arg.v i] err))
    | .ok (bs, f) =>
      match ReadFull 2 f with
      | .error err => .ret none (some (Error.ErrorfV "read pad #%v: %v" [Arg.v i] err))
      | .ok (_, f) => readBinaryLoop k (i + 1) f (tris.set i (decodeSTLTri bs))

/-- `readBinary` of `stl.go`, on a reader whose unread bytes are `f`. The call
`make([]STLTri, numTris)` asks for `48 * numTris` bytes before any record is read; `mem` is the
number of bytes that the runtime can obtain for it, and when they do not suffice the process
ends with a fatal out-of-memory error. -/
def readBinary (mem : Nat) (f : Bytes) : Outcome :=
  match ReadFull 75 f with
  | .error err => .ret none (some (Error.ErrorfV "read comment: %v" [] err))
  | .ok (_, f) =>
    match ReadFull 4 f with
    | .error err => .ret none (some (Error.ErrorfV "read num triangles: %v" [] err))
    | .ok (bs, f) =>
      let numTris := Uint32 bs 0
      if mem < 48 * numTris then .fatal
      else readBinaryLoop numTris 0 f (List.replicate numTris STLTri.zero)

/-- `Read` of `stl.go`. The argument `file` is what `os.Open(filename)` gives: the contents
of the file, or the error of the call; `mem` is the memory that `readBinary` can obtain. -/
def Read (parseFloat : Bytes → Except Error F32) (mem : Nat) (file : Except Error Bytes) :
    Option Outcome :=
  match file with
  | .error err => some (.ret none (some err))
  | .ok f =>
    match ReadFull 5 f with
    | .error err => some (.ret none (some (Error.ErrorfV "read comment: %v" [] err)))
    | .ok (comment, f) =>
      if HasPrefix comment (bytes "solid") then readAscii parseFloat f
      else some (readBinary mem f)

/-- A memory of 1 GiB, for the evaluation of the decoders on concrete inputs. -/
def exampleMemory : Nat := 1073741824

/-- A stand-in for `strconv.ParseFloat(s, 32)` on which the decoders can be evaluated: it agrees
with `ParseFloat` on the tokens `0`, `1`, `-1`, `0.5` and `2`, and on every other token it
reports a syntax error. -/
def parseFloatSmall (s : Bytes) : Except Error F32 :=
  if s = bytes "0" then .ok 0
  else if s = bytes "1" then .ok 0x3F800000
  else if s = bytes "-1" then .ok 0xBF800000
  else if s = bytes "0.5" then .ok 0x3F000000
  else if s = bytes "2" then .ok 0x40000000
  else .error (Error.NumError "ParseFloat" s Error.ErrSyntax)

/-- The example input of the specification. -/
def exampleInput : Bytes :=
  bytes "solid test\nfacet normal 0 0 1\nouter loop\nvertex 0 0 0\nvertex 1 0 0\nvertex 0 1 0\nendloop\nendfacet\nendsolid test\n"

/-! ## The tool `stl-mbb` -/

/-- The place of a non-NaN `float32` in the order of the values: the magnitude bits, negated
when the sign bit is set (the two zeros have the same place). -/
def float32Rank (b : F32) : Int :=
  if (b / 2 ^ 31) % 2 = 1 then -((b % 2 ^ 31 : Nat) : Int) else ((b % 2 ^ 31 : Nat) : Int)

/-- The Go comparison `a < b` of two `float32` values, on their bit patterns: false when
either is a NaN. The comparison `a > b` is `float32Less b a`. -/
def float32Less (a b : F32) : Bool :=
  !float32IsNaN a && !float32IsNaN b && decide (float32Rank a < float32Rank b)

/-- The six variables `minX, minY, minZ, maxX, maxY, maxZ` of `main` in `stl-mbb.go`. -/
structure MBB where
  minX : F32
  minY : F32
  minZ : F32
  maxX : F32
  maxY : F32
  maxZ : F32
deriving DecidableEq, Repr

/-- The body of the `for i, tri := range tris` loop of `main` in `stl-mbb.go`: its eighteen
`if` statements, in order. -/
def mbbStep (i : Nat) (b : MBB) (tri : STLTri) : MBB :=
  let minX := b.minX
  let maxX := b.maxX
  let minY := b.minY
  let maxY := b.maxY
  let minZ := b.minZ
  let maxZ := b.maxZ
  let minX := if i == 0 || float32Less tri.V1x minX then tri.V1x else minX
  let minX := if i == 0 || float32Less tri.V2x minX then tri.V2x else minX
  let minX := if i == 0 || float32Less tri.V3x minX then tri.V3x else minX
  let maxX := if i == 0 || float32Less maxX tri.V1x then tri.V1x else maxX
  let maxX := if i == 0 || float32Less maxX tri.V2x then tri.V2x else maxX
  let maxX := if i == 0 || float32Less maxX tri.V3x then tri.V3x else maxX
  let minY := if i == 0 || float32Less tri.V1y minY then tri.V1y else minY
  let minY := if i == 0 || float32Less tri.V2y minY then tri.V2y else minY
  let minY := if i == 0 || float32Less tri.V3y minY then tri.V3y else minY
  let maxY := if i == 0 || float32Less maxY tri.V1y then tri.V1y else maxY
  let maxY := if i == 0 || float32Less maxY tri.V2y then tri.V2y else maxY
  let maxY := if i == 0 || float32Less maxY tri.V3y then tri.V3y else maxY
  let minZ := if i == 0 || float32Less tri.V1z minZ then tri.V1z else minZ
  let minZ := if i == 0 || float32Less tri.V2z minZ then tri.V2z else minZ
  let minZ := if i == 0 || float32Less tri.V3z minZ then tri.V3z else minZ
  let maxZ := if i == 0 || float32Less maxZ tri.V1z then tri.V1z else maxZ
  let maxZ := if i == 0 || float32Less maxZ tri.V2z then tri.V2z else maxZ
  let maxZ := if i == 0 || float32Less maxZ tri.V3z then tri.V3z else maxZ
  { minX := minX, minY := minY, minZ := minZ, maxX := maxX, maxY := maxY, maxZ := maxZ }

/-- The loop of `main` in `stl-mbb.go` from index `i` on. -/
def mbbLoop : Nat → MBB → List STLTri → MBB
  | _, b, [] => b
  | i, b, tri :: rest => mbbLoop (i + 1) (mbbStep i b tri) rest

/-- The six values that `stl-mbb` prints for the triangles `tris`: the variables start at 0. -/
def mbb (tris : List STLTri) : MBB := mbbLoop 0 ⟨0, 0, 0, 0, 0, 0⟩ tris

/-- The triangle of the example input of the specification: normal (0,0,1), vertices
(0,0,0), (1,0,0), (0,1,0); `0x3F800000` is the `float32` 1. -/
def exampleTri : STLTri := ⟨0, 0, 0x3F800000, 0, 0, 0, 0x3F800000, 0, 0, 0, 0x3F800000, 0⟩


/-! ## The tool `stl2voxels` -/

/-- The closure `idx` of `main` in `stl2voxels.go`, for the voxel counts `nx`, `ny`. -/
def idx (nx ny : Nat) (x y z : Nat) : Nat := (z * nx * ny) + (y * nx) + x

/-- The indices at which the write-out of slice `z` reads `voxels`, in the order of the reads,
as long as no read panics: the loops are `for y := 0; y < ny; y++` and, as in the source,
`for x := 0; x < ny; x++`. -/
def sliceReads (nx ny z : Nat) : List Nat :=
  (List.range ny).flatMap (fun y => (List.range ny).map (fun x => idx nx ny x y z))

/-- The write-out of slice `z` on a `voxels` slice of length `nx * ny * nz`: the number of
samples written, and the index whose read panics (`index out of range`) if there is one. -/
def writeSlice (nx ny nz z : Nat) : Nat × Option Nat :=
  let reads := sliceReads nx ny z
  let ok := reads.takeWhile (fun i => decide (i < nx * ny * nz))
  (ok.length, (reads.drop ok.length).head?)

/-- A `float64`: NaN, an infinity, or a finite value, given by the rational number it stands
for. The two zeros are one value here: no operation of `clamp` tells them apart. -/
inductive F64 where
  | nan
  | inf (negative : Bool)
  | fin (q : ℚ)
deriving DecidableEq

/-- The exponent of the binade of `q`: the greatest `e` with `2 ^ e ≤ |q|`, and `-1022`, the
exponent of the subnormal numbers, when that is less. -/
def binade (q : ℚ) : Int := max (Int.log 2 |q|) (-1022)

/-- The distance between neighbouring `float64` values in the binade of `q`: the significand
has 53 bits. -/
def ulp (q : ℚ) : ℚ := 2 ^ (binade q - 52)

/-- The integer nearest to `x`, the even one of the two when `x` is half way between them. -/
def roundHalfEven (x : ℚ) : Int :=
  if x - ⌊x⌋ < 1 / 2 then ⌊x⌋
  else if 1 / 2 < x - ⌊x⌋ then ⌊x⌋ + 1
  else if ⌊x⌋ % 2 = 0 then ⌊x⌋ else ⌊x⌋ + 1

/-- The multiple of `ulp q` nearest to `q`, ties to the even multiple. -/
def nearest (q : ℚ) : ℚ := roundHalfEven (q / ulp q) * ulp q

/-- The `float64` that an operation with the exact result `q` returns: `q` rounded to the
nearest value, ties to even, and an infinity when that is `2 ^ 1024` or more in magnitude. -/
def round64 (q : ℚ) : F64 :=
  if (2 : ℚ) ^ 1024 ≤ |nearest q| then .inf (decide (q < 0)) else .fin (nearest q)

/-- The comparison `x < y` of two `float64` values; false when one of them is NaN. -/
def F64.lt : F64 → F64 → Bool
  | .fin a, .fin b => decide (a < b)
  | .fin _, .inf n => !n
  | .inf n, .fin _ => n
  | .inf n, .inf n2 => n && !n2
  | _, _ => false

/-- The comparison `x <= y` of two `float64` values; false when one of them is NaN. -/
def F64.le : F64 → F64 → Bool
  | .fin a, .fin b => decide (a ≤ b)
  | .fin _, .inf n => !n
  | .inf n, .fin _ => n
  | .inf n, .inf n2 => n || !n2
  | _, _ => false

/-- The product `x * y` of two `float64` values. -/
def F64.mul : F64 → F64 → F64
  | .fin a, .fin b => round64 (a * b)
  | .fin a, .inf n => if a = 0 then .nan else .inf (n != decide (a < 0))
  | .inf n, .fin b => if b = 0 then .nan else .inf (n != decide (b < 0))
  | .inf n, .inf n2 => .inf (n != n2)
  | _, _ => .nan

/-- The sum `x + y` of two `float64` values. -/
def F64.add : F64 → F64 → F64
  | .fin a, .fin b => round64 (a + b)
  | .fin _, .inf n => .inf n
  | .inf n, .fin _ => .inf n
  | .inf n, .inf n2 => if n = n2 then .inf n else .nan
  | _, _ => .nan

/-- The fused multiply-add `x * y + z`: one rounding of the exact result. -/
def F64.fma : F64 → F64 → F64 → F64
  | .fin a, .fin b, .fin c => round64 (a * b + c)
  | .fin _, .fin _, z => z
  | x, y, z => F64.add (F64.mul x y) z

/-- Model of `math.Floor`. -/
def F64.floor : F64 → F64
  | .fin a => .fin ⌊a⌋
  | x => x

/-- The conversion `float64(n)` of an `int`. -/
def F64.ofInt (n : Int) : F64 := round64 n

/-- The conversion `int(x)` of a `float64`: the value truncated towards zero when that is an
`int64`. For every other value (NaN, the infinities, a value out of range) the language leaves
the result to the implementation; it is here the least `int64`, which the conversion
instruction of amd64 returns. -/
def F64.toInt : F64 → Int
  | .fin a =>
    let t := if 0 ≤ a then ⌊a⌋ else ⌈a⌉
    if -2 ^ 63 ≤ t ∧ t < 2 ^ 63 then t else -2 ^ 63
  | _ => -2 ^ 63

/-- `clamp` of `stl2voxels.go`. The language allows an implementation to combine the
multiplication and the addition of `0.5 + v*float64(maxVal)` into one fused operation with one
rounding, and the compiler does so for some processors (arm64) and not for others (amd64 by
default), where the product and the sum are rounded one after the other: `fused` says
which. -/
def clamp (fused : Bool) (v : F64) (maxVal : Int) : Int :=
  if F64.lt v (.fin 0) then 0
  else if F64.le (.fin 1) v then maxVal
  else
    F64.toInt (F64.floor
      (if fused then F64.fma v (F64.ofInt maxVal) (.fin (1 / 2))
       else F64.add (.fin (1 / 2)) (F64.mul v (F64.ofInt maxVal))))


/-! ## Vocabulary of the statements -/

/-- A byte that is ASCII and not white space. No byte of the encoding of a white-space rune is
plain. -/
def plain (b : Nat) : Bool := decide (b < 128) && !isAsciiSpace b

/-- A token of the ASCII grammar: a non-empty run of plain bytes. -/
def isToken (t : Bytes) : Bool := !t.isEmpty && t.all plain

/-- The `float32` that the decoder gives to a token: the decimal commas are replaced by points
and the result is parsed; `none` when the token does not parse. -/
def tokenValue (parseFloat : Bytes → Except Error F32) (t : Bytes) : Option F32 :=
  match parseFloat (Replace t 44 46) with
  | .ok v => some v
  | .error _ => none

/-- A numeric token: a token that parses as a float. -/
def isNumeric (parseFloat : Bytes → Except Error F32) (t : Bytes) : Bool :=
  isToken t && (tokenValue parseFloat t).isSome

/-- The twelve tokens of a facet block, in file order. -/
structure FacetText where
  nx : Bytes
  ny : Bytes
  nz : Bytes
  v1x : Bytes
  v1y : Bytes
  v1z : Bytes
  v2x : Bytes
  v2y : Bytes
  v2z : Bytes
  v3x : Bytes
  v3y : Bytes
  v3z : Bytes

/-- The tokens of a block as a list. -/
def FacetText.tokens (t : FacetText) : List Bytes :=
  [t.nx, t.ny, t.nz, t.v1x, t.v1y, t.v1z, t.v2x, t.v2y, t.v2z, t.v3x, t.v3y, t.v3z]

/-- A line made of a keyword and three tokens separated by single spaces, with its newline. -/
def tripleLine (kw a b c : Bytes) : Bytes := kw ++ a ++ 32 :: b ++ 32 :: c ++ [10]

/-- The seven lines of a facet block. -/
def FacetText.lines (t : FacetText) : List Bytes :=
  [tripleLine (bytes "facet normal ") t.nx t.ny t.nz,
   bytes "outer loop\n",
   tripleLine (bytes "vertex ") t.v1x t.v1y t.v1z,
   tripleLine (bytes "vertex ") t.v2x t.v2y t.v2z,
   tripleLine (bytes "vertex ") t.v3x t.v3y t.v3z,
   bytes "endloop\n",
   bytes "endfacet\n"]

/-- The text of the first `j` lines of a facet block. -/
def FacetText.firstLines (t : FacetText) (j : Nat) : Bytes := (t.lines.take j).flatten

/-- The text of a facet block. -/
def FacetText.text (t : FacetText) : Bytes := t.lines.flatten

/-- Every token of the block is numeric. -/
def FacetText.wellFormed (parseFloat : Bytes → Except Error F32) (t : FacetText) : Bool :=
  t.tokens.all (isNumeric parseFloat)

/-- The triangle whose fields are the values of the tokens of the block. -/
def FacetText.tri (parseFloat : Bytes → Except Error F32) (t : FacetText) : STLTri :=
  { Nx := (tokenValue parseFloat t.nx).getD 0
    Ny := (tokenValue parseFloat t.ny).getD 0
    Nz := (tokenValue parseFloat t.nz).getD 0
    V1x := (tokenValue parseFloat t.v1x).getD 0
    V1y := (tokenValue parseFloat t.v1y).getD 0
    V1z := (tokenValue parseFloat t.v1z).getD 0
    V2x := (tokenValue parseFloat t.v2x).getD 0
    V2y := (tokenValue parseFloat t.v2y).getD 0
    V2z := (tokenValue parseFloat t.v2z).getD 0
    V3x := (tokenValue parseFloat t.v3x).getD 0
    V3y := (tokenValue parseFloat t.v3y).getD 0
    V3z := (tokenValue parseFloat t.v3z).getD 0 }

/-- The slice that `append` builds from `tris` and the triangles of `l`, one call for each. -/
def appendAll (tris : Option (List STLTri)) (l : List STLTri) : Option (List STLTri) :=
  l.foldl append tris


/-- The text of a sequence of facet blocks. -/
def blocksText (ts : List FacetText) : Bytes := (ts.map FacetText.text).flatten


/-- The facet block of the example input of the specification. -/
def exampleFacet : FacetText :=
  { nx := bytes "0", ny := bytes "0", nz := bytes "1"
    v1x := bytes "0", v1y := bytes "0", v1z := bytes "0"
    v2x := bytes "1", v2y := bytes "0", v2z := bytes "0"
    v3x := bytes "0", v3y := bytes "1", v3z := bytes "0" }


/-- No field of the triangle is a signalling NaN. -/
def STLTri.noSignalling (t : STLTri) : Bool :=
  [t.Nx, t.Ny, t.Nz, t.V1x, t.V1y, t.V1z, t.V2x, t.V2y, t.V2z, t.V3x, t.V3y, t.V3z].all
    (fun b => !float32IsSignalling b)

/-- The triangle with every field stored through `float64`: a field that is a signalling NaN
has its quiet bit set, every other field is unchanged. -/
def STLTri.quieted (t : STLTri) : STLTri :=
  { Nx := viaFloat64 t.Nx, Ny := viaFloat64 t.Ny, Nz := viaFloat64 t.Nz
    V1x := viaFloat64 t.V1x, V1y := viaFloat64 t.V1y, V1z := viaFloat64 t.V1z
    V2x := viaFloat64 t.V2x, V2y := viaFloat64 t.V2y, V2z := viaFloat64 t.V2z
    V3x := viaFloat64 t.V3x, V3y := viaFloat64 t.V3y, V3z := viaFloat64 t.V3z }

/-- The twelve little-endian 4-byte words of `inp` that start at offset `off`, each taken as
the bit pattern of a `float32`, in the order of the fields of `STLTri`. -/
def wordsAt (inp : Bytes) (off : Nat) : STLTri :=
  { Nx := Float32frombits (Uint32 inp off)
    Ny := Float32frombits (Uint32 inp (off + 4))
    Nz := Float32frombits (Uint32 inp (off + 8))
    V1x := Float32frombits (Uint32 inp (off + 12))
    V1y := Float32frombits (Uint32 inp (off + 16))
    V1z := Float32frombits (Uint32 inp (off + 20))
    V2x := Float32frombits (Uint32 inp (off + 24))
    V2y := Float32frombits (Uint32 inp (off + 28))
    V2z := Float32frombits (Uint32 inp (off + 32))
    V3x := Float32frombits (Uint32 inp (off + 36))
    V3y := Float32frombits (Uint32 inp (off + 40))
    V3z := Float32frombits (Uint32 inp (off + 44)) }

/-- The triangle that `binary.Read` stores for the twelve little-endian 4-byte words of `inp`
that start at offset `off`: each field is the `float32` of its word, stored through
`float64`. -/
def triangleAt (inp : Bytes) (off : Nat) : STLTri := (wordsAt inp off).quieted

/-- The error of a binary decode that stops in record `index` with `part` bytes of the record
present: the 48 data bytes are short when `part < 48`, the 2 padding bytes otherwise; the cause
is `io.EOF` when the read found no byte at all and `io.ErrUnexpectedEOF` when it found some. -/
def truncationError (index part : Nat) : Error :=
  if part < 48 then
    Error.ErrorfV "read triangle #%v: %v" [Arg.v index]
      (if part = 0 then Error.EOF else Error.ErrUnexpectedEOF)
  else
    Error.ErrorfV "read pad #%v: %v" [Arg.v index]
      (if part = 48 then Error.EOF else Error.ErrUnexpectedEOF)


/-- A binary input with one record: 80 zero header bytes, the count 1, and the 50 bytes
0, 1, ..., 49. -/
def oneRecordInput : Bytes := List.replicate 80 0 ++ [1, 0, 0, 0] ++ List.range 50

/-- A buffer that begins with `solid` and is otherwise a binary stream with the count 0: the
five bytes of `solid`, 75 zero bytes and the four bytes of the count. -/
def solidBinaryInput : Bytes := bytes "solid" ++ List.replicate 75 0 ++ [0, 0, 0, 0]

/-- A binary input that declares 2 triangles and holds one complete record followed by 49
bytes: it ends inside the padding of record 1. -/
def truncatedInput : Bytes := List.replicate 80 0 ++ [2, 0, 0, 0] ++ List.replicate 99 7


/-- An ASCII input whose first facet block is well formed and whose second block has
`outer Loop` in place of `outer loop`. -/
def outerLoopCaseInput : Bytes :=
  bytes "solid test\n" ++ exampleFacet.text
    ++ bytes "facet normal 0 0 1\nouter Loop\nvertex 0 0 0\nvertex 1 0 0\nvertex 0 1 0\nendloop\nendfacet\nendsolid test\n"


/-- The keyword that the decoder expects at the start of line `j` of a facet block (lines are
counted from 0). -/
def expectedKeyword (j : Nat) : Bytes :=
  match j with
  | 0 => bytes "facet normal "
  | 1 => bytes "outer loop"
  | 2 => bytes "vertex "
  | 3 => bytes "vertex "
  | 4 => bytes "vertex "
  | 5 => bytes "endloop"
  | _ => bytes "endfacet"

/-- The error that the decoder returns for line `j` of a facet block when the trimmed line `l`
does not begin with the expected keyword. -/
def keywordError (j : Nat) (l : Bytes) : Error :=
  match j with
  | 0 => Error.Errorf "expected facet normal, got %q" [Arg.q l]
  | 1 => Error.Errorf "expected %q: %q" [Arg.q (bytes "outer loop"), Arg.q l]
  | 2 => Error.ErrorfV "v1x, v1y, v1z parse: %v" [] (Error.Errorf "expected vertex: %q" [Arg.q l])
  | 3 => Error.ErrorfV "v2x, v2y, v2z parse: %v" [] (Error.Errorf "expected vertex: %q" [Arg.q l])
  | 4 => Error.ErrorfV "v3x, v3y, v3z parse: %v" [] (Error.Errorf "expected vertex: %q" [Arg.q l])
  | 5 => Error.Errorf "expected %q: %q" [Arg.q (bytes "endloop"), Arg.q l]
  | _ => Error.Errorf "expected %q: %q" [Arg.q (bytes "endfacet"), Arg.q l]


/-- The error that the decoder returns when the reader ends, without a newline-terminated
line, where line `j` of a facet block is expected: the read error of `nextLine`, wrapped in the
`parse` error of the vertex when the line is a vertex line. -/
def cutError (j : Nat) : Error :=
  match j with
  | 2 => Error.ErrorfV "v1x, v1y, v1z parse: %v" []
      (Error.ErrorfV "error reading line: %v" [] Error.EOF)
  | 3 => Error.ErrorfV "v2x, v2y, v2z parse: %v" []
      (Error.ErrorfV "error reading line: %v" [] Error.EOF)
  | 4 => Error.ErrorfV "v3x, v3y, v3z parse: %v" []
      (Error.ErrorfV "error reading line: %v" [] Error.EOF)
  | _ => Error.ErrorfV "error reading line: %v" [] Error.EOF

/-- The format of the error that names the triple of token `k` of a facet block (tokens are
counted from 0 in file order). -/
def tripleFormat (k : Nat) : String :=
  match k / 3 with
  | 0 => "nx, ny, nz parse: %v"
  | 1 => "v1x, v1y, v1z parse: %v"
  | 2 => "v2x, v2y, v2z parse: %v"
  | _ => "v3x, v3y, v3z parse: %v"

/-- The format of the error that names the place of token `k` within its triple. -/
def ordinalFormat (k : Nat) : String :=
  match k % 3 with
  | 0 => "first float: %v"
  | 1 => "second float: %v"
  | _ => "third float: %v"

/-- The number of lines of a facet block up to and including the line of token `k`: the
`facet normal` line for the first three tokens; for the others the `outer loop` line comes in
between. -/
def tokenLines (k : Nat) : Nat := if k < 3 then 1 else k / 3 + 2

/-- A facet block whose token 7 (the second coordinate of the second vertex) is `x`. -/
def badTokenFacet : FacetText :=
  { nx := bytes "0", ny := bytes "0", nz := bytes "1"
    v1x := bytes "0", v1y := bytes "0", v1z := bytes "0"
    v2x := bytes "1", v2y := bytes "x", v2z := bytes "0"
    v3x := bytes "0", v3y := bytes "1", v3z := bytes "0" }


/-- An ASCII input whose first vertex line has two tokens after the keyword. -/
def shortVertexInput : Bytes :=
  bytes "solid test\nfacet normal 0 0 1\nouter loop\nvertex 1 2\nvertex 1 0 0\nvertex 0 1 0\nendloop\nendfacet\nendsolid test\n"

/-- Two binary inputs with one record and the same 48 data bytes: they differ in the header
bytes 5..79, in the two padding bytes, and the second has bytes after the record. -/
def oneRecordVariant : Bytes :=
  List.replicate 5 0 ++ List.replicate 75 9 ++ [1, 0, 0, 0] ++ List.range 48 ++ [7, 7, 3, 3, 3]


/-- The four bytes that `binary.LittleEndian` stores for a 32-bit word. -/
def littleEndian32 (b : Nat) : Bytes :=
  [b % 256, b / 256 % 256, b / 65536 % 256, b / 16777216 % 256]

/-- The 48 data bytes of the binary record of a triangle: its twelve fields in declaration
order, little-endian. -/
def recordData (t : STLTri) : Bytes :=
  littleEndian32 t.Nx ++ littleEndian32 t.Ny ++ littleEndian32 t.Nz
    ++ littleEndian32 t.V1x ++ littleEndian32 t.V1y ++ littleEndian32 t.V1z
    ++ littleEndian32 t.V2x ++ littleEndian32 t.V2y ++ littleEndian32 t.V2z
    ++ littleEndian32 t.V3x ++ littleEndian32 t.V3y ++ littleEndian32 t.V3z

/-- Modelled from the spec: the binary `encode` operation of section 4.4, which package `stl`
does not contain (it defines only `Read` and its helpers). It emits the layout of section 4.3
for the triangles `m`: an 80-byte header (of zero bytes: the specification leaves its content
free), the number of triangles as a little-endian `uint32`, and for each triangle, in order,
its twelve `float32` fields little-endian and the two attribute bytes (zero). -/
def encodeBinary (m : List STLTri) : Bytes :=
  List.replicate 80 0 ++ littleEndian32 m.length
    ++ m.flatMap (fun t => recordData t ++ [0, 0])

/-- Every field of the triangle is a 32-bit pattern. -/
def STLTri.is32 (t : STLTri) : Bool :=
  [t.Nx, t.Ny, t.Nz, t.V1x, t.V1y, t.V1z, t.V2x, t.V2y, t.V2z, t.V3x, t.V3y, t.V3z].all
    (fun b => decide (b < 4294967296))

/-- A triangle whose first field is the signalling NaN `0x7FA00000`. -/
def signallingTri : STLTri := { STLTri.zero with Nx := 0x7FA00000 }

/-- A binary input with one record whose first word is the signalling NaN `0x7FA00000`
(bytes `00 00 A0 7F`); the other words are zero. -/
def signallingInput : Bytes :=
  List.replicate 80 0 ++ [1, 0, 0, 0] ++ [0x00, 0x00, 0xA0, 0x7F] ++ List.replicate 46 0

/-- A complete binary input of 33554432 records: 80 zero header bytes, the count `0x02000000`,
and 50 zero bytes for each record (1.6 GB). Its slice of triangles takes 1.5 GiB. -/
def largeInput : Bytes :=
  (List.replicate 80 0 ++ [0, 0, 0, 2]) ++ List.replicate (50 * 33554432) 0

/-- A binary input of 94 bytes that declares `0xFFFFFFFF` triangles. -/
def hugeCountInput : Bytes :=
  List.replicate 80 0 ++ [0xFF, 0xFF, 0xFF, 0xFF] ++ List.replicate 10 0


/-- A space or a tab. -/
def isBlank (c : Nat) : Bool := c == 32 || c == 9

/-- A line of the input with the white space added to it: `text` is the line without its
newline, `lead` is added at its start and `trail` at its end, before the newline. -/
structure LinePad where
  lead : Bytes
  text : Bytes
  trail : Bytes

/-- What is added is made of spaces and tabs, and the line holds no newline. -/
def LinePad.valid (p : LinePad) : Bool :=
  p.lead.all isBlank && p.trail.all isBlank && p.text.all (fun c => c != 10)

/-- The input made of the lines `ls`, each with its newline and nothing added, and then
`tail`. -/
def plainLines (ls : List LinePad) (tail : Bytes) : Bytes :=
  ls.flatMap (fun p => p.text ++ [10]) ++ tail

/-- The input made of the lines `ls` with the white space added, each with its newline, and
then `tail`. -/
def paddedLines (ls : List LinePad) (tail : Bytes) : Bytes :=
  ls.flatMap (fun p => p.lead ++ p.text ++ p.trail ++ [10]) ++ tail

/-- The second reader is the first with spaces or tabs added around some of its lines. -/
def PadRel (a b : Bytes) : Prop :=
  ∃ (ls : List LinePad) (tail : Bytes),
    (∀ p ∈ ls, p.valid = true) ∧ a = plainLines ls tail ∧ b = paddedLines ls tail

/-- The first reader is the second followed by a text without newline: an unterminated last
line, or the end of one. -/
def CutRel (a b : Bytes) : Prop := ∃ l : Bytes, (∀ x ∈ l, x ≠ 10) ∧ a = b ++ l

/-- `nextLine` does not tell two readers related by `R` apart: it gives the same error on both,
or the same line and readers that are related again. -/
def LineRel (R : Bytes → Bytes → Prop) : Prop :=
  ∀ a b, R a b →
    (∃ e, nextLine a = .error e ∧ nextLine b = .error e)
    ∨ (∃ line a2 b2, nextLine a = .ok (line, a2) ∧ nextLine b = .ok (line, b2) ∧ R a2 b2)

/-- Two passes through the loop body end alike: the same result, or the same slice and
readers related by `R`. -/
def StepRel (R : Bytes → Bytes → Prop) (s s2 : Step) : Prop :=
  match s, s2 with
  | .done o, .done o2 => o = o2
  | .next a t, .next b t2 => t = t2 ∧ R a b
  | _, _ => False

/-- The example input with its lines indented by spaces and tabs and followed by spaces. -/
def examplePads : List LinePad :=
  [⟨bytes "  ", bytes "facet normal 0 0 1", bytes " "⟩,
   ⟨bytes "\t", bytes "outer loop", []⟩,
   ⟨bytes "\t\t", bytes "vertex 0 0 0", bytes "  "⟩,
   ⟨bytes "    ", bytes "vertex 1 0 0", []⟩,
   ⟨[], bytes "vertex 0 1 0", bytes "\t"⟩,
   ⟨bytes " ", bytes "endloop", bytes " "⟩,
   ⟨bytes " ", bytes "endfacet", []⟩,
   ⟨bytes " \t ", bytes "endsolid test", bytes " "⟩]


/-- A value of the type `float64`: NaN, an infinity, or a finite value that rounding leaves
unchanged. -/
def F64.isFloat64 : F64 → Bool
  | .fin a => decide (round64 a = .fin a)
  | _ => true


/-- The `float64` value of `0.5 + v*float64(maxVal)` for a finite `v` that stands for `q`, when
no operation overflows: one rounding of the exact result when the operations are fused, and
the product and the sum rounded one after the other when they are not. -/
def scaled (fused : Bool) (q : ℚ) (maxVal : Int) : ℚ :=
  if fused then nearest (q * nearest (maxVal : ℚ) + 1 / 2)
  else nearest (1 / 2 + nearest (q * nearest (maxVal : ℚ)))


/-! ## Facts about the library models -/

theorem spaceRunes_not_plain : ∀ r ∈ spaceRunes, r ≠ [] ∧ ∀ b ∈ r, plain b = false := by
  decide

theorem spaceRunes_rev_not_plain :
    ∀ r ∈ spaceRunes.map List.reverse, r ≠ [] ∧ ∀ b ∈ r, plain b = false := by
  decide

theorem find_none_of_plain (table : List Bytes)
    (ht : ∀ r ∈ table, r ≠ [] ∧ ∀ b ∈ r, plain b = false) (c : Nat) (s : Bytes)
    (hc : plain c = true) : table.find? (fun r => r.isPrefixOf (c :: s)) = none := by
  rw [List.find?_eq_none]
  intro r hr hp
  obtain ⟨hne, hall⟩ := ht r hr
  cases r with
  | nil => exact hne rfl
  | cons r0 rs =>
    simp only [List.isPrefixOf, Bool.and_eq_true, beq_iff_eq] at hp
    have := hall r0 (List.mem_cons_self _ _)
    rw [hp.1, hc] at this
    exact Bool.noConfusion this

theorem stripRunes_plain (table : List Bytes)
    (ht : ∀ r ∈ table, r ≠ [] ∧ ∀ b ∈ r, plain b = false) (n c : Nat) (s : Bytes)
    (hc : plain c = true) : stripRunes table n (c :: s) = c :: s := by
  cases n with
  | zero => rfl
  | succ n => simp only [stripRunes, find_none_of_plain table ht c s hc]

theorem stripRunes_append_plain (table : List Bytes)
    (ht : ∀ r ∈ table, r ≠ [] ∧ ∀ b ∈ r, plain b = false) (n : Nat) (a b : Bytes)
    (hb : ∀ x ∈ b, plain x = true) : ∃ a2, stripRunes table n (a ++ b) = a2 ++ b := by
  induction n generalizing a with
  | zero => exact ⟨a, rfl⟩
  | succ n ih =>
    simp only [stripRunes]
    cases hf : table.find? (fun r => r.isPrefixOf (a ++ b)) with
    | none => exact ⟨a, rfl⟩
    | some r =>
      have hr := List.mem_of_find?_eq_some hf
      have hp := List.find?_some hf
      simp only [List.isPrefixOf_iff_prefix] at hp
      obtain ⟨-, hall⟩ := ht r hr
      have hle : r.length ≤ a.length := by
        by_contra hlt
        push_neg at hlt
        obtain ⟨t, ht2⟩ := hp
        have h1 : (r ++ t)[a.length]? = (a ++ b)[a.length]? := by rw [ht2]
        rw [List.getElem?_append_left hlt, List.getElem?_append_right (le_refl _),
          Nat.sub_self] at h1
        cases b with
        | nil =>
          have := congrArg List.length ht2
          simp only [List.length_append, List.length_nil] at this
          omega
        | cons b0 bs =>
          simp only [List.getElem?_cons_zero] at h1
          have h3 := hall b0 (List.getElem?_mem h1)
          have h4 := hb b0 (List.mem_cons_self _ _)
          rw [h4] at h3
          exact Bool.noConfusion h3
      have hdrop : List.drop r.length (a ++ b) = List.drop r.length a ++ b := by
        rw [List.drop_append_of_le_length hle]
      dsimp only
      rw [hdrop]
      exact ih _

theorem TrimLeft_plain (c : Nat) (s : Bytes) (hc : plain c = true) :
    TrimLeft (c :: s) = c :: s :=
  stripRunes_plain spaceRunes spaceRunes_not_plain _ c s hc

theorem TrimRight_append_plain (a b : Bytes) (hb : ∀ x ∈ b, plain x = true) :
    ∃ a2, TrimRight (b ++ a) = b ++ a2 := by
  obtain ⟨a2, h⟩ := stripRunes_append_plain (spaceRunes.map List.reverse)
    spaceRunes_rev_not_plain (b ++ a).length a.reverse b.reverse
    (fun x hx => hb x (List.mem_reverse.mp hx))
  refine ⟨a2.reverse, ?_⟩
  unfold TrimRight
  rw [List.reverse_append, h, List.reverse_append, List.reverse_reverse]

/-- White-space trimming never removes a leading run of plain bytes. -/
theorem TrimSpace_plain_prefix (c : Nat) (p a : Bytes) (hc : plain c = true)
    (hp : ∀ x ∈ p, plain x = true) : ∃ a2, TrimSpace (c :: p ++ a) = c :: p ++ a2 := by
  unfold TrimSpace
  rw [List.cons_append, TrimLeft_plain c _ hc]
  have := TrimRight_append_plain a (c :: p) (by
    intro x hx
    rcases List.mem_cons.mp hx with h | h
    · exact h ▸ hc
    · exact hp x h)
  simpa using this

theorem TrimRight_newline (s : Bytes) (c : Nat) (hc : plain c = true) :
    TrimRight (s ++ [c, 10]) = s ++ [c] := by
  unfold TrimRight
  have h1 : (s ++ [c, 10]).reverse = 10 :: c :: s.reverse := by simp
  have h2 : (s ++ [c, 10]).length = s.length + 1 + 1 := by simp
  rw [h1, h2]
  have h3 : (spaceRunes.map List.reverse).find? (fun r => r.isPrefixOf (10 :: c :: s.reverse))
      = some [10] := by
    simp [spaceRunes, List.find?, List.isPrefixOf]
  rw [stripRunes, h3]
  simp only [List.length_singleton, List.drop_succ_cons, List.drop_zero]
  rw [stripRunes_plain _ spaceRunes_rev_not_plain _ c _ hc]
  simp

/-- The trimmed form of a line that starts and ends with a plain byte and is followed by the
newline is the line itself. -/
theorem TrimSpace_line (c d : Nat) (s : Bytes) (hc : plain c = true) (hd : plain d = true) :
    TrimSpace (c :: s ++ [d, 10]) = c :: s ++ [d] := by
  unfold TrimSpace
  rw [List.cons_append, TrimLeft_plain c _ hc, ← List.cons_append, TrimRight_newline _ d hd]

theorem TrimSpace_single (c : Nat) (hc : plain c = true) : TrimSpace [c, 10] = [c] := by
  unfold TrimSpace
  rw [TrimLeft_plain c _ hc]
  exact TrimRight_newline [] c hc

theorem TrimSpace_newline : TrimSpace [10] = [] := by decide

theorem ReadString_append (l rest : Bytes) (h : ∀ x ∈ l, x ≠ 10) :
    ReadString 10 (l ++ 10 :: rest) = some (l ++ [10], rest) := by
  induction l with
  | nil => simp [ReadString]
  | cons c cs ih =>
    have hc : c ≠ 10 := h c (List.mem_cons_self _ _)
    have := ih (fun x hx => h x (List.mem_cons_of_mem _ hx))
    simp [ReadString, hc, this]

theorem ReadString_some (f line rest : Bytes) (h : ReadString 10 f = some (line, rest)) :
    f = line ++ rest ∧ line ≠ [] := by
  induction f generalizing line with
  | nil => simp [ReadString] at h
  | cons c cs ih =>
    simp only [ReadString] at h
    by_cases hc : c = 10
    · simp only [hc, if_true, Option.some.injEq, Prod.mk.injEq] at h
      obtain ⟨h1, h2⟩ := h
      subst h1 h2
      simp [hc]
    · simp only [hc, if_false] at h
      cases hr : ReadString 10 cs with
      | none => simp [hr] at h
      | some p =>
        obtain ⟨l2, r2⟩ := p
        simp only [hr, Option.some.injEq, Prod.mk.injEq] at h
        obtain ⟨h1, h2⟩ := h
        subst h1 h2
        obtain ⟨e1, -⟩ := ih l2 hr
        simp [e1]

theorem ReadString_length (f line rest : Bytes) (h : ReadString 10 f = some (line, rest)) :
    rest.length < f.length := by
  obtain ⟨h1, h2⟩ := ReadString_some f line rest h
  have : 0 < line.length := List.length_pos.mpr h2
  rw [h1, List.length_append]
  omega

theorem Split_nonempty (s : Bytes) (sep : Nat) : Split s sep ≠ [] := by
  induction s with
  | nil => simp [Split]
  | cons c cs ih =>
    simp only [Split]
    split
    · simp
    · split <;> simp

theorem Split_token (t : Bytes) (h : ∀ x ∈ t, x ≠ 32) : Split t 32 = [t] := by
  induction t with
  | nil => simp [Split]
  | cons c cs ih =>
    have hc : c ≠ 32 := h c (List.mem_cons_self _ _)
    have := ih (fun x hx => h x (List.mem_cons_of_mem _ hx))
    simp [Split, hc, this]

theorem Split_append (t rest : Bytes) (h : ∀ x ∈ t, x ≠ 32) :
    Split (t ++ 32 :: rest) 32 = t :: Split rest 32 := by
  induction t with
  | nil => simp [Split]
  | cons c cs ih =>
    have hc : c ≠ 32 := h c (List.mem_cons_self _ _)
    have := ih (fun x hx => h x (List.mem_cons_of_mem _ hx))
    simp [Split, hc, this]

/-! ## Lines -/

theorem plain_ne_newline (x : Nat) (h : plain x = true) : x ≠ 10 := by
  rintro rfl
  exact Bool.noConfusion h

theorem plain_ne_space (x : Nat) (h : plain x = true) : x ≠ 32 := by
  rintro rfl
  exact Bool.noConfusion h

theorem isToken_iff (t : Bytes) : isToken t = true ↔ t ≠ [] ∧ ∀ x ∈ t, plain x = true := by
  cases t <;> simp [isToken]

theorem nextLine_append (l rest : Bytes) (h : ∀ x ∈ l, x ≠ 10) :
    nextLine (l ++ 10 :: rest) = .ok (TrimSpace (l ++ [10]), rest) := by
  simp [nextLine, ReadString_append l rest h]

theorem nextLine_length (buf line rest : Bytes) (h : nextLine buf = .ok (line, rest)) :
    rest.length < buf.length := by
  unfold nextLine at h
  cases hr : ReadString 10 buf with
  | none => simp [hr] at h
  | some p =>
    obtain ⟨l, r⟩ := p
    simp only [hr, Except.ok.injEq, Prod.mk.injEq] at h
    rw [← h.2]
    exact ReadString_length buf l r hr

/-- The body of a keyword line with three tokens: its bytes are not newlines and its trimmed
form is the line without the newline. -/
theorem tripleLine_body (k0 : Nat) (ks a b c : Bytes) (hk0 : plain k0 = true)
    (hks : ∀ x ∈ ks, x ≠ 10) (ha : isToken a = true) (hb : isToken b = true)
    (hc : isToken c = true) :
    (∀ x ∈ (k0 :: ks) ++ a ++ 32 :: b ++ 32 :: c, x ≠ 10) ∧
    TrimSpace (((k0 :: ks) ++ a ++ 32 :: b ++ 32 :: c) ++ [10])
      = (k0 :: ks) ++ a ++ 32 :: b ++ 32 :: c := by
  rw [isToken_iff] at ha hb hc
  constructor
  · intro x hx
    simp only [List.mem_append, List.mem_cons] at hx
    rcases hx with ((((rfl | h) | h) | (rfl | h))) | (rfl | h)
    · exact plain_ne_newline _ hk0
    · exact hks x h
    · exact plain_ne_newline _ (ha.2 x h)
    · decide
    · exact plain_ne_newline _ (hb.2 x h)
    · decide
    · exact plain_ne_newline _ (hc.2 x h)
  · have hlast := List.dropLast_append_getLast hc.1
    have hd : plain (c.getLast hc.1) = true := hc.2 _ (List.getLast_mem hc.1)
    have := TrimSpace_line k0 (c.getLast hc.1) (ks ++ a ++ 32 :: b ++ 32 :: c.dropLast) hk0 hd
    have e1 : k0 :: (ks ++ a ++ 32 :: b ++ 32 :: c.dropLast) ++ [c.getLast hc.1, 10]
        = ((k0 :: ks) ++ a ++ 32 :: b ++ 32 :: c) ++ [10] := by
      conv_rhs => rw [← hlast]
      simp
    have e2 : k0 :: (ks ++ a ++ 32 :: b ++ 32 :: c.dropLast) ++ [c.getLast hc.1]
        = (k0 :: ks) ++ a ++ 32 :: b ++ 32 :: c := by
      conv_rhs => rw [← hlast]
      simp
    rw [e1, e2] at this
    exact this

theorem nextLine_tripleLine (k0 : Nat) (ks a b c rest : Bytes) (hk0 : plain k0 = true)
    (hks : ∀ x ∈ ks, x ≠ 10) (ha : isToken a = true) (hb : isToken b = true)
    (hc : isToken c = true) :
    nextLine (tripleLine (k0 :: ks) a b c ++ rest)
      = .ok ((k0 :: ks) ++ a ++ 32 :: b ++ 32 :: c, rest) := by
  obtain ⟨h1, h2⟩ := tripleLine_body k0 ks a b c hk0 hks ha hb hc
  have := nextLine_append _ rest h1
  rw [h2] at this
  rw [← this]
  simp [tripleLine]

theorem nextLine_vertex (a b c rest : Bytes) (ha : isToken a = true) (hb : isToken b = true)
    (hc : isToken c = true) :
    nextLine (tripleLine (bytes "vertex ") a b c ++ rest)
      = .ok (bytes "vertex " ++ a ++ 32 :: b ++ 32 :: c, rest) :=
  nextLine_tripleLine 118 (bytes "ertex ") a b c rest (by decide) (by decide) ha hb hc

theorem nextLine_facet (a b c rest : Bytes) (ha : isToken a = true) (hb : isToken b = true)
    (hc : isToken c = true) :
    nextLine (tripleLine (bytes "facet normal ") a b c ++ rest)
      = .ok (bytes "facet normal " ++ a ++ 32 :: b ++ 32 :: c, rest) :=
  nextLine_tripleLine 102 (bytes "acet normal ") a b c rest (by decide) (by decide) ha hb hc

theorem Split_vertex (a b c : Bytes) (ha : isToken a = true) (hb : isToken b = true)
    (hc : isToken c = true) :
    Split (bytes "vertex " ++ a ++ 32 :: b ++ 32 :: c) 32 = [bytes "vertex", a, b, c] := by
  rw [isToken_iff] at ha hb hc
  have e : bytes "vertex " ++ a ++ 32 :: b ++ 32 :: c
      = bytes "vertex" ++ 32 :: (a ++ 32 :: (b ++ 32 :: c)) := by
    simp [bytes]
  rw [e, Split_append _ _ (by decide), Split_append _ _ (fun x hx => plain_ne_space x (ha.2 x hx)),
    Split_append _ _ (fun x hx => plain_ne_space x (hb.2 x hx)),
    Split_token _ (fun x hx => plain_ne_space x (hc.2 x hx))]

theorem Split_facet (a b c : Bytes) (ha : isToken a = true) (hb : isToken b = true)
    (hc : isToken c = true) :
    Split (bytes "facet normal " ++ a ++ 32 :: b ++ 32 :: c) 32
      = [bytes "facet", bytes "normal", a, b, c] := by
  rw [isToken_iff] at ha hb hc
  have e : bytes "facet normal " ++ a ++ 32 :: b ++ 32 :: c
      = bytes "facet" ++ 32 :: (bytes "normal" ++ 32 :: (a ++ 32 :: (b ++ 32 :: c))) := by
    simp [bytes]
  rw [e, Split_append _ _ (by decide), Split_append _ _ (by decide),
    Split_append _ _ (fun x hx => plain_ne_space x (ha.2 x hx)),
    Split_append _ _ (fun x hx => plain_ne_space x (hb.2 x hx)),
    Split_token _ (fun x hx => plain_ne_space x (hc.2 x hx))]

/-! ## The helpers of the ASCII decoder on well-formed lines -/

theorem threeFloats_numeric (pf : Bytes → Except Error F32) (a b c : Bytes)
    (ha : (tokenValue pf a).isSome = true) (hb : (tokenValue pf b).isSome = true)
    (hc : (tokenValue pf c).isSome = true) :
    threeFloats pf a b c
      = .ok ((tokenValue pf a).getD 0, (tokenValue pf b).getD 0, (tokenValue pf c).getD 0) := by
  unfold tokenValue at *
  unfold threeFloats
  cases h1 : pf (Replace a 44 46) with
  | error e => simp [h1] at ha
  | ok v1 =>
    cases h2 : pf (Replace b 44 46) with
    | error e => simp [h2] at hb
    | ok v2 =>
      cases h3 : pf (Replace c 44 46) with
      | error e => simp [h3] at hc
      | ok v3 => simp [h1, h2, h3]

theorem isNumeric_iff (pf : Bytes → Except Error F32) (t : Bytes) :
    isNumeric pf t = true ↔ isToken t = true ∧ (tokenValue pf t).isSome = true := by
  simp [isNumeric]

theorem getLine_keyword (kw rest : Bytes) (h10 : ∀ x ∈ kw, x ≠ 10)
    (htrim : TrimSpace (kw ++ [10]) = kw) : getLine (kw ++ 10 :: rest) kw = .ok rest := by
  simp [getLine, nextLine_append kw rest h10, htrim, HasPrefix]

theorem getLine_outer_loop (rest : Bytes) :
    getLine (bytes "outer loop\n" ++ rest) (bytes "outer loop") = .ok rest :=
  getLine_keyword (bytes "outer loop") rest (by decide) (by decide)

theorem getLine_endloop (rest : Bytes) :
    getLine (bytes "endloop\n" ++ rest) (bytes "endloop") = .ok rest :=
  getLine_keyword (bytes "endloop") rest (by decide) (by decide)

theorem getLine_endfacet (rest : Bytes) :
    getLine (bytes "endfacet\n" ++ rest) (bytes "endfacet") = .ok rest :=
  getLine_keyword (bytes "endfacet") rest (by decide) (by decide)

theorem HasPrefix_append (kw s : Bytes) : HasPrefix (kw ++ s) kw = true := by
  simp [HasPrefix]

theorem getVertex_numeric (pf : Bytes → Except Error F32) (a b c rest : Bytes)
    (ha : isNumeric pf a = true) (hb : isNumeric pf b = true) (hc : isNumeric pf c = true) :
    getVertex pf (tripleLine (bytes "vertex ") a b c ++ rest)
      = .ok (((tokenValue pf a).getD 0, (tokenValue pf b).getD 0, (tokenValue pf c).getD 0),
          rest) := by
  rw [isNumeric_iff] at ha hb hc
  have e : bytes "vertex " ++ a ++ 32 :: b ++ 32 :: c
      = bytes "vertex " ++ (a ++ 32 :: b ++ 32 :: c) := by simp
  simp only [getVertex, nextLine_vertex a b c rest ha.1 hb.1 hc.1]
  rw [Split_vertex a b c ha.1 hb.1 hc.1, e, HasPrefix_append]
  simp [threeFloats_numeric pf a b c ha.2 hb.2 hc.2]

/-- One iteration of the loop on a well-formed facet block reads the block and appends its
triangle. -/
theorem readAsciiBody_text (pf : Bytes → Except Error F32) (t : FacetText) (rest : Bytes)
    (tris : Option (List STLTri)) (h : t.wellFormed pf = true) :
    readAsciiBody pf (t.text ++ rest) tris = .next rest (append tris (t.tri pf)) := by
  simp only [FacetText.wellFormed, FacetText.tokens, List.all_cons, List.all_nil, Bool.and_true,
    Bool.and_eq_true] at h
  obtain ⟨h1, h2, h3, h4, h5, h6, h7, h8, h9, h10, h11, h12⟩ := h
  have n1 := (isNumeric_iff pf _).mp h1
  have n2 := (isNumeric_iff pf _).mp h2
  have n3 := (isNumeric_iff pf _).mp h3
  have e : bytes "facet normal " ++ t.nx ++ 32 :: t.ny ++ 32 :: t.nz
      = bytes "facet normal " ++ (t.nx ++ 32 :: t.ny ++ 32 :: t.nz) := by simp
  have hne : HasPrefix (bytes "facet normal " ++ (t.nx ++ 32 :: t.ny ++ 32 :: t.nz))
      (bytes "endsolid") = false := by
    simp [HasPrefix, bytes, List.isPrefixOf]
  simp only [FacetText.text, FacetText.lines, List.flatten_cons, List.flatten_nil,
    List.append_nil, List.append_assoc]
  unfold readAsciiBody
  rw [nextLine_facet _ _ _ _ n1.1 n2.1 n3.1]
  simp only []
  rw [Split_facet _ _ _ n1.1 n2.1 n3.1, e, hne, HasPrefix_append]
  simp only [List.getD_cons_succ, List.getD_cons_zero, List.length_cons, List.length_nil]
  rw [threeFloats_numeric pf _ _ _ n1.2 n2.2 n3.2]
  simp only []
  rw [getLine_outer_loop]
  simp only []
  rw [getVertex_numeric pf _ _ _ _ h4 h5 h6]
  simp only []
  rw [getVertex_numeric pf _ _ _ _ h7 h8 h9]
  simp only []
  rw [getVertex_numeric pf _ _ _ _ h10 h11 h12]
  simp only []
  rw [getLine_endloop]
  simp only []
  rw [getLine_endfacet]
  simp [FacetText.tri]

/-! ## Termination of the loop of `readAscii` -/

theorem getLine_length (buf s rest : Bytes) (h : getLine buf s = .ok rest) :
    rest.length < buf.length := by
  unfold getLine at h
  split at h
  · exact Except.noConfusion h
  · rename_i line b hn
    split at h
    · exact Except.noConfusion h
    · rw [← Except.ok.inj h]
      exact nextLine_length buf line b hn

theorem getVertex_length (pf : Bytes → Except Error F32) (buf rest : Bytes) (v : F32 × F32 × F32)
    (h : getVertex pf buf = .ok (v, rest)) : rest.length < buf.length := by
  unfold getVertex at h
  split at h
  · exact Res.noConfusion h
  · rename_i line b hn
    have hl := nextLine_length buf line b hn
    split at h
    · exact Res.noConfusion h
    · simp only [] at h
      split at h
      · exact Res.noConfusion h
      · split at h
        · exact Res.noConfusion h
        · split at h
          · exact Res.noConfusion h
          · split at h
            · exact Res.noConfusion h
            · simp only [Res.ok.injEq, Prod.mk.injEq] at h
              rw [← h.2]
              exact hl

/-- An iteration that does not leave the loop consumes at least one byte of the reader. -/
theorem readAsciiBody_length (pf : Bytes → Except Error F32) (buf b : Bytes)
    (tris t : Option (List STLTri)) (h : readAsciiBody pf buf tris = .next b t) :
    b.length < buf.length := by
  unfold readAsciiBody at h
  split at h
  · exact Step.noConfusion h
  · rename_i line b1 hn
    have l1 := nextLine_length buf line b1 hn
    split at h
    · exact Step.noConfusion h
    · split at h
      · exact Step.noConfusion h
      · simp only [] at h
        split at h
        · exact Step.noConfusion h
        · split at h
          · exact Step.noConfusion h
          · split at h
            · exact Step.noConfusion h
            · rename_i b2 hg
              have l2 := getLine_length _ _ _ hg
              split at h
              · exact Step.noConfusion h
              · exact Step.noConfusion h
              · rename_i b3 hv1
                have l3 := getVertex_length pf _ _ _ hv1
                split at h
                · exact Step.noConfusion h
                · exact Step.noConfusion h
                · rename_i b4 hv2
                  have l4 := getVertex_length pf _ _ _ hv2
                  split at h
                  · exact Step.noConfusion h
                  · exact Step.noConfusion h
                  · rename_i b5 hv3
                    have l5 := getVertex_length pf _ _ _ hv3
                    split at h
                    · exact Step.noConfusion h
                    · rename_i b6 hg2
                      have l6 := getLine_length _ _ _ hg2
                      split at h
                      · exact Step.noConfusion h
                      · rename_i b7 hg3
                        have l7 := getLine_length _ _ _ hg3
                        simp only [Step.next.injEq] at h
                        rw [← h.1]
                        omega

/-- With more iterations allowed than the reader has bytes, the loop is left, and its result
does not depend on the number of iterations allowed. -/
theorem readAsciiLoop_fuel (pf : Bytes → Except Error F32) (fuel : Nat) :
    ∀ (buf : Bytes) (tris : Option (List STLTri)), buf.length < fuel →
      (∃ o, readAsciiLoop pf fuel buf tris = some o) ∧
      readAsciiLoop pf fuel buf tris = readAsciiLoop pf (buf.length + 1) buf tris := by
  induction fuel using Nat.strong_induction_on with
  | _ fuel ih =>
    intro buf tris hlt
    cases fuel with
    | zero => omega
    | succ n =>
      simp only [readAsciiLoop]
      cases hb : readAsciiBody pf buf tris with
      | done o => exact ⟨⟨o, rfl⟩, rfl⟩
      | next b t =>
        have hl := readAsciiBody_length pf buf b tris t hb
        have h1 := ih n (Nat.lt_succ_self n) b t (by omega)
        have h2 := ih buf.length (by omega) b t hl
        simp only []
        exact ⟨h1.1, h1.2.trans h2.2.symm⟩

/-- The loop of `readAscii`, with the iterations that `readAscii` allows for the reader. -/
theorem readAsciiLoop_next (pf : Bytes → Except Error F32) (buf b : Bytes)
    (tris t : Option (List STLTri)) (h : readAsciiBody pf buf tris = .next b t) :
    readAsciiLoop pf (buf.length + 1) buf tris = readAsciiLoop pf (b.length + 1) b t := by
  have hl := readAsciiBody_length pf buf b tris t h
  simp only [readAsciiLoop, h]
  exact (readAsciiLoop_fuel pf buf.length b t hl).2

theorem readAsciiLoop_done (pf : Bytes → Except Error F32) (buf : Bytes)
    (tris : Option (List STLTri)) (o : Outcome) (h : readAsciiBody pf buf tris = .done o) :
    readAsciiLoop pf (buf.length + 1) buf tris = some o := by
  simp only [readAsciiLoop, h]

/-- `readAscii` returns or panics on every reader: the loop never uses up its iterations. -/
theorem readAscii_terminates (pf : Bytes → Except Error F32) (f : Bytes) :
    ∃ o, readAscii pf f = some o := by
  unfold readAscii
  cases ReadString 10 f with
  | none => exact ⟨_, rfl⟩
  | some p => exact (readAsciiLoop_fuel pf _ p.2 none (Nat.lt_succ_self _)).1

theorem readAsciiLoop_blocks (pf : Bytes → Except Error F32) (ts : List FacetText) (rest : Bytes)
    (tris : Option (List STLTri)) (h : ∀ t ∈ ts, t.wellFormed pf = true) :
    readAsciiLoop pf ((blocksText ts ++ rest).length + 1) (blocksText ts ++ rest) tris
      = readAsciiLoop pf (rest.length + 1) rest (appendAll tris (ts.map (FacetText.tri pf))) := by
  induction ts generalizing tris with
  | nil => simp [blocksText, appendAll]
  | cons t ts ih =>
    have e : blocksText (t :: ts) ++ rest = t.text ++ (blocksText ts ++ rest) := by
      simp [blocksText]
    rw [e, readAsciiLoop_next pf _ _ _ _
      (readAsciiBody_text pf t _ tris (h t (List.mem_cons_self _ _))),
      ih _ (fun t2 h2 => h t2 (List.mem_cons_of_mem _ h2))]
    simp [appendAll]

theorem appendAll_none (l : List STLTri) :
    appendAll none l = if l = [] then none else some l := by
  have key : ∀ (l acc : List STLTri), appendAll (some acc) l = some (acc ++ l) := by
    intro l
    induction l with
    | nil => intro acc; simp [appendAll]
    | cons a l ih =>
      intro acc
      have := ih (acc ++ [a])
      simp only [appendAll, List.foldl_cons, append] at this ⊢
      simpa using this
  cases l with
  | nil => simp [appendAll]
  | cons a l =>
    have := key l [a]
    simp only [appendAll, List.foldl_cons, append] at this ⊢
    simpa using this

theorem readAsciiBody_endsolid (pf : Bytes → Except Error F32) (x rest : Bytes)
    (tris : Option (List STLTri)) (hx : ∀ y ∈ x, y ≠ 10) :
    readAsciiBody pf (bytes "endsolid" ++ x ++ 10 :: rest) tris = .done (.ret tris none) := by
  have h10 : ∀ y ∈ bytes "endsolid" ++ x, y ≠ 10 := by
    intro y hy
    rcases List.mem_append.mp hy with h | h
    · exact (by decide : ∀ z ∈ bytes "endsolid", z ≠ 10) y h
    · exact hx y h
  obtain ⟨a2, ha⟩ := TrimSpace_plain_prefix 101 (bytes "ndsolid") (x ++ [10]) (by decide)
    (by decide)
  have e : bytes "endsolid" ++ x ++ [10] = 101 :: bytes "ndsolid" ++ (x ++ [10]) := by
    simp [bytes]
  have e2 : 101 :: bytes "ndsolid" ++ a2 = bytes "endsolid" ++ a2 := by simp [bytes]
  unfold readAsciiBody
  rw [nextLine_append _ rest h10, e, ha, e2]
  simp [HasPrefix_append]

/-! ## The entry points -/

theorem ReadFull_append (a b : Bytes) : ReadFull a.length (a ++ b) = .ok (a, b) := by
  simp [ReadFull]

theorem Read_solid {mem : Nat} (pf : Bytes → Except Error F32) (f : Bytes) :
    Read pf mem (.ok (bytes "solid" ++ f)) = readAscii pf f := by
  have := ReadFull_append (bytes "solid") f
  have e : (bytes "solid").length = 5 := by decide
  rw [e] at this
  simp only [Read, this]
  have : HasPrefix (bytes "solid") (bytes "solid") = true := by decide
  simp [this]

theorem readAscii_first_line (pf : Bytes → Except Error F32) (name buf : Bytes)
    (h : ∀ x ∈ name, x ≠ 10) :
    readAscii pf (name ++ 10 :: buf) = readAsciiLoop pf (buf.length + 1) buf none := by
  simp [readAscii, ReadString_append name buf h]

/-- The ASCII decoder on a well-formed text: the first line, `facets` well-formed blocks and
the terminator line. -/
theorem readAscii_wellFormed (pf : Bytes → Except Error F32) (name endname rest : Bytes)
    (facets : List FacetText) (hname : ∀ x ∈ name, x ≠ 10) (hend : ∀ x ∈ endname, x ≠ 10)
    (hwf : ∀ t ∈ facets, t.wellFormed pf = true) :
    readAscii pf (name ++ 10 :: (blocksText facets ++ (bytes "endsolid" ++ endname ++ 10 :: rest)))
      = some (.ret (if facets.isEmpty then none else some (facets.map (FacetText.tri pf))) none) := by
  rw [readAscii_first_line pf name _ hname, readAsciiLoop_blocks pf facets _ none hwf,
    readAsciiLoop_done pf _ _ _ (readAsciiBody_endsolid pf endname rest _ hend), appendAll_none]
  cases facets <;> simp

/-! ## The claims -/

/-- C1. For every ASCII input made of a first line beginning with `solid` (the rest of the line,
`name`, is free), then the texts of `facets.length` well-formed facet blocks, then a
newline-terminated line beginning with `endsolid` (and anything after it), `Read` and
`readAscii` return without error exactly one triangle per block, in file order, whose fields
are the values of the twelve tokens of the block in the order normal, v1, v2, v3 (the nil
slice when there is no block). In particular, for every `parseFloat` that reads the tokens
`0` and `1` as `z` and `o`, the example input of the specification gives the single triangle
with normal `(z, z, o)` and vertices `(z, z, z)`, `(o, z, z)`, `(z, o, z)`. -/
theorem C1_ascii_decode (mem : Nat) (pf : Bytes → Except Error F32) (name endname rest : Bytes)
    (facets : List FacetText) (hname : ∀ x ∈ name, x ≠ 10) (hend : ∀ x ∈ endname, x ≠ 10)
    (hwf : ∀ t ∈ facets, t.wellFormed pf = true) :
    Read pf mem (.ok (bytes "solid" ++ (name ++ 10 ::
        (blocksText facets ++ (bytes "endsolid" ++ endname ++ 10 :: rest)))))
      = some (.ret (if facets.isEmpty then none else some (facets.map (FacetText.tri pf))) none)
    ∧ readAscii pf (name ++ 10 :: (blocksText facets ++ (bytes "endsolid" ++ endname ++ 10 :: rest)))
      = some (.ret (if facets.isEmpty then none else some (facets.map (FacetText.tri pf))) none)
    ∧ (∀ z o : F32, pf (bytes "0") = .ok z → pf (bytes "1") = .ok o →
        Read pf mem (.ok exampleInput)
          = some (.ret (some [⟨z, z, o, z, z, z, o, z, z, z, o, z⟩]) none)) := by
  refine ⟨?_, readAscii_wellFormed pf name endname rest facets hname hend hwf, ?_⟩
  · rw [Read_solid]
    exact readAscii_wellFormed pf name endname rest facets hname hend hwf
  · intro z o hz ho
    have e : exampleInput = bytes "solid" ++ (bytes " test" ++ 10 ::
        (blocksText [exampleFacet] ++ (bytes "endsolid" ++ bytes " test" ++ 10 :: []))) := by
      decide
    have r0 : Replace (bytes "0") 44 46 = bytes "0" := by decide
    have r1 : Replace (bytes "1") 44 46 = bytes "1" := by decide
    have v0 : tokenValue pf (bytes "0") = some z := by simp [tokenValue, r0, hz]
    have v1 : tokenValue pf (bytes "1") = some o := by simp [tokenValue, r1, ho]
    have t0 : isToken (bytes "0") = true := by decide
    have t1 : isToken (bytes "1") = true := by decide
    have wf : exampleFacet.wellFormed pf = true := by
      simp [FacetText.wellFormed, FacetText.tokens, exampleFacet, isNumeric, v0, v1, t0, t1]
    rw [e, Read_solid, readAscii_wellFormed pf _ _ _ [exampleFacet] (by decide) (by decide)
      (by simpa using wf)]
    simp [FacetText.tri, exampleFacet, v0, v1]

theorem C1_ascii_decode_witness :
    (∀ x ∈ bytes " test", x ≠ 10) ∧ (∀ t ∈ [exampleFacet], t.wellFormed parseFloatSmall = true) ∧
    Read parseFloatSmall exampleMemory (.ok exampleInput)
      = some (.ret (some [⟨0, 0, 0x3F800000, 0, 0, 0, 0x3F800000, 0, 0, 0, 0x3F800000, 0⟩])
          none) :=
  ⟨by decide, by decide,
    (C1_ascii_decode exampleMemory parseFloatSmall (bytes " test") (bytes " test") [] [exampleFacet]
      (by decide) (by decide) (by decide)).1⟩

/-! ## The binary decoder -/

theorem ReadFull_ok (n : Nat) (f : Bytes) (h : n ≤ f.length) :
    ReadFull n f = .ok (f.take n, f.drop n) := by
  simp [ReadFull, h]

theorem getD_take_drop (inp : Bytes) (off n k : Nat) (hk : k < n) :
    ((inp.drop off).take n).getD k 0 = inp.getD (off + k) 0 := by
  simp only [List.getD_eq_getElem?_getD]
  rw [List.getElem?_take_of_lt hk, List.getElem?_drop]

theorem Uint32_take_drop (inp : Bytes) (off n k : Nat) (hk : k + 3 < n) :
    Uint32 ((inp.drop off).take n) k = Uint32 inp (off + k) := by
  simp only [Uint32]
  rw [getD_take_drop inp off n k (by omega), getD_take_drop inp off n (k + 1) (by omega),
    getD_take_drop inp off n (k + 2) (by omega), getD_take_drop inp off n (k + 3) (by omega)]
  simp only [Nat.add_assoc]

theorem decodeSTLTri_take_drop (inp : Bytes) (off : Nat) :
    decodeSTLTri ((inp.drop off).take 48) = triangleAt inp off := by
  simp only [decodeSTLTri, triangleAt]
  rw [Uint32_take_drop inp off 48 0 (by omega), Uint32_take_drop inp off 48 4 (by omega),
    Uint32_take_drop inp off 48 8 (by omega), Uint32_take_drop inp off 48 12 (by omega),
    Uint32_take_drop inp off 48 16 (by omega), Uint32_take_drop inp off 48 20 (by omega),
    Uint32_take_drop inp off 48 24 (by omega), Uint32_take_drop inp off 48 28 (by omega),
    Uint32_take_drop inp off 48 32 (by omega), Uint32_take_drop inp off 48 36 (by omega),
    Uint32_take_drop inp off 48 40 (by omega), Uint32_take_drop inp off 48 44 (by omega)]
  simp [STLTri.quieted, wordsAt]

theorem take_set_succ (l : List STLTri) (i : Nat) (x : STLTri) (h : i < l.length) :
    (l.set i x).take (i + 1) = l.take i ++ [x] := by
  induction l generalizing i with
  | nil => simp at h
  | cons a l ih =>
    cases i with
    | zero => simp
    | succ i =>
      simp only [List.length_cons, Nat.add_lt_add_iff_right] at h
      simp [ih i h]

/-- The loop of `readBinary` over complete records: record `i + j` of the file fills
`tris[i + j]`. -/
theorem readBinaryLoop_complete (inp : Bytes) (k : Nat) :
    ∀ (i : Nat) (tris : List STLTri), 84 + 50 * (i + k) ≤ inp.length → tris.length = i + k →
      readBinaryLoop k i (inp.drop (84 + 50 * i)) tris
        = .ret (some (tris.take i
            ++ (List.range k).map (fun j => triangleAt inp (84 + 50 * (i + j))))) none := by
  induction k with
  | zero =>
    intro i tris _ hl
    simp only [readBinaryLoop, List.range_zero, List.map_nil, List.append_nil]
    rw [List.take_of_length_le (by omega)]
  | succ k ih =>
    intro i tris hlen hl
    have h48 : 48 ≤ (inp.drop (84 + 50 * i)).length := by
      rw [List.length_drop]; omega
    have h2 : 2 ≤ ((inp.drop (84 + 50 * i)).drop 48).length := by
      rw [List.length_drop, List.length_drop]; omega
    have hd : ((inp.drop (84 + 50 * i)).drop 48).drop 2 = inp.drop (84 + 50 * (i + 1)) := by
      rw [List.drop_drop, List.drop_drop]
      congr 1
    simp only [readBinaryLoop, ReadFull_ok _ _ h48, ReadFull_ok _ _ h2]
    rw [hd, ih (i + 1) _ (by omega) (by rw [List.length_set]; omega),
      take_set_succ _ _ _ (by omega), decodeSTLTri_take_drop, List.range_succ_eq_map]
    simp [Function.comp_def, Nat.add_assoc, Nat.add_comm 1]

theorem quieted_noSignalling (t : STLTri) (h : t.noSignalling = true) : t.quieted = t := by
  obtain ⟨a1, a2, a3, a4, a5, a6, a7, a8, a9, a10, a11, a12⟩ := t
  simp only [STLTri.noSignalling, List.all_cons, List.all_nil, Bool.and_true, Bool.and_eq_true,
    Bool.not_eq_true'] at h
  obtain ⟨h1, h2, h3, h4, h5, h6, h7, h8, h9, h10, h11, h12⟩ := h
  simp [STLTri.quieted, viaFloat64, h1, h2, h3, h4, h5, h6, h7, h8, h9, h10, h11, h12]

theorem readBinary_complete {mem : Nat} (inp : Bytes) (hlen : 84 + 50 * Uint32 inp 80 ≤ inp.length)
    (hmem : 48 * Uint32 inp 80 ≤ mem) :
    readBinary mem (inp.drop 5)
      = .ret (some ((List.range (Uint32 inp 80)).map (fun i => triangleAt inp (84 + 50 * i))))
          none := by
  have h75 : 75 ≤ (inp.drop 5).length := by rw [List.length_drop]; omega
  have h4 : 4 ≤ ((inp.drop 5).drop 75).length := by
    rw [List.length_drop, List.length_drop]; omega
  have hn : Uint32 (((inp.drop 5).drop 75).take 4) 0 = Uint32 inp 80 := by
    rw [List.drop_drop]
    exact Uint32_take_drop inp 80 4 0 (by omega)
  have hd : (((inp.drop 5).drop 75).drop 4) = inp.drop (84 + 50 * 0) := by
    rw [List.drop_drop, List.drop_drop]
  simp only [readBinary, ReadFull_ok _ _ h75, ReadFull_ok _ _ h4, hn]
  rw [if_neg (by omega), hd, readBinaryLoop_complete inp _ 0 _ (by omega) (by simp)]
  simp

theorem readBinary_fatal {mem : Nat} (inp : Bytes) (h84 : 84 ≤ inp.length)
    (hmem : mem < 48 * Uint32 inp 80) : readBinary mem (inp.drop 5) = .fatal := by
  have h75 : 75 ≤ (inp.drop 5).length := by rw [List.length_drop]; omega
  have h4 : 4 ≤ ((inp.drop 5).drop 75).length := by
    rw [List.length_drop, List.length_drop]; omega
  have hn : Uint32 (((inp.drop 5).drop 75).take 4) 0 = Uint32 inp 80 := by
    rw [List.drop_drop]
    exact Uint32_take_drop inp 80 4 0 (by omega)
  simp only [readBinary, ReadFull_ok _ _ h75, ReadFull_ok _ _ h4, hn]
  rw [if_pos hmem]

theorem Read_not_solid {mem : Nat} (pf : Bytes → Except Error F32) (inp : Bytes) (h5 : 5 ≤ inp.length)
    (hs : inp.take 5 ≠ bytes "solid") : Read pf mem (.ok inp) = some (readBinary mem (inp.drop 5)) := by
  have hp : HasPrefix (inp.take 5) (bytes "solid") = false := by
    rw [Bool.eq_false_iff]
    intro hp
    simp only [HasPrefix, List.isPrefixOf_iff_prefix] at hp
    apply hs
    symm
    apply List.IsPrefix.eq_of_length hp
    rw [List.length_take, Nat.min_eq_left h5]
    decide
  simp [Read, ReadFull_ok 5 inp h5, hp]

theorem getD_header (h t : Bytes) (n : Nat) (hn : n < h.length) :
    (h ++ t).getD n 0 = h.getD n 0 := by
  rw [List.getD_eq_getElem?_getD, List.getD_eq_getElem?_getD, List.getElem?_append_left hn]

/-- C2, as stated, fails in two ways. A field is not always the `float32` of its word: for the
one-record input whose first word is the signalling NaN `0x7FA00000` the decoder returns the
field `0x7FE00000`, because `binary.Read` stores each field through `float64`. And the slice
of `N` triangles is allocated before any record is read: for the complete input of 33554432
records, where 1 GiB can be obtained and the slice takes 1.5 GiB, the process ends with a
fatal error and nothing is returned. -/
theorem C2_counterexample :
    signallingInput.take 5 ≠ bytes "solid"
    ∧ 84 + 50 * Uint32 signallingInput 80 ≤ signallingInput.length
    ∧ Float32frombits (Uint32 signallingInput 84) = 0x7FA00000
    ∧ Read parseFloatSmall exampleMemory (.ok signallingInput)
      = some (.ret (some [{ STLTri.zero with Nx := 0x7FE00000 }]) none)
    ∧ Read parseFloatSmall exampleMemory (.ok signallingInput)
      ≠ some (.ret (some ((List.range (Uint32 signallingInput 80)).map
          (fun i => wordsAt signallingInput (84 + 50 * i)))) none)
    ∧ largeInput.take 5 ≠ bytes "solid"
    ∧ 84 + 50 * Uint32 largeInput 80 ≤ largeInput.length
    ∧ Read parseFloatSmall exampleMemory (.ok largeInput) = some .fatal := by
  have key : ∀ t : Bytes, t.length = 50 * 33554432 →
      ((List.replicate 80 0 ++ [0, 0, 0, 2]) ++ t).take 5 ≠ bytes "solid"
      ∧ 84 + 50 * Uint32 ((List.replicate 80 0 ++ [0, 0, 0, 2]) ++ t) 80
        ≤ ((List.replicate 80 0 ++ [0, 0, 0, 2]) ++ t).length
      ∧ Read parseFloatSmall exampleMemory (.ok ((List.replicate 80 0 ++ [0, 0, 0, 2]) ++ t))
        = some .fatal := by
    intro t ht
    have hl : ((List.replicate 80 0 ++ [0, 0, 0, 2]) ++ t).length = 84 + 50 * 33554432 := by
      rw [List.length_append, ht]
      rfl
    have hN : Uint32 ((List.replicate 80 0 ++ [0, 0, 0, 2]) ++ t) 80 = 33554432 := by
      unfold Uint32
      rw [getD_header _ t 80 (by decide), getD_header _ t (80 + 1) (by decide),
        getD_header _ t (80 + 2) (by decide), getD_header _ t (80 + 3) (by decide)]
      decide
    have hs : ((List.replicate 80 0 ++ [0, 0, 0, 2]) ++ t).take 5 ≠ bytes "solid" := by
      rw [List.take_append_of_le_length (by decide)]
      decide
    refine ⟨hs, by rw [hN, hl], ?_⟩
    rw [Read_not_solid parseFloatSmall _ (by rw [hl]; omega) hs,
      readBinary_fatal _ (by rw [hl]; omega) (by rw [hN]; decide)]
  obtain ⟨k1, k2, k3⟩ := key (List.replicate (50 * 33554432) 0) (List.length_replicate _ _)
  exact ⟨by decide, by decide, by decide, by decide, by decide, k1, k2, k3⟩

/-- C2, amended. For every binary input whose first 5 bytes are not `solid`, with count `N` in
the four bytes at offset 80 (little-endian) and at least `50 * N` bytes after offset 84, and
for which the slice of `N` triangles (`48 * N` bytes) can be allocated, `Read` and `readBinary`
return without error exactly `N` triangles in file order, where the twelve fields of triangle
`i`, in declaration order, are the `float32` values of the little-endian words at offsets
`84 + 50 * i`, `84 + 50 * i + 4`, ..., `84 + 50 * i + 44`, stored through `float64`: a word
that is a signalling NaN is returned with its quiet bit set, and every other word with its bits
unchanged, so that when no word of the `N` records is a signalling NaN the fields are exactly
the words. The two bytes at `84 + 50 * i + 48` are part of no triangle. -/
theorem C2_binary_decode (mem : Nat) (pf : Bytes → Except Error F32) (inp : Bytes)
    (hs : inp.take 5 ≠ bytes "solid") (hlen : 84 + 50 * Uint32 inp 80 ≤ inp.length)
    (hmem : 48 * Uint32 inp 80 ≤ mem) :
    Read pf mem (.ok inp)
      = some (.ret (some ((List.range (Uint32 inp 80)).map
          (fun i => (wordsAt inp (84 + 50 * i)).quieted))) none)
    ∧ readBinary mem (inp.drop 5)
      = .ret (some ((List.range (Uint32 inp 80)).map
          (fun i => (wordsAt inp (84 + 50 * i)).quieted))) none
    ∧ ((List.range (Uint32 inp 80)).map (fun i => (wordsAt inp (84 + 50 * i)).quieted)).length
      = Uint32 inp 80
    ∧ ((∀ i < Uint32 inp 80, (wordsAt inp (84 + 50 * i)).noSignalling = true) →
        Read pf mem (.ok inp)
          = some (.ret (some ((List.range (Uint32 inp 80)).map
              (fun i => wordsAt inp (84 + 50 * i)))) none)) := by
  have hr : Read pf mem (.ok inp)
      = some (.ret (some ((List.range (Uint32 inp 80)).map
          (fun i => (wordsAt inp (84 + 50 * i)).quieted))) none) := by
    rw [Read_not_solid pf inp (by omega) hs, readBinary_complete inp hlen hmem]
    rfl
  refine ⟨hr, readBinary_complete inp hlen hmem, by simp, ?_⟩
  intro hq
  rw [hr]
  congr 3
  apply List.map_congr_left
  intro i hi
  exact quieted_noSignalling _ (hq i (List.mem_range.mp hi))

theorem C2_binary_decode_witness :
    oneRecordInput.take 5 ≠ bytes "solid" ∧
    84 + 50 * Uint32 oneRecordInput 80 ≤ oneRecordInput.length ∧
    48 * Uint32 oneRecordInput 80 ≤ exampleMemory ∧
    Read parseFloatSmall exampleMemory (.ok oneRecordInput)
      = some (.ret (some ((List.range (Uint32 oneRecordInput 80)).map
          (fun i => (wordsAt oneRecordInput (84 + 50 * i)).quieted))) none) :=
  ⟨by decide, by decide, by decide,
    (C2_binary_decode exampleMemory parseFloatSmall oneRecordInput (by decide) (by decide)
      (by decide)).1⟩

/-- C3. For every input of at least 5 bytes, the result of `Read` is the result of `readAscii`
on the bytes after the first five when the first five bytes are exactly `solid`, and the
result of `readBinary` on those bytes otherwise. So every input that begins with `solid` is
decoded as ASCII, also when the rest is a valid binary stream: for `solidBinaryInput` the
binary decoder would return the empty mesh, and `Read` returns the error of the ASCII
decoder. -/
theorem C3_sniff_routes (mem : Nat) (pf : Bytes → Except Error F32) (inp : Bytes) (h5 : 5 ≤ inp.length) :
    (inp.take 5 = bytes "solid" → Read pf mem (.ok inp) = readAscii pf (inp.drop 5))
    ∧ (inp.take 5 ≠ bytes "solid" → Read pf mem (.ok inp) = some (readBinary mem (inp.drop 5)))
    ∧ (∀ f : Bytes, Read pf mem (.ok (bytes "solid" ++ f)) = readAscii pf f)
    ∧ readBinary mem (solidBinaryInput.drop 5) = .ret (some []) none
    ∧ Read pf mem (.ok solidBinaryInput)
      = some (.ret none (some (Error.ErrorfV "error reading first line: %v" [] Error.EOF))) := by
  refine ⟨?_, Read_not_solid pf inp h5, Read_solid pf, ?_, ?_⟩
  · intro hs
    have e : inp = bytes "solid" ++ inp.drop 5 := by
      conv_lhs => rw [← List.take_append_drop 5 inp, hs]
    conv_lhs => rw [e]
    exact Read_solid pf _
  · exact (readBinary_complete solidBinaryInput (by decide)
      (by rw [(by decide : Uint32 solidBinaryInput 80 = 0)]; omega)).trans (by decide)
  · have e : solidBinaryInput = bytes "solid" ++ (List.replicate 75 0 ++ [0, 0, 0, 0]) := by
      decide
    rw [e, Read_solid]
    have : ReadString 10 (List.replicate 75 0 ++ [0, 0, 0, 0]) = none := by decide
    unfold readAscii
    rw [this]

theorem C3_sniff_routes_witness :
    5 ≤ exampleInput.length ∧
    Read parseFloatSmall exampleMemory (.ok exampleInput) = readAscii parseFloatSmall (exampleInput.drop 5) :=
  ⟨by decide, (C3_sniff_routes exampleMemory parseFloatSmall exampleInput (by decide)).1 (by decide)⟩

theorem readBinaryLoop_truncated (k : Nat) :
    ∀ (i : Nat) (f : Bytes) (tris : List STLTri), f.length / 50 < k →
      readBinaryLoop k i f tris
        = .ret none (some (truncationError (i + f.length / 50) (f.length % 50))) := by
  induction k with
  | zero => intro i f tris h; omega
  | succ k ih =>
    intro i f tris h
    by_cases h48 : 48 ≤ f.length
    · by_cases h50 : 50 ≤ f.length
      · have h2 : 2 ≤ (f.drop 48).length := by rw [List.length_drop]; omega
        simp only [readBinaryLoop, ReadFull_ok _ _ h48, ReadFull_ok _ _ h2]
        have hl : ((f.drop 48).drop 2).length = f.length - 50 := by
          rw [List.length_drop, List.length_drop]; omega
        rw [ih (i + 1) _ _ (by rw [hl]; omega), hl]
        have e1 : i + 1 + (f.length - 50) / 50 = i + f.length / 50 := by omega
        have e2 : (f.length - 50) % 50 = f.length % 50 := by omega
        rw [e1, e2]
      · have hl : (f.drop 48).length = f.length - 48 := List.length_drop _ _
        have e1 : f.length / 50 = 0 := by omega
        have e2 : f.length % 50 = f.length := by omega
        have hn : ¬ f.length < 48 := by omega
        simp only [readBinaryLoop, ReadFull_ok _ _ h48]
        simp only [ReadFull, hl, e1, e2, truncationError, hn, if_false, Nat.add_zero]
        by_cases h49 : f.length = 48
        · simp [h49]
        · have : ¬ 2 ≤ f.length - 48 := by omega
          have h0 : ¬ f.length - 48 = 0 := by omega
          simp [this, h0, h49]
    · have e1 : f.length / 50 = 0 := by omega
      have e2 : f.length % 50 = f.length := by omega
      have hn : f.length < 48 := by omega
      simp only [readBinaryLoop, ReadFull, h48, e1, e2, truncationError, hn, if_true, if_false,
        Nat.add_zero]
      by_cases h0 : f.length = 0 <;> simp [h0]

/-- C4, as stated, fails: the slice of `N` triangles is allocated before any record is read.
The input of 94 bytes that declares `0xFFFFFFFF` triangles holds no complete record, and the
decoder asks for `48 * 4294967295` bytes (206 GB); where 1 GiB can be obtained the process
ends with a fatal error, and no error naming index 0 is returned. -/
theorem C4_counterexample :
    hugeCountInput.take 5 ≠ bytes "solid" ∧ hugeCountInput.length = 94
    ∧ Uint32 hugeCountInput 80 = 4294967295
    ∧ (hugeCountInput.length - 84) / 50 < Uint32 hugeCountInput 80
    ∧ Read parseFloatSmall exampleMemory (.ok hugeCountInput) = some .fatal
    ∧ Read parseFloatSmall exampleMemory (.ok hugeCountInput)
      ≠ some (.ret none (some (truncationError ((hugeCountInput.length - 84) / 50)
          ((hugeCountInput.length - 84) % 50)))) := by
  refine ⟨by decide, by decide, by decide, by decide, by decide, by decide⟩

/-- C4, amended. For every binary input of at least 84 bytes whose first 5 bytes are not `solid`,
whose declared count `N` exceeds the number `L / 50` of complete 50-byte records after offset
84 (`L` is the number of bytes after the count), and for which the slice of `N` triangles
(`48 * N` bytes) can be allocated, `Read` and `readBinary` return the nil slice and an error
that names the index `L / 50`: the error of reading the triangle when the input ends inside
the 48 data bytes of that record, the error of reading the padding when it ends inside (or
just before) the 2 padding bytes. -/
theorem C4_binary_truncated (mem : Nat) (pf : Bytes → Except Error F32) (inp : Bytes)
    (hs : inp.take 5 ≠ bytes "solid") (h84 : 84 ≤ inp.length)
    (hN : (inp.length - 84) / 50 < Uint32 inp 80) (hmem : 48 * Uint32 inp 80 ≤ mem) :
    Read pf mem (.ok inp)
      = some (.ret none
          (some (truncationError ((inp.length - 84) / 50) ((inp.length - 84) % 50))))
    ∧ readBinary mem (inp.drop 5)
      = .ret none (some (truncationError ((inp.length - 84) / 50) ((inp.length - 84) % 50)))
    ∧ (∀ index part, ∃ format cause,
        truncationError index part = Error.ErrorfV format [Arg.v index] cause) := by
  have h75 : 75 ≤ (inp.drop 5).length := by rw [List.length_drop]; omega
  have h4 : 4 ≤ ((inp.drop 5).drop 75).length := by
    rw [List.length_drop, List.length_drop]; omega
  have hn : Uint32 (((inp.drop 5).drop 75).take 4) 0 = Uint32 inp 80 := by
    rw [List.drop_drop]
    exact Uint32_take_drop inp 80 4 0 (by omega)
  have hl : (((inp.drop 5).drop 75).drop 4).length = inp.length - 84 := by
    rw [List.length_drop, List.length_drop, List.length_drop]; omega
  have hb : readBinary mem (inp.drop 5)
      = .ret none (some (truncationError ((inp.length - 84) / 50) ((inp.length - 84) % 50))) := by
    simp only [readBinary, ReadFull_ok _ _ h75, ReadFull_ok _ _ h4, hn]
    rw [if_neg (by omega), readBinaryLoop_truncated _ 0 _ _ (by rw [hl]; exact hN), hl, Nat.zero_add]
  refine ⟨?_, hb, ?_⟩
  · rw [Read_not_solid pf inp (by omega) hs, hb]
  · intro index part
    unfold truncationError
    split
    · exact ⟨_, _, rfl⟩
    · exact ⟨_, _, rfl⟩

theorem C4_binary_truncated_witness :
    truncatedInput.take 5 ≠ bytes "solid" ∧ 84 ≤ truncatedInput.length ∧
    (truncatedInput.length - 84) / 50 < Uint32 truncatedInput 80 ∧
    48 * Uint32 truncatedInput 80 ≤ exampleMemory ∧
    Read parseFloatSmall exampleMemory (.ok truncatedInput)
      = some (.ret none (some (truncationError ((truncatedInput.length - 84) / 50)
          ((truncatedInput.length - 84) % 50)))) :=
  ⟨by decide, by decide, by decide, by decide,
    (C4_binary_truncated exampleMemory parseFloatSmall truncatedInput (by decide) (by decide)
      (by decide) (by decide)).1⟩

theorem readBinaryLoop_error_nil (k : Nat) :
    ∀ (i : Nat) (f : Bytes) (tris : List STLTri) (t : Option (List STLTri)) (e : Error),
      readBinaryLoop k i f tris = .ret t (some e) → t = none := by
  induction k with
  | zero =>
    intro i f tris t e h
    simp [readBinaryLoop] at h
  | succ k ih =>
    intro i f tris t e h
    unfold readBinaryLoop at h
    split at h
    · simp only [Outcome.ret.injEq] at h
      exact h.1.symm
    · split at h
      · simp only [Outcome.ret.injEq] at h
        exact h.1.symm
      · exact ih _ _ _ _ _ h

theorem readBinary_error_nil (mem : Nat) (f : Bytes) (t : Option (List STLTri)) (e : Error)
    (h : readBinary mem f = .ret t (some e)) : t = none := by
  unfold readBinary at h
  split at h
  · simp only [Outcome.ret.injEq] at h
    exact h.1.symm
  · split at h
    · simp only [Outcome.ret.injEq] at h
      exact h.1.symm
    · dsimp only at h
      split at h
      · exact absurd h (by simp)
      · exact readBinaryLoop_error_nil _ _ _ _ _ _ h

theorem readAsciiBody_error_nil (pf : Bytes → Except Error F32) (buf : Bytes)
    (tris t : Option (List STLTri)) (e : Error)
    (h : readAsciiBody pf buf tris = .done (.ret t (some e))) : t = none := by
  unfold readAsciiBody at h
  repeat' split at h
  all_goals try simp only [] at h
  all_goals repeat' split at h
  all_goals simp_all

theorem readAsciiLoop_error_nil (pf : Bytes → Except Error F32) (fuel : Nat) :
    ∀ (buf : Bytes) (tris t : Option (List STLTri)) (e : Error),
      readAsciiLoop pf fuel buf tris = some (.ret t (some e)) → t = none := by
  induction fuel with
  | zero =>
    intro buf tris t e h
    simp [readAsciiLoop] at h
  | succ n ih =>
    intro buf tris t e h
    unfold readAsciiLoop at h
    split at h
    · rename_i o hb
      rw [Option.some.inj h] at hb
      exact readAsciiBody_error_nil pf buf tris t e hb
    · exact ih _ _ _ _ h

theorem readAscii_error_nil (pf : Bytes → Except Error F32) (f : Bytes)
    (t : Option (List STLTri)) (e : Error) (h : readAscii pf f = some (.ret t (some e))) :
    t = none := by
  unfold readAscii at h
  split at h
  · simp only [Option.some.injEq, Outcome.ret.injEq] at h
    exact h.1.symm
  · exact readAsciiLoop_error_nil pf _ _ _ _ _ h

/-- C7. Whenever `Read`, `readAscii` or `readBinary` returns an error, the slice it returns
with it is nil: the triangles read before the error are not returned. -/
theorem C7_error_returns_nil (mem : Nat) (pf : Bytes → Except Error F32)
    (file : Except Error Bytes) (f : Bytes) (tris : Option (List STLTri)) (err : Error) :
    (Read pf mem file = some (.ret tris (some err)) → tris = none)
    ∧ (readAscii pf f = some (.ret tris (some err)) → tris = none)
    ∧ (readBinary mem f = .ret tris (some err) → tris = none) := by
  refine ⟨?_, readAscii_error_nil pf f tris err, readBinary_error_nil mem f tris err⟩
  intro h
  unfold Read at h
  split at h
  · simp only [Option.some.injEq, Outcome.ret.injEq] at h
    exact h.1.symm
  · split at h
    · simp only [Option.some.injEq, Outcome.ret.injEq] at h
      exact h.1.symm
    · split at h
      · exact readAscii_error_nil pf _ tris err h
      · exact readBinary_error_nil mem _ tris err (Option.some.inj h)

theorem C7_error_returns_nil_witness :
    Read parseFloatSmall exampleMemory (.ok outerLoopCaseInput)
      = some (.ret none (some (Error.Errorf "expected %q: %q"
          [Arg.q (bytes "outer loop"), Arg.q (bytes "outer Loop")])))
    ∧ (none : Option (List STLTri)) = none :=
  ⟨by decide,
    (C7_error_returns_nil exampleMemory parseFloatSmall (.ok outerLoopCaseInput) [] none
      (Error.Errorf "expected %q: %q" [Arg.q (bytes "outer loop"), Arg.q (bytes "outer Loop")])).1
      (by decide)⟩

/-- C8. For every input of fewer than 5 bytes, the empty input included, `Read` returns the nil
slice and the error of the sniffing read (`io.EOF` for the empty input, `io.ErrUnexpectedEOF`
otherwise); the result is the same for every `parseFloat`, no decoder takes part in it. -/
theorem C8_short_input (mem : Nat) (pf : Bytes → Except Error F32) (f : Bytes) (h : f.length < 5) :
    Read pf mem (.ok f)
      = some (.ret none (some (Error.ErrorfV "read comment: %v" []
          (if f.length = 0 then Error.EOF else Error.ErrUnexpectedEOF)))) := by
  have h5 : ¬ 5 ≤ f.length := by omega
  by_cases h0 : f.length = 0 <;> simp [Read, ReadFull, h5, h0]

theorem C8_short_input_witness :
    (bytes "soli").length < 5 ∧
    Read parseFloatSmall exampleMemory (.ok (bytes "soli"))
      = some (.ret none (some (Error.ErrorfV "read comment: %v" []
          (if (bytes "soli").length = 0 then Error.EOF else Error.ErrUnexpectedEOF)))) :=
  ⟨by decide, C8_short_input exampleMemory parseFloatSmall (bytes "soli") (by decide)⟩

/-- C9, as stated, fails: the 80-byte header `solid` followed by 75 zero bytes, with the count
0 after it, is routed to the ASCII decoder and `Read` returns an error. -/
theorem C9_counterexample :
    (bytes "solid" ++ List.replicate 75 0).length = 80
    ∧ Read parseFloatSmall exampleMemory (.ok ((bytes "solid" ++ List.replicate 75 0) ++ [0, 0, 0, 0]))
      = some (.ret none (some (Error.ErrorfV "error reading first line: %v" [] Error.EOF)))
    ∧ ¬ (∀ hdr : Bytes, hdr.length = 80 →
          ∃ tris, Read parseFloatSmall exampleMemory (.ok (hdr ++ [0, 0, 0, 0])) = some (.ret tris none)
            ∧ tris.getD [] = []) := by
  refine ⟨by decide, by decide, ?_⟩
  intro h
  obtain ⟨tris, h1, -⟩ := h (bytes "solid" ++ List.replicate 75 0) (by decide)
  have h2 : Read parseFloatSmall exampleMemory (.ok ((bytes "solid" ++ List.replicate 75 0) ++ [0, 0, 0, 0]))
      = some (.ret none (some (Error.ErrorfV "error reading first line: %v" [] Error.EOF))) := by
    decide
  rw [h2] at h1
  simp at h1

/-- C9, amended. For every 80-byte header followed by the little-endian count 0, `readBinary`,
which gets the bytes after the first five, returns the empty mesh (a slice of length 0) and no
error, whatever the header holds and whatever memory is available; `Read` does so when the
first five bytes of the header are not `solid`; and when they are `solid`, `Read` returns what
the ASCII decoder returns on the bytes after them. -/
theorem C9_empty_binary (mem : Nat) (pf : Bytes → Except Error F32) (hdr : Bytes)
    (h80 : hdr.length = 80) :
    readBinary mem ((hdr ++ [0, 0, 0, 0]).drop 5) = .ret (some []) none
    ∧ (hdr.take 5 ≠ bytes "solid" →
        Read pf mem (.ok (hdr ++ [0, 0, 0, 0])) = some (.ret (some []) none))
    ∧ (hdr.take 5 = bytes "solid" →
        Read pf mem (.ok (hdr ++ [0, 0, 0, 0])) = readAscii pf ((hdr ++ [0, 0, 0, 0]).drop 5)) := by
  have hN : Uint32 (hdr ++ [0, 0, 0, 0]) 80 = 0 := by
    simp only [Uint32]
    rw [List.getD_append_right _ _ _ _ (by omega), List.getD_append_right _ _ _ _ (by omega),
      List.getD_append_right _ _ _ _ (by omega), List.getD_append_right _ _ _ _ (by omega), h80]
    rfl
  have ht : (hdr ++ [0, 0, 0, 0]).take 5 = hdr.take 5 := by
    rw [List.take_append_of_le_length (by omega)]
  have hb : readBinary mem ((hdr ++ [0, 0, 0, 0]).drop 5) = .ret (some []) none := by
    rw [readBinary_complete _ (by rw [hN, List.length_append]; simp; omega)
      (by rw [hN]; omega), hN]
    simp
  refine ⟨hb, ?_, ?_⟩
  · intro hs
    rw [Read_not_solid pf _ (by simp; omega) (by rw [ht]; exact hs), hb]
  · intro hs
    have e : hdr ++ [0, 0, 0, 0] = bytes "solid" ++ (hdr ++ [0, 0, 0, 0]).drop 5 := by
      conv_lhs => rw [← List.take_append_drop 5 (hdr ++ [0, 0, 0, 0]), ht, hs]
    conv_lhs => rw [e]
    exact Read_solid pf _

theorem C9_empty_binary_witness :
    (List.replicate 80 0).length = 80 ∧ (List.replicate 80 0).take 5 ≠ bytes "solid" ∧
    Read parseFloatSmall exampleMemory (.ok (List.replicate 80 0 ++ [0, 0, 0, 0]))
      = some (.ret (some []) none) :=
  ⟨by decide, by decide,
    (C9_empty_binary exampleMemory parseFloatSmall (List.replicate 80 0) (by decide)).2.1
      (by decide)⟩

/-! ## The loop body on a block that is cut short -/

theorem getLine_bad (line rest kw : Bytes) (h10 : ∀ x ∈ line, x ≠ 10)
    (hp : HasPrefix (TrimSpace (line ++ [10])) kw = false) :
    getLine (line ++ 10 :: rest) kw
      = .error (Error.Errorf "expected %q: %q" [Arg.q kw, Arg.q (TrimSpace (line ++ [10]))]) := by
  simp [getLine, nextLine_append line rest h10, hp]

theorem getVertex_bad (pf : Bytes → Except Error F32) (line rest : Bytes)
    (h10 : ∀ x ∈ line, x ≠ 10)
    (hp : HasPrefix (TrimSpace (line ++ [10])) (bytes "vertex ") = false) :
    getVertex pf (line ++ 10 :: rest)
      = .err (Error.Errorf "expected vertex: %q" [Arg.q (TrimSpace (line ++ [10]))]) := by
  simp [getVertex, nextLine_append line rest h10, hp]

theorem getVertex_tokens (pf : Bytes → Except Error F32) (a b c rest : Bytes)
    (ha : isToken a = true) (hb : isToken b = true) (hc : isToken c = true) :
    getVertex pf (tripleLine (bytes "vertex ") a b c ++ rest)
      = match threeFloats pf a b c with
        | .error err => .err err
        | .ok v => .ok (v, rest) := by
  have e : bytes "vertex " ++ a ++ 32 :: b ++ 32 :: c
      = bytes "vertex " ++ (a ++ 32 :: b ++ 32 :: c) := by simp
  simp only [getVertex, nextLine_vertex a b c rest ha hb hc]
  rw [Split_vertex a b c ha hb hc, e, HasPrefix_append]
  simp

/-- The loop body after a `facet normal` line with three tokens: the error of the normal, or
the rest of the body run on the lines that follow. -/
theorem readAsciiBody_facet (pf : Bytes → Except Error F32) (nx ny nz rest : Bytes)
    (tris : Option (List STLTri)) (h1 : isToken nx = true) (h2 : isToken ny = true)
    (h3 : isToken nz = true) :
    readAsciiBody pf (tripleLine (bytes "facet normal ") nx ny nz ++ rest) tris
      = match threeFloats pf nx ny nz with
        | .error err => .done (.ret none (some (Error.ErrorfV "nx, ny, nz parse: %v" [] err)))
        | .ok (x, y, z) =>
          match getLine rest (bytes "outer loop") with
          | .error err => .done (.ret none (some err))
          | .ok buf =>
            match getVertex pf buf with
            | .panic i n => .done (.panic i n)
            | .err err => .done (.ret none (some (Error.ErrorfV "v1x, v1y, v1z parse: %v" [] err)))
            | .ok ((v1x, v1y, v1z), buf) =>
              match getVertex pf buf with
              | .panic i n => .done (.panic i n)
              | .err err =>
                .done (.ret none (some (Error.ErrorfV "v2x, v2y, v2z parse: %v" [] err)))
              | .ok ((v2x, v2y, v2z), buf) =>
                match getVertex pf buf with
                | .panic i n => .done (.panic i n)
                | .err err =>
                  .done (.ret none (some (Error.ErrorfV "v3x, v3y, v3z parse: %v" [] err)))
                | .ok ((v3x, v3y, v3z), buf) =>
                  match getLine buf (bytes "endloop") with
                  | .error err => .done (.ret none (some err))
                  | .ok buf =>
                    match getLine buf (bytes "endfacet") with
                    | .error err => .done (.ret none (some err))
                    | .ok buf =>
                      .next buf (append tris
                        ⟨x, y, z, v1x, v1y, v1z, v2x, v2y, v2z, v3x, v3y, v3z⟩) := by
  have e : bytes "facet normal " ++ nx ++ 32 :: ny ++ 32 :: nz
      = bytes "facet normal " ++ (nx ++ 32 :: ny ++ 32 :: nz) := by simp
  have hne : HasPrefix (bytes "facet normal " ++ (nx ++ 32 :: ny ++ 32 :: nz))
      (bytes "endsolid") = false := by
    simp [HasPrefix, bytes, List.isPrefixOf]
  unfold readAsciiBody
  rw [nextLine_facet _ _ _ _ h1 h2 h3]
  simp only []
  rw [Split_facet _ _ _ h1 h2 h3, e, hne, HasPrefix_append]
  simp only [List.getD_cons_succ, List.getD_cons_zero, List.length_cons, List.length_nil]
  rfl

/-- The loop body on a line, at the place of a `facet normal` line, whose trimmed form begins
with `endsolid`: the loop is left and the slice is returned. -/
theorem readAsciiBody_terminator (pf : Bytes → Except Error F32) (line rest : Bytes)
    (tris : Option (List STLTri)) (h10 : ∀ x ∈ line, x ≠ 10)
    (hp : HasPrefix (TrimSpace (line ++ [10])) (bytes "endsolid") = true) :
    readAsciiBody pf (line ++ 10 :: rest) tris = .done (.ret tris none) := by
  simp [readAsciiBody, nextLine_append line rest h10, hp]

/-- The loop body on a line, at the place of a `facet normal` line, whose trimmed form begins
neither with `endsolid` nor with `facet normal `. -/
theorem readAsciiBody_not_facet (pf : Bytes → Except Error F32) (line rest : Bytes)
    (tris : Option (List STLTri)) (h10 : ∀ x ∈ line, x ≠ 10)
    (he : HasPrefix (TrimSpace (line ++ [10])) (bytes "endsolid") = false)
    (hp : HasPrefix (TrimSpace (line ++ [10])) (bytes "facet normal ") = false) :
    readAsciiBody pf (line ++ 10 :: rest) tris
      = .done (.ret none (some (Error.Errorf "expected facet normal, got %q"
          [Arg.q (TrimSpace (line ++ [10]))]))) := by
  simp [readAsciiBody, nextLine_append line rest h10, hp, he]

theorem Read_blocks_done {mem : Nat} (pf : Bytes → Except Error F32) (name tail : Bytes)
    (facets : List FacetText) (o : Outcome) (hname : ∀ x ∈ name, x ≠ 10)
    (hwf : ∀ t ∈ facets, t.wellFormed pf = true)
    (h : readAsciiBody pf tail (appendAll none (facets.map (FacetText.tri pf))) = .done o) :
    Read pf mem (.ok (bytes "solid" ++ (name ++ 10 :: (blocksText facets ++ tail)))) = some o := by
  rw [Read_solid, readAscii_first_line pf name _ hname, readAsciiLoop_blocks pf facets _ none hwf,
    readAsciiLoop_done pf _ _ _ h]

theorem HasPrefix_TrimSpace_endsolid (line : Bytes)
    (h : HasPrefix line (bytes "endsolid") = true) :
    HasPrefix (TrimSpace (line ++ [10])) (bytes "endsolid") = true := by
  simp only [HasPrefix, List.isPrefixOf_iff_prefix] at h
  obtain ⟨x, rfl⟩ := h
  obtain ⟨a2, ha⟩ := TrimSpace_plain_prefix 101 (bytes "ndsolid") (x ++ [10]) (by decide)
    (by decide)
  have e : bytes "endsolid" ++ x ++ [10] = 101 :: bytes "ndsolid" ++ (x ++ [10]) := by
    simp [bytes]
  have e2 : 101 :: bytes "ndsolid" ++ a2 = bytes "endsolid" ++ a2 := by simp [bytes]
  rw [e, ha, e2, HasPrefix_append]

/-- C10. In the ASCII decoder, after the first line and any number of well-formed facet blocks
(the place where a new facet block or the terminator is expected), a line whose trimmed form
begins with `endsolid` ends the loop, and `Read` returns the triangles of the blocks read so far
and no error; a line that begins with `endsolid` before trimming is such a line. Every other
line whose trimmed form does not begin with `facet normal `, the blank line included, makes
`Read` return the nil slice and the error `expected facet normal, got` with the trimmed line. -/
theorem C10_terminator_or_error (mem : Nat) (pf : Bytes → Except Error F32) (name line rest : Bytes)
    (facets : List FacetText) (hname : ∀ x ∈ name, x ≠ 10) (hline : ∀ x ∈ line, x ≠ 10)
    (hwf : ∀ t ∈ facets, t.wellFormed pf = true) :
    (HasPrefix (TrimSpace (line ++ [10])) (bytes "endsolid") = true →
      Read pf mem (.ok (bytes "solid" ++ (name ++ 10 :: (blocksText facets ++ (line ++ 10 :: rest)))))
        = some (.ret (if facets.isEmpty then none else some (facets.map (FacetText.tri pf)))
            none))
    ∧ (HasPrefix line (bytes "endsolid") = true →
      HasPrefix (TrimSpace (line ++ [10])) (bytes "endsolid") = true)
    ∧ (HasPrefix (TrimSpace (line ++ [10])) (bytes "endsolid") = false →
      HasPrefix (TrimSpace (line ++ [10])) (bytes "facet normal ") = false →
      Read pf mem (.ok (bytes "solid" ++ (name ++ 10 :: (blocksText facets ++ (line ++ 10 :: rest)))))
        = some (.ret none (some (Error.Errorf "expected facet normal, got %q"
            [Arg.q (TrimSpace (line ++ [10]))]))))
    ∧ Read pf mem (.ok (bytes "solid" ++ (name ++ 10 :: (blocksText facets ++ (10 :: rest)))))
        = some (.ret none (some (Error.Errorf "expected facet normal, got %q" [Arg.q []]))) := by
  refine ⟨?_, HasPrefix_TrimSpace_endsolid line, ?_, ?_⟩
  · intro hp
    rw [Read_blocks_done pf name _ facets _ hname hwf
      (readAsciiBody_terminator pf line rest _ hline hp), appendAll_none]
    cases facets <;> simp
  · intro he hp
    exact Read_blocks_done pf name _ facets _ hname hwf
      (readAsciiBody_not_facet pf line rest _ hline he hp)
  · have := @Read_blocks_done mem pf name _ facets _ hname hwf
      (readAsciiBody_not_facet pf [] rest _ (by simp) (by decide) (by decide))
    simpa [TrimSpace_newline] using this

theorem C10_terminator_or_error_witness :
    (∀ x ∈ bytes " test", x ≠ 10) ∧ (∀ x ∈ bytes "end solid", x ≠ 10) ∧
    (∀ t ∈ [exampleFacet], t.wellFormed parseFloatSmall = true) ∧
    HasPrefix (TrimSpace (bytes "end solid" ++ [10])) (bytes "endsolid") = false ∧
    HasPrefix (TrimSpace (bytes "end solid" ++ [10])) (bytes "facet normal ") = false ∧
    Read parseFloatSmall exampleMemory (.ok (bytes "solid" ++ (bytes " test" ++ 10 ::
        (blocksText [exampleFacet] ++ (bytes "end solid" ++ 10 :: [])))))
      = some (.ret none (some (Error.Errorf "expected facet normal, got %q"
          [Arg.q (TrimSpace (bytes "end solid" ++ [10]))]))) :=
  ⟨by decide, by decide, by decide, by decide, by decide,
    (C10_terminator_or_error exampleMemory parseFloatSmall (bytes " test") (bytes "end solid") []
      [exampleFacet] (by decide) (by decide) (by decide)).2.2.1 (by decide) (by decide)⟩

theorem wellFormed_tokens (pf : Bytes → Except Error F32) (t : FacetText)
    (h : t.wellFormed pf = true) :
    (isNumeric pf t.nx = true ∧ isNumeric pf t.ny = true ∧ isNumeric pf t.nz = true)
    ∧ (isNumeric pf t.v1x = true ∧ isNumeric pf t.v1y = true ∧ isNumeric pf t.v1z = true)
    ∧ (isNumeric pf t.v2x = true ∧ isNumeric pf t.v2y = true ∧ isNumeric pf t.v2z = true)
    ∧ (isNumeric pf t.v3x = true ∧ isNumeric pf t.v3y = true ∧ isNumeric pf t.v3z = true) := by
  simp only [FacetText.wellFormed, FacetText.tokens, List.all_cons, List.all_nil, Bool.and_true,
    Bool.and_eq_true] at h
  obtain ⟨h1, h2, h3, h4, h5, h6, h7, h8, h9, h10, h11, h12⟩ := h
  exact ⟨⟨h1, h2, h3⟩, ⟨h4, h5, h6⟩, ⟨h7, h8, h9⟩, ⟨h10, h11, h12⟩⟩

/-- The loop body on the first `j` lines of a well-formed block followed by a line whose
trimmed form does not begin with the keyword expected there. -/
theorem readAsciiBody_keyword (pf : Bytes → Except Error F32) (t : FacetText) (j : Nat)
    (line rest : Bytes) (tris : Option (List STLTri)) (ht : t.wellFormed pf = true)
    (hj : j < 7) (hline : ∀ x ∈ line, x ≠ 10)
    (hp : HasPrefix (TrimSpace (line ++ [10])) (expectedKeyword j) = false)
    (he : j = 0 → HasPrefix (TrimSpace (line ++ [10])) (bytes "endsolid") = false) :
    readAsciiBody pf (t.firstLines j ++ (line ++ 10 :: rest)) tris
      = .done (.ret none (some (keywordError j (TrimSpace (line ++ [10]))))) := by
  obtain ⟨⟨n1, n2, n3⟩, ⟨a1, a2, a3⟩, ⟨b1, b2, b3⟩, ⟨c1, c2, c3⟩⟩ := wellFormed_tokens pf t ht
  have m1 := (isNumeric_iff pf _).mp n1
  have m2 := (isNumeric_iff pf _).mp n2
  have m3 := (isNumeric_iff pf _).mp n3
  have hn := threeFloats_numeric pf _ _ _ m1.2 m2.2 m3.2
  interval_cases j
  · simp only [FacetText.firstLines, List.take_zero, List.flatten_nil, List.nil_append]
    exact readAsciiBody_not_facet pf line rest tris hline (he rfl) hp
  · have e : t.firstLines 1 ++ (line ++ 10 :: rest)
        = tripleLine (bytes "facet normal ") t.nx t.ny t.nz ++ (line ++ 10 :: rest) := by
      simp [FacetText.firstLines, FacetText.lines]
    rw [e, readAsciiBody_facet pf _ _ _ _ tris m1.1 m2.1 m3.1, hn]
    simp only []
    rw [getLine_bad line rest (bytes "outer loop") hline hp]
    rfl
  · have e : t.firstLines 2 ++ (line ++ 10 :: rest)
        = tripleLine (bytes "facet normal ") t.nx t.ny t.nz ++ (bytes "outer loop\n"
          ++ (line ++ 10 :: rest)) := by
      simp [FacetText.firstLines, FacetText.lines]
    rw [e, readAsciiBody_facet pf _ _ _ _ tris m1.1 m2.1 m3.1, hn]
    simp only []
    rw [getLine_outer_loop]
    simp only []
    rw [getVertex_bad pf line rest hline hp]
    rfl
  · have e : t.firstLines 3 ++ (line ++ 10 :: rest)
        = tripleLine (bytes "facet normal ") t.nx t.ny t.nz ++ (bytes "outer loop\n"
          ++ (tripleLine (bytes "vertex ") t.v1x t.v1y t.v1z ++ (line ++ 10 :: rest))) := by
      simp [FacetText.firstLines, FacetText.lines]
    rw [e, readAsciiBody_facet pf _ _ _ _ tris m1.1 m2.1 m3.1, hn]
    simp only []
    rw [getLine_outer_loop]
    simp only []
    rw [getVertex_numeric pf _ _ _ _ a1 a2 a3]
    simp only []
    rw [getVertex_bad pf line rest hline hp]
    rfl
  · have e : t.firstLines 4 ++ (line ++ 10 :: rest)
        = tripleLine (bytes "facet normal ") t.nx t.ny t.nz ++ (bytes "outer loop\n"
          ++ (tripleLine (bytes "vertex ") t.v1x t.v1y t.v1z
          ++ (tripleLine (bytes "vertex ") t.v2x t.v2y t.v2z ++ (line ++ 10 :: rest)))) := by
      simp [FacetText.firstLines, FacetText.lines]
    rw [e, readAsciiBody_facet pf _ _ _ _ tris m1.1 m2.1 m3.1, hn]
    simp only []
    rw [getLine_outer_loop]
    simp only []
    rw [getVertex_numeric pf _ _ _ _ a1 a2 a3]
    simp only []
    rw [getVertex_numeric pf _ _ _ _ b1 b2 b3]
    simp only []
    rw [getVertex_bad pf line rest hline hp]
    rfl
  · have e : t.firstLines 5 ++ (line ++ 10 :: rest)
        = tripleLine (bytes "facet normal ") t.nx t.ny t.nz ++ (bytes "outer loop\n"
          ++ (tripleLine (bytes "vertex ") t.v1x t.v1y t.v1z
          ++ (tripleLine (bytes "vertex ") t.v2x t.v2y t.v2z
          ++ (tripleLine (bytes "vertex ") t.v3x t.v3y t.v3z ++ (line ++ 10 :: rest))))) := by
      simp [FacetText.firstLines, FacetText.lines]
    rw [e, readAsciiBody_facet pf _ _ _ _ tris m1.1 m2.1 m3.1, hn]
    simp only []
    rw [getLine_outer_loop]
    simp only []
    rw [getVertex_numeric pf _ _ _ _ a1 a2 a3]
    simp only []
    rw [getVertex_numeric pf _ _ _ _ b1 b2 b3]
    simp only []
    rw [getVertex_numeric pf _ _ _ _ c1 c2 c3]
    simp only []
    rw [getLine_bad line rest (bytes "endloop") hline hp]
    rfl
  · have e : t.firstLines 6 ++ (line ++ 10 :: rest)
        = tripleLine (bytes "facet normal ") t.nx t.ny t.nz ++ (bytes "outer loop\n"
          ++ (tripleLine (bytes "vertex ") t.v1x t.v1y t.v1z
          ++ (tripleLine (bytes "vertex ") t.v2x t.v2y t.v2z
          ++ (tripleLine (bytes "vertex ") t.v3x t.v3y t.v3z
          ++ (bytes "endloop\n" ++ (line ++ 10 :: rest)))))) := by
      simp [FacetText.firstLines, FacetText.lines]
    rw [e, readAsciiBody_facet pf _ _ _ _ tris m1.1 m2.1 m3.1, hn]
    simp only []
    rw [getLine_outer_loop]
    simp only []
    rw [getVertex_numeric pf _ _ _ _ a1 a2 a3]
    simp only []
    rw [getVertex_numeric pf _ _ _ _ b1 b2 b3]
    simp only []
    rw [getVertex_numeric pf _ _ _ _ c1 c2 c3]
    simp only []
    rw [getLine_endloop]
    simp only []
    rw [getLine_bad line rest (bytes "endfacet") hline hp]
    rfl

/-- C5. For every ASCII input made of the first line, any number of well-formed facet blocks,
the first `j` lines (`j < 7`) of one more well-formed block, and then a newline-terminated
line whose trimmed form does not begin with the keyword expected there (`facet normal `,
`outer loop`, `vertex `, `vertex `, `vertex `, `endloop`, `endfacet` for `j = 0, ..., 6`; at
`j = 0` the terminator `endsolid` is the other line accepted there), `Read` returns the nil
slice and the error of that place, whose operand is the trimmed line: the line is not skipped.
The error is `expected facet normal, got %q`, `expected %q: %q` with the keyword as first
operand, or `expected vertex: %q` wrapped in the `parse` error of the vertex. In particular
`outer Loop` in place of `outer loop` is rejected. -/
theorem C5_keyword_mismatch (mem : Nat) (pf : Bytes → Except Error F32) (name line rest : Bytes)
    (facets : List FacetText) (t : FacetText) (j : Nat) (hname : ∀ x ∈ name, x ≠ 10)
    (hline : ∀ x ∈ line, x ≠ 10) (hwf : ∀ u ∈ facets, u.wellFormed pf = true)
    (ht : t.wellFormed pf = true) (hj : j < 7)
    (hp : HasPrefix (TrimSpace (line ++ [10])) (expectedKeyword j) = false)
    (he : j = 0 → HasPrefix (TrimSpace (line ++ [10])) (bytes "endsolid") = false) :
    Read pf mem (.ok (bytes "solid" ++ (name ++ 10 ::
        (blocksText facets ++ (t.firstLines j ++ (line ++ 10 :: rest))))))
      = some (.ret none (some (keywordError j (TrimSpace (line ++ [10])))))
    ∧ Read pf mem (.ok (bytes "solid" ++ (name ++ 10 ::
          (blocksText facets ++ (t.firstLines 1 ++ (bytes "outer Loop" ++ 10 :: rest))))))
        = some (.ret none (some (Error.Errorf "expected %q: %q"
            [Arg.q (bytes "outer loop"), Arg.q (bytes "outer Loop")]))) := by
  refine ⟨Read_blocks_done pf name _ facets _ hname hwf
    (readAsciiBody_keyword pf t j line rest _ ht hj hline hp he), ?_⟩
  have := @Read_blocks_done mem pf name _ facets _ hname hwf
    (readAsciiBody_keyword pf t 1 (bytes "outer Loop") rest _ ht (by omega) (by decide)
      (by decide) (by omega))
  rw [this]
  have e : TrimSpace (bytes "outer Loop" ++ [10]) = bytes "outer Loop" := by decide
  rw [e]
  rfl

theorem C5_keyword_mismatch_witness :
    (∀ x ∈ bytes " test", x ≠ 10) ∧ (∀ x ∈ bytes "  Vertex 0 0 0", x ≠ 10) ∧
    (∀ u ∈ [exampleFacet], u.wellFormed parseFloatSmall = true) ∧
    exampleFacet.wellFormed parseFloatSmall = true ∧
    HasPrefix (TrimSpace (bytes "  Vertex 0 0 0" ++ [10])) (expectedKeyword 3) = false ∧
    Read parseFloatSmall exampleMemory (.ok (bytes "solid" ++ (bytes " test" ++ 10 ::
        (blocksText [exampleFacet] ++ (exampleFacet.firstLines 3
          ++ (bytes "  Vertex 0 0 0" ++ 10 :: bytes "endsolid\n"))))))
      = some (.ret none (some (Error.ErrorfV "v2x, v2y, v2z parse: %v" []
          (Error.Errorf "expected vertex: %q" [Arg.q (bytes "Vertex 0 0 0")])))) :=
  ⟨by decide, by decide, by decide, by decide, by decide,
    (C5_keyword_mismatch exampleMemory parseFloatSmall (bytes " test") (bytes "  Vertex 0 0 0")
      (bytes "endsolid\n") [exampleFacet] exampleFacet 3 (by decide) (by decide) (by decide)
      (by decide) (by decide) (by decide) (by decide)).1⟩

/-! ## A token that does not parse -/

theorem threeFloats_first (pf : Bytes → Except Error F32) (a b c : Bytes) (e : Error)
    (ha : pf (Replace a 44 46) = .error e) :
    threeFloats pf a b c = .error (Error.ErrorfV "first float: %v" [] e) := by
  simp [threeFloats, ha]

theorem threeFloats_second (pf : Bytes → Except Error F32) (a b c : Bytes) (e : Error)
    (ha : (tokenValue pf a).isSome = true) (hb : pf (Replace b 44 46) = .error e) :
    threeFloats pf a b c = .error (Error.ErrorfV "second float: %v" [] e) := by
  unfold tokenValue at ha
  cases h1 : pf (Replace a 44 46) with
  | error e1 => simp [h1] at ha
  | ok v1 => simp [threeFloats, h1, hb]

theorem threeFloats_third (pf : Bytes → Except Error F32) (a b c : Bytes) (e : Error)
    (ha : (tokenValue pf a).isSome = true) (hb : (tokenValue pf b).isSome = true)
    (hc : pf (Replace c 44 46) = .error e) :
    threeFloats pf a b c = .error (Error.ErrorfV "third float: %v" [] e) := by
  unfold tokenValue at ha hb
  cases h1 : pf (Replace a 44 46) with
  | error e1 => simp [h1] at ha
  | ok v1 =>
    cases h2 : pf (Replace b 44 46) with
    | error e2 => simp [h2] at hb
    | ok v2 => simp [threeFloats, h1, h2, hc]

theorem readAsciiBody_normal_fails (pf : Bytes → Except Error F32) (t : FacetText)
    (rest : Bytes) (tris : Option (List STLTri)) (err : Error)
    (h1 : isToken t.nx = true) (h2 : isToken t.ny = true) (h3 : isToken t.nz = true)
    (hf : threeFloats pf t.nx t.ny t.nz = .error err) :
    readAsciiBody pf (t.firstLines 1 ++ rest) tris
      = .done (.ret none (some (Error.ErrorfV "nx, ny, nz parse: %v" [] err))) := by
  have e : t.firstLines 1 ++ rest
      = tripleLine (bytes "facet normal ") t.nx t.ny t.nz ++ rest := by
    simp [FacetText.firstLines, FacetText.lines]
  rw [e, readAsciiBody_facet pf _ _ _ _ tris h1 h2 h3, hf]

theorem readAsciiBody_v1_fails (pf : Bytes → Except Error F32) (t : FacetText)
    (rest : Bytes) (tris : Option (List STLTri)) (err : Error)
    (n1 : isNumeric pf t.nx = true) (n2 : isNumeric pf t.ny = true)
    (n3 : isNumeric pf t.nz = true)
    (h1 : isToken t.v1x = true) (h2 : isToken t.v1y = true) (h3 : isToken t.v1z = true)
    (hf : threeFloats pf t.v1x t.v1y t.v1z = .error err) :
    readAsciiBody pf (t.firstLines 3 ++ rest) tris
      = .done (.ret none (some (Error.ErrorfV "v1x, v1y, v1z parse: %v" [] err))) := by
  have m1 := (isNumeric_iff pf _).mp n1
  have m2 := (isNumeric_iff pf _).mp n2
  have m3 := (isNumeric_iff pf _).mp n3
  have e : t.firstLines 3 ++ rest
      = tripleLine (bytes "facet normal ") t.nx t.ny t.nz ++ (bytes "outer loop\n"
        ++ (tripleLine (bytes "vertex ") t.v1x t.v1y t.v1z ++ rest)) := by
    simp [FacetText.firstLines, FacetText.lines]
  rw [e, readAsciiBody_facet pf _ _ _ _ tris m1.1 m2.1 m3.1,
    threeFloats_numeric pf _ _ _ m1.2 m2.2 m3.2]
  simp only []
  rw [getLine_outer_loop]
  simp only []
  rw [getVertex_tokens pf _ _ _ _ h1 h2 h3, hf]

theorem readAsciiBody_v2_fails (pf : Bytes → Except Error F32) (t : FacetText)
    (rest : Bytes) (tris : Option (List STLTri)) (err : Error)
    (n1 : isNumeric pf t.nx = true) (n2 : isNumeric pf t.ny = true)
    (n3 : isNumeric pf t.nz = true)
    (a1 : isNumeric pf t.v1x = true) (a2 : isNumeric pf t.v1y = true)
    (a3 : isNumeric pf t.v1z = true)
    (h1 : isToken t.v2x = true) (h2 : isToken t.v2y = true) (h3 : isToken t.v2z = true)
    (hf : threeFloats pf t.v2x t.v2y t.v2z = .error err) :
    readAsciiBody pf (t.firstLines 4 ++ rest) tris
      = .done (.ret none (some (Error.ErrorfV "v2x, v2y, v2z parse: %v" [] err))) := by
  have m1 := (isNumeric_iff pf _).mp n1
  have m2 := (isNumeric_iff pf _).mp n2
  have m3 := (isNumeric_iff pf _).mp n3
  have e : t.firstLines 4 ++ rest
      = tripleLine (bytes "facet normal ") t.nx t.ny t.nz ++ (bytes "outer loop\n"
        ++ (tripleLine (bytes "vertex ") t.v1x t.v1y t.v1z
        ++ (tripleLine (bytes "vertex ") t.v2x t.v2y t.v2z ++ rest))) := by
    simp [FacetText.firstLines, FacetText.lines]
  rw [e, readAsciiBody_facet pf _ _ _ _ tris m1.1 m2.1 m3.1,
    threeFloats_numeric pf _ _ _ m1.2 m2.2 m3.2]
  simp only []
  rw [getLine_outer_loop]
  simp only []
  rw [getVertex_numeric pf _ _ _ _ a1 a2 a3]
  simp only []
  rw [getVertex_tokens pf _ _ _ _ h1 h2 h3, hf]

theorem readAsciiBody_v3_fails (pf : Bytes → Except Error F32) (t : FacetText)
    (rest : Bytes) (tris : Option (List STLTri)) (err : Error)
    (n1 : isNumeric pf t.nx = true) (n2 : isNumeric pf t.ny = true)
    (n3 : isNumeric pf t.nz = true)
    (a1 : isNumeric pf t.v1x = true) (a2 : isNumeric pf t.v1y = true)
    (a3 : isNumeric pf t.v1z = true)
    (b1 : isNumeric pf t.v2x = true) (b2 : isNumeric pf t.v2y = true)
    (b3 : isNumeric pf t.v2z = true)
    (h1 : isToken t.v3x = true) (h2 : isToken t.v3y = true) (h3 : isToken t.v3z = true)
    (hf : threeFloats pf t.v3x t.v3y t.v3z = .error err) :
    readAsciiBody pf (t.firstLines 5 ++ rest) tris
      = .done (.ret none (some (Error.ErrorfV "v3x, v3y, v3z parse: %v" [] err))) := by
  have m1 := (isNumeric_iff pf _).mp n1
  have m2 := (isNumeric_iff pf _).mp n2
  have m3 := (isNumeric_iff pf _).mp n3
  have e : t.firstLines 5 ++ rest
      = tripleLine (bytes "facet normal ") t.nx t.ny t.nz ++ (bytes "outer loop\n"
        ++ (tripleLine (bytes "vertex ") t.v1x t.v1y t.v1z
        ++ (tripleLine (bytes "vertex ") t.v2x t.v2y t.v2z
        ++ (tripleLine (bytes "vertex ") t.v3x t.v3y t.v3z ++ rest)))) := by
    simp [FacetText.firstLines, FacetText.lines]
  rw [e, readAsciiBody_facet pf _ _ _ _ tris m1.1 m2.1 m3.1,
    threeFloats_numeric pf _ _ _ m1.2 m2.2 m3.2]
  simp only []
  rw [getLine_outer_loop]
  simp only []
  rw [getVertex_numeric pf _ _ _ _ a1 a2 a3]
  simp only []
  rw [getVertex_numeric pf _ _ _ _ b1 b2 b3]
  simp only []
  rw [getVertex_tokens pf _ _ _ _ h1 h2 h3, hf]

/-- The loop body on the lines of a block up to the line of its first token that does not
parse. -/
theorem readAsciiBody_token_fails (pf : Bytes → Except Error F32) (t : FacetText) (k : Nat)
    (rest : Bytes) (tris : Option (List STLTri)) (e : Error)
    (htok : ∀ tok ∈ t.tokens, isToken tok = true) (hk : k < 12)
    (hprev : ∀ i < k, (tokenValue pf (t.tokens.getD i [])).isSome = true)
    (hfail : pf (Replace (t.tokens.getD k []) 44 46) = .error e) :
    readAsciiBody pf (t.firstLines (tokenLines k) ++ rest) tris
      = .done (.ret none (some (Error.ErrorfV (tripleFormat k) []
          (Error.ErrorfV (ordinalFormat k) [] e)))) := by
  simp only [FacetText.tokens, List.mem_cons, List.mem_singleton, List.not_mem_nil, or_false,
    forall_eq_or_imp, forall_eq] at htok
  obtain ⟨t0, t1, t2, t3, t4, t5, t6, t7, t8, t9, t10, t11⟩ := htok
  have p0 : 0 < k → (tokenValue pf t.nx).isSome = true := fun h => hprev 0 h
  have p1 : 1 < k → (tokenValue pf t.ny).isSome = true := fun h => hprev 1 h
  have p2 : 2 < k → (tokenValue pf t.nz).isSome = true := fun h => hprev 2 h
  have p3 : 3 < k → (tokenValue pf t.v1x).isSome = true := fun h => hprev 3 h
  have p4 : 4 < k → (tokenValue pf t.v1y).isSome = true := fun h => hprev 4 h
  have p5 : 5 < k → (tokenValue pf t.v1z).isSome = true := fun h => hprev 5 h
  have p6 : 6 < k → (tokenValue pf t.v2x).isSome = true := fun h => hprev 6 h
  have p7 : 7 < k → (tokenValue pf t.v2y).isSome = true := fun h => hprev 7 h
  have p8 : 8 < k → (tokenValue pf t.v2z).isSome = true := fun h => hprev 8 h
  have p9 : 9 < k → (tokenValue pf t.v3x).isSome = true := fun h => hprev 9 h
  have p10 : 10 < k → (tokenValue pf t.v3y).isSome = true := fun h => hprev 10 h
  have num : ∀ tok : Bytes, isToken tok = true → (tokenValue pf tok).isSome = true →
      isNumeric pf tok = true := fun tok h1 h2 => (isNumeric_iff pf tok).mpr ⟨h1, h2⟩
  interval_cases k
  · exact readAsciiBody_normal_fails pf t rest tris _ t0 t1 t2
      (threeFloats_first pf t.nx t.ny t.nz e hfail)
  · exact readAsciiBody_normal_fails pf t rest tris _ t0 t1 t2
      (threeFloats_second pf t.nx t.ny t.nz e (p0 (by omega)) hfail)
  · exact readAsciiBody_normal_fails pf t rest tris _ t0 t1 t2
      (threeFloats_third pf t.nx t.ny t.nz e (p0 (by omega)) (p1 (by omega)) hfail)
  · exact readAsciiBody_v1_fails pf t rest tris _ (num _ t0 (p0 (by omega)))
      (num _ t1 (p1 (by omega))) (num _ t2 (p2 (by omega))) t3 t4 t5
      (threeFloats_first pf t.v1x t.v1y t.v1z e hfail)
  · exact readAsciiBody_v1_fails pf t rest tris _ (num _ t0 (p0 (by omega)))
      (num _ t1 (p1 (by omega))) (num _ t2 (p2 (by omega))) t3 t4 t5
      (threeFloats_second pf t.v1x t.v1y t.v1z e (p3 (by omega)) hfail)
  · exact readAsciiBody_v1_fails pf t rest tris _ (num _ t0 (p0 (by omega)))
      (num _ t1 (p1 (by omega))) (num _ t2 (p2 (by omega))) t3 t4 t5
      (threeFloats_third pf t.v1x t.v1y t.v1z e (p3 (by omega)) (p4 (by omega)) hfail)
  · exact readAsciiBody_v2_fails pf t rest tris _ (num _ t0 (p0 (by omega)))
      (num _ t1 (p1 (by omega))) (num _ t2 (p2 (by omega))) (num _ t3 (p3 (by omega)))
      (num _ t4 (p4 (by omega))) (num _ t5 (p5 (by omega))) t6 t7 t8
      (threeFloats_first pf t.v2x t.v2y t.v2z e hfail)
  · exact readAsciiBody_v2_fails pf t rest tris _ (num _ t0 (p0 (by omega)))
      (num _ t1 (p1 (by omega))) (num _ t2 (p2 (by omega))) (num _ t3 (p3 (by omega)))
      (num _ t4 (p4 (by omega))) (num _ t5 (p5 (by omega))) t6 t7 t8
      (threeFloats_second pf t.v2x t.v2y t.v2z e (p6 (by omega)) hfail)
  · exact readAsciiBody_v2_fails pf t rest tris _ (num _ t0 (p0 (by omega)))
      (num _ t1 (p1 (by omega))) (num _ t2 (p2 (by omega))) (num _ t3 (p3 (by omega)))
      (num _ t4 (p4 (by omega))) (num _ t5 (p5 (by omega))) t6 t7 t8
      (threeFloats_third pf t.v2x t.v2y t.v2z e (p6 (by omega)) (p7 (by omega)) hfail)
  · exact readAsciiBody_v3_fails pf t rest tris _ (num _ t0 (p0 (by omega)))
      (num _ t1 (p1 (by omega))) (num _ t2 (p2 (by omega))) (num _ t3 (p3 (by omega)))
      (num _ t4 (p4 (by omega))) (num _ t5 (p5 (by omega))) (num _ t6 (p6 (by omega)))
      (num _ t7 (p7 (by omega))) (num _ t8 (p8 (by omega))) t9 t10 t11
      (threeFloats_first pf t.v3x t.v3y t.v3z e hfail)
  · exact readAsciiBody_v3_fails pf t rest tris _ (num _ t0 (p0 (by omega)))
      (num _ t1 (p1 (by omega))) (num _ t2 (p2 (by omega))) (num _ t3 (p3 (by omega)))
      (num _ t4 (p4 (by omega))) (num _ t5 (p5 (by omega))) (num _ t6 (p6 (by omega)))
      (num _ t7 (p7 (by omega))) (num _ t8 (p8 (by omega))) t9 t10 t11
      (threeFloats_second pf t.v3x t.v3y t.v3z e (p9 (by omega)) hfail)
  · exact readAsciiBody_v3_fails pf t rest tris _ (num _ t0 (p0 (by omega)))
      (num _ t1 (p1 (by omega))) (num _ t2 (p2 (by omega))) (num _ t3 (p3 (by omega)))
      (num _ t4 (p4 (by omega))) (num _ t5 (p5 (by omega))) (num _ t6 (p6 (by omega)))
      (num _ t7 (p7 (by omega))) (num _ t8 (p8 (by omega))) t9 t10 t11
      (threeFloats_third pf t.v3x t.v3y t.v3z e (p9 (by omega)) (p10 (by omega)) hfail)

/-- C6. For every ASCII input made of the first line, any number of well-formed facet blocks,
and the lines of one more block (with twelve tokens) up to and including the line of its first
token that does not parse, token `k` (counted from 0 over the normal and the vertices v1, v2,
v3), `Read` returns at once the nil slice and an error that names the triple of the token
(`nx, ny, nz`, `v1x, v1y, v1z`, `v2x, v2y, v2z` or `v3x, v3y, v3z`), its place in the triple
(`first float`, `second float` or `third float`) and the error `e` of the parse; what follows
the line in the input is not read. -/
theorem C6_float_parse_error (mem : Nat) (pf : Bytes → Except Error F32) (name rest : Bytes)
    (facets : List FacetText) (t : FacetText) (k : Nat) (e : Error)
    (hname : ∀ x ∈ name, x ≠ 10) (hwf : ∀ u ∈ facets, u.wellFormed pf = true)
    (htok : ∀ tok ∈ t.tokens, isToken tok = true) (hk : k < 12)
    (hprev : ∀ i < k, (tokenValue pf (t.tokens.getD i [])).isSome = true)
    (hfail : pf (Replace (t.tokens.getD k []) 44 46) = .error e) :
    Read pf mem (.ok (bytes "solid" ++ (name ++ 10 ::
        (blocksText facets ++ (t.firstLines (tokenLines k) ++ rest)))))
      = some (.ret none (some (Error.ErrorfV (tripleFormat k) []
          (Error.ErrorfV (ordinalFormat k) [] e)))) :=
  Read_blocks_done pf name _ facets _ hname hwf
    (readAsciiBody_token_fails pf t k rest _ e htok hk hprev hfail)

theorem C6_float_parse_error_witness :
    (∀ x ∈ bytes " test", x ≠ 10) ∧
    (∀ u ∈ [exampleFacet], u.wellFormed parseFloatSmall = true) ∧
    (∀ tok ∈ badTokenFacet.tokens, isToken tok = true) ∧
    (∀ i < 7, (tokenValue parseFloatSmall (badTokenFacet.tokens.getD i [])).isSome = true) ∧
    parseFloatSmall (Replace (badTokenFacet.tokens.getD 7 []) 44 46)
      = .error (Error.NumError "ParseFloat" (bytes "x") Error.ErrSyntax) ∧
    Read parseFloatSmall exampleMemory (.ok (bytes "solid" ++ (bytes " test" ++ 10 ::
        (blocksText [exampleFacet] ++ (badTokenFacet.firstLines (tokenLines 7)
          ++ bytes "vertex 0 1 0\nendloop\nendfacet\nendsolid\n")))))
      = some (.ret none (some (Error.ErrorfV "v2x, v2y, v2z parse: %v" []
          (Error.ErrorfV "second float: %v" []
            (Error.NumError "ParseFloat" (bytes "x") Error.ErrSyntax))))) :=
  ⟨by decide, by decide, by decide, by decide, rfl,
    C6_float_parse_error exampleMemory parseFloatSmall (bytes " test")
      (bytes "vertex 0 1 0\nendloop\nendfacet\nendsolid\n") [exampleFacet] badTokenFacet 7
      (Error.NumError "ParseFloat" (bytes "x") Error.ErrSyntax)
      (by decide) (by decide) (by decide) (by decide) (by decide) rfl⟩

/-! ## Decimal commas -/

theorem Replace_idem (s : Bytes) : Replace (Replace s 44 46) 44 46 = Replace s 44 46 := by
  simp only [Replace, List.map_map]
  apply List.map_congr_left
  intro c _
  simp only [Function.comp]
  by_cases h : c = 44
  · simp [h]
  · simp [h]

/-- C11. For all token strings `p1`, `p2`, `p3`, `threeFloats` returns on them what it returns
on the tokens in which every `,` is replaced by `.`: the same three values, or the same error
for the same place. So it reads the token `1,5` as it reads `1.5`, whatever the other two
tokens are, and the value of `1,5` is the value of `1.5`. -/
theorem C11_decimal_comma (pf : Bytes → Except Error F32) (p1 p2 p3 : Bytes) :
    threeFloats pf p1 p2 p3
      = threeFloats pf (Replace p1 44 46) (Replace p2 44 46) (Replace p3 44 46)
    ∧ Replace (bytes "1,5") 44 46 = bytes "1.5"
    ∧ threeFloats pf (bytes "1,5") p2 p3 = threeFloats pf (bytes "1.5") p2 p3
    ∧ threeFloats pf p1 (bytes "1,5") p3 = threeFloats pf p1 (bytes "1.5") p3
    ∧ threeFloats pf p1 p2 (bytes "1,5") = threeFloats pf p1 p2 (bytes "1.5")
    ∧ tokenValue pf (bytes "1,5") = tokenValue pf (bytes "1.5") := by
  have e1 : Replace (bytes "1,5") 44 46 = bytes "1.5" := by decide
  have e2 : Replace (bytes "1.5") 44 46 = bytes "1.5" := by decide
  refine ⟨?_, e1, ?_, ?_, ?_, ?_⟩
  · simp only [threeFloats, Replace_idem]
  · simp only [threeFloats, e1, e2]
  · simp only [threeFloats, e1, e2]
  · simp only [threeFloats, e1, e2]
  · simp only [tokenValue, e1, e2]

/-! ## A vertex line with too few tokens -/

/-- C14: the code does not do what the claim says. On a line `vertex 1 2` the slice `parts` has
three elements and `getVertex` evaluates `parts[3]`: it panics with `index out of range [3]
with length 3`, for every `parseFloat` and whatever follows the line, and on `vertex 1` it
panics at `parts[2]`. `Read` on `shortVertexInput`, whose first vertex line is `vertex 1 2`,
panics and returns no error value. -/
theorem C14_short_vertex_panics (mem : Nat) (pf : Bytes → Except Error F32) (rest : Bytes) :
    getVertex pf (bytes "vertex 1 2" ++ 10 :: rest) = .panic 3 3
    ∧ getVertex pf (bytes "vertex 1" ++ 10 :: rest) = .panic 2 2
    ∧ Read parseFloatSmall mem (.ok shortVertexInput) = some (.panic 3 3) := by
  refine ⟨?_, ?_, ?_⟩
  rotate_left 2
  · have e : shortVertexInput = bytes "solid" ++ shortVertexInput.drop 5 := by decide
    rw [e, Read_solid]
    decide
  · have t : TrimSpace (bytes "vertex 1 2" ++ [10]) = bytes "vertex 1 2" := by decide
    have p : HasPrefix (bytes "vertex 1 2") (bytes "vertex ") = true := by decide
    have s : Split (bytes "vertex 1 2") 32 = [bytes "vertex", bytes "1", bytes "2"] := by decide
    simp only [getVertex, nextLine_append (bytes "vertex 1 2") rest (by decide), t, p, s]
    rfl
  · have t : TrimSpace (bytes "vertex 1" ++ [10]) = bytes "vertex 1" := by decide
    have p : HasPrefix (bytes "vertex 1") (bytes "vertex ") = true := by decide
    have s : Split (bytes "vertex 1") 32 = [bytes "vertex", bytes "1"] := by decide
    simp only [getVertex, nextLine_append (bytes "vertex 1") rest (by decide), t, p, s]
    rfl

/-! ## What the binary decoder does not read -/

theorem Uint32_congr (a b : Bytes) (off : Nat)
    (h : ∀ k < 4, a.getD (off + k) 0 = b.getD (off + k) 0) : Uint32 a off = Uint32 b off := by
  have h0 := h 0 (by omega)
  have h1 := h 1 (by omega)
  have h2 := h 2 (by omega)
  have h3 := h 3 (by omega)
  simp only [Nat.add_zero] at h0
  simp only [Uint32, h0, h1, h2, h3]

theorem triangleAt_congr (a b : Bytes) (off : Nat)
    (h : ∀ j < 48, a.getD (off + j) 0 = b.getD (off + j) 0) :
    triangleAt a off = triangleAt b off := by
  have key : ∀ m, m + 4 ≤ 48 → Uint32 a (off + m) = Uint32 b (off + m) := by
    intro m hm
    apply Uint32_congr
    intro k hk
    rw [Nat.add_assoc]
    exact h (m + k) (by omega)
  have k0 := key 0 (by omega)
  simp only [Nat.add_zero] at k0
  simp only [triangleAt, wordsAt, k0, key 4 (by omega), key 8 (by omega), key 12 (by omega),
    key 16 (by omega), key 20 (by omega), key 24 (by omega), key 28 (by omega),
    key 32 (by omega), key 36 (by omega), key 40 (by omega), key 44 (by omega)]

/-- C15. For every two binary inputs of at least `84 + 50 * N` bytes that hold the same count
`N` at offset 80 and agree on the 48 data bytes of each of the first `N` records, `readBinary`
returns the same result; and `Read` does, when the two inputs also agree on their first five
bytes and these are not `solid`. The header bytes 5..79, the two padding bytes of each record
and the bytes after record `N` are not among the bytes compared. -/
theorem C15_binary_ignores_padding (mem : Nat) (pf : Bytes → Except Error F32) (a b : Bytes) (N : Nat)
    (ha : 84 + 50 * N ≤ a.length) (hb : 84 + 50 * N ≤ b.length)
    (hNa : Uint32 a 80 = N) (hNb : Uint32 b 80 = N)
    (hdata : ∀ i < N, ∀ j < 48, a.getD (84 + 50 * i + j) 0 = b.getD (84 + 50 * i + j) 0) :
    readBinary mem (a.drop 5) = readBinary mem (b.drop 5)
    ∧ (a.take 5 = b.take 5 → a.take 5 ≠ bytes "solid" → Read pf mem (.ok a) = Read pf mem (.ok b)) := by
  have hr : readBinary mem (a.drop 5) = readBinary mem (b.drop 5) := by
    by_cases hm : 48 * N ≤ mem
    · rw [readBinary_complete a (by rw [hNa]; exact ha) (by rw [hNa]; exact hm),
        readBinary_complete b (by rw [hNb]; exact hb) (by rw [hNb]; exact hm), hNa, hNb]
      congr 2
      apply List.map_congr_left
      intro i hi
      exact triangleAt_congr a b _ (hdata i (List.mem_range.mp hi))
    · rw [readBinary_fatal a (by omega) (by rw [hNa]; omega),
        readBinary_fatal b (by omega) (by rw [hNb]; omega)]
  refine ⟨hr, ?_⟩
  intro h5 hs
  rw [Read_not_solid pf a (by omega) hs, Read_not_solid pf b (by omega) (h5 ▸ hs), hr]

theorem C15_binary_ignores_padding_witness :
    84 + 50 * 1 ≤ oneRecordInput.length ∧ 84 + 50 * 1 ≤ oneRecordVariant.length ∧
    Uint32 oneRecordInput 80 = 1 ∧ Uint32 oneRecordVariant 80 = 1 ∧
    (∀ i < 1, ∀ j < 48,
      oneRecordInput.getD (84 + 50 * i + j) 0 = oneRecordVariant.getD (84 + 50 * i + j) 0) ∧
    oneRecordInput ≠ oneRecordVariant ∧
    readBinary exampleMemory (oneRecordInput.drop 5)
      = readBinary exampleMemory (oneRecordVariant.drop 5) :=
  ⟨by decide, by decide, by decide, by decide, by decide, by decide,
    (C15_binary_ignores_padding exampleMemory parseFloatSmall oneRecordInput oneRecordVariant 1 (by decide)
      (by decide) (by decide) (by decide) (by decide)).1⟩

/-! ## The bounding box of `stl-mbb` -/

/-- C12: the code does not do what the claim says. For the first triangle every one of the
eighteen conditions holds through `i == 0`, so each variable is assigned three times and keeps
the coordinate of the third vertex: for a single triangle the six values are the coordinates of
`V3` alone. For the triangle of the example of the specification `stl-mbb` gives
`maxX = 0` although the second vertex has `x = 1 > 0`, and `minY = 1` although the first
vertex has `y = 0 < 1`; that triangle is what `Read` returns for the example input. -/
theorem C12_mbb_first_triangle (mem : Nat) (tri : STLTri) :
    mbb [tri] = ⟨tri.V3x, tri.V3y, tri.V3z, tri.V3x, tri.V3y, tri.V3z⟩
    ∧ mbb [exampleTri] = ⟨0, 0x3F800000, 0, 0, 0x3F800000, 0⟩
    ∧ float32Less (mbb [exampleTri]).maxX exampleTri.V2x = true
    ∧ float32Less exampleTri.V1y (mbb [exampleTri]).minY = true
    ∧ Read parseFloatSmall mem (.ok exampleInput) = some (.ret (some [exampleTri]) none) := by
  refine ⟨rfl, by decide, by decide, by decide, ?_⟩
  have e : exampleInput = bytes "solid" ++ exampleInput.drop 5 := by decide
  rw [e, Read_solid]
  decide

/-! ## The write-out of `stl2voxels` -/

/-- C18: the code does not do what the claim says. The inner loop runs `x` below `ny`, not
below `nx`. With `nx = 1`, `ny = 2`, `nz = 1` the slice `voxels` has 2 elements and the
write-out of slice 0 reads the indices 0, 1, 1 and then 2: cell 1 is read twice, three samples
are written where the header declares `1 * 2`, and the fourth read is out of range. With
`nx = 2`, `ny = 1` only the index 0 is read, one sample where the header declares 2. In
general a slice is read `ny * ny` times. -/
theorem C18_pgm_inner_loop_bound (nx ny z : Nat) :
    sliceReads 1 2 0 = [0, 1, 1, 2]
    ∧ writeSlice 1 2 1 0 = (3, some 2)
    ∧ ¬ (2 < 1 * 2 * 1)
    ∧ sliceReads 2 1 0 = [0]
    ∧ writeSlice 2 1 1 0 = (1, none)
    ∧ (sliceReads nx ny z).length = ny * ny := by
  refine ⟨by decide, by decide, by decide, by decide, by decide, ?_⟩
  simp [sliceReads, List.length_flatMap, Function.comp_def]

/-! ## Rounding to the nearest integer -/

theorem roundHalfEven_floor_le (x : ℚ) : ⌊x⌋ ≤ roundHalfEven x := by
  unfold roundHalfEven
  split_ifs <;> omega

theorem roundHalfEven_le_floor_succ (x : ℚ) : roundHalfEven x ≤ ⌊x⌋ + 1 := by
  unfold roundHalfEven
  split_ifs <;> omega

theorem roundHalfEven_int (n : Int) : roundHalfEven (n : ℚ) = n := by
  unfold roundHalfEven
  simp

theorem roundHalfEven_le_of_lt_half (x : ℚ) (n : Int) (h : x < n + 1 / 2) :
    roundHalfEven x ≤ n := by
  have hf : ⌊x⌋ ≤ n := by
    have : ⌊x⌋ < n + 1 := by
      rw [Int.floor_lt]
      push_cast
      linarith
    omega
  rcases lt_or_eq_of_le hf with h1 | h1
  · have := roundHalfEven_le_floor_succ x
    omega
  · unfold roundHalfEven
    rw [h1]
    have : x - (n : ℚ) < 1 / 2 := by linarith
    rw [if_pos this]

theorem roundHalfEven_mono (x y : ℚ) (h : x ≤ y) : roundHalfEven x ≤ roundHalfEven y := by
  have hf : ⌊x⌋ ≤ ⌊y⌋ := Int.floor_mono h
  rcases lt_or_eq_of_le hf with h1 | h1
  · have := roundHalfEven_le_floor_succ x
    have := roundHalfEven_floor_le y
    omega
  · unfold roundHalfEven
    rw [← h1]
    have hxy : x - (⌊x⌋ : ℚ) ≤ y - (⌊x⌋ : ℚ) := by linarith
    split_ifs <;> first | omega | (exfalso; linarith)

/-! ## Binades -/

theorem binade_ge (q : ℚ) : -1022 ≤ binade q := le_max_right _ _

theorem lt_zpow_binade (q : ℚ) (hq : 0 < q) : q < 2 ^ (binade q + 1) := by
  have h1 : |q| < ((2 : ℕ) : ℚ) ^ (Int.log 2 |q| + 1) := Int.lt_zpow_succ_log_self (by norm_num) _
  rw [abs_of_pos hq] at h1
  have h2 : ((2 : ℕ) : ℚ) ^ (Int.log 2 q + 1) ≤ ((2 : ℕ) : ℚ) ^ (binade q + 1) := by
    apply zpow_le_zpow_right₀ (by norm_num)
    have : Int.log 2 q ≤ binade q := by
      unfold binade
      rw [abs_of_pos hq]
      exact le_max_left _ _
    omega
  have := lt_of_lt_of_le h1 h2
  simpa using this

theorem zpow_binade_le (q : ℚ) (hq : 0 < q) (h : -1022 < binade q) : 2 ^ (binade q) ≤ q := by
  have hb : binade q = Int.log 2 q := by
    unfold binade at h ⊢
    rw [abs_of_pos hq] at h ⊢
    rcases max_cases (Int.log 2 q) (-1022) with ⟨h1, _⟩ | ⟨h1, _⟩
    · exact h1
    · omega
  rw [hb]
  have := Int.zpow_log_le_self (b := 2) (by norm_num) hq
  simpa using this

theorem binade_mono (x y : ℚ) (hx : 0 < x) (h : x ≤ y) : binade x ≤ binade y := by
  unfold binade
  rw [abs_of_pos hx, abs_of_pos (lt_of_lt_of_le hx h)]
  exact max_le_max (Int.log_mono_right hx h) le_rfl

theorem binade_le_of_lt (q : ℚ) (e : Int) (hq : 0 < q) (h2 : q < 2 ^ (e + 1))
    (he : -1022 ≤ e) : binade q ≤ e := by
  unfold binade
  rw [abs_of_pos hq]
  apply max_le _ he
  have : Int.log 2 q < e + 1 := by
    rw [← Int.lt_zpow_iff_log_lt (by norm_num) hq]
    simpa using h2
  omega

theorem le_binade_of_le (q : ℚ) (e : Int) (hq : 0 < q) (h1 : 2 ^ e ≤ q) : e ≤ binade q := by
  unfold binade
  rw [abs_of_pos hq]
  apply le_max_of_le_left
  rw [← Int.zpow_le_iff_le_log (by norm_num) hq]
  simpa using h1

theorem binade_eq (q : ℚ) (e : Int) (hq : 0 < q) (h1 : 2 ^ e ≤ q) (h2 : q < 2 ^ (e + 1))
    (he : -1022 ≤ e) : binade q = e :=
  le_antisymm (binade_le_of_lt q e hq h2 he) (le_binade_of_le q e hq h1)

theorem ulp_pos (q : ℚ) : 0 < ulp q := by
  unfold ulp
  positivity

/-! ## Rounding to the nearest `float64` -/

theorem zpow_add_nat (k : Int) (n : Nat) :
    (2 : ℚ) ^ (k + (n : Int)) = ((2 ^ n : Nat) : ℚ) * 2 ^ k := by
  rw [zpow_add₀ (by norm_num), zpow_natCast, mul_comm]
  push_cast
  rfl

theorem zpow_ulp (q : ℚ) (n : Nat) :
    (2 : ℚ) ^ (binade q - 52 + (n : Int)) = ((2 ^ n : Int) : ℚ) * ulp q := by
  unfold ulp
  rw [zpow_add_nat]
  push_cast
  rfl

theorem nearest_zero : nearest 0 = 0 := by
  simp [nearest, roundHalfEven]

theorem nearest_nonneg (q : ℚ) (hq : 0 ≤ q) : 0 ≤ nearest q := by
  unfold nearest
  apply mul_nonneg _ (le_of_lt (ulp_pos q))
  have h1 : (0 : ℚ) ≤ q / ulp q := div_nonneg hq (le_of_lt (ulp_pos q))
  have h2 : 0 ≤ ⌊q / ulp q⌋ := Int.floor_nonneg.mpr h1
  have h3 := roundHalfEven_floor_le (q / ulp q)
  exact_mod_cast le_trans h2 h3

theorem nearest_le_zpow (q : ℚ) (hq : 0 < q) : nearest q ≤ 2 ^ (binade q + 1) := by
  unfold nearest
  have hu := ulp_pos q
  have h1 : q / ulp q ≤ ((2 ^ 53 : Int) : ℚ) := by
    rw [div_le_iff₀ hu]
    have := lt_zpow_binade q hq
    have e : ((2 ^ 53 : Int) : ℚ) * ulp q = 2 ^ (binade q + 1) := by
      rw [← zpow_ulp q 53]
      congr 1
      omega
    rw [e]
    exact le_of_lt this
  have h2 := roundHalfEven_mono _ _ h1
  rw [roundHalfEven_int] at h2
  have h3 : (roundHalfEven (q / ulp q) : ℚ) ≤ ((2 ^ 53 : Int) : ℚ) := by exact_mod_cast h2
  have e : (2 : ℚ) ^ (binade q + 1) = ((2 ^ 53 : Int) : ℚ) * ulp q := by
    rw [← zpow_ulp q 53]
    congr 1
    omega
  rw [e]
  exact mul_le_mul_of_nonneg_right h3 (le_of_lt hu)

theorem zpow_le_nearest (q : ℚ) (hq : 0 < q) (h : -1022 < binade q) :
    2 ^ (binade q) ≤ nearest q := by
  unfold nearest
  have hu := ulp_pos q
  have e : (2 : ℚ) ^ (binade q) = ((2 ^ 52 : Int) : ℚ) * ulp q := by
    rw [← zpow_ulp q 52]
    congr 1
    omega
  have h1 : ((2 ^ 52 : Int) : ℚ) ≤ q / ulp q := by
    rw [le_div_iff₀ hu, ← e]
    exact zpow_binade_le q hq h
  have h2 := roundHalfEven_mono _ _ h1
  rw [roundHalfEven_int] at h2
  have h3 : ((2 ^ 52 : Int) : ℚ) ≤ (roundHalfEven (q / ulp q) : ℚ) := by exact_mod_cast h2
  rw [e]
  exact mul_le_mul_of_nonneg_right h3 (le_of_lt hu)

/-- Rounding is monotone on the non-negative numbers. -/
theorem nearest_mono (x y : ℚ) (hx : 0 ≤ x) (h : x ≤ y) : nearest x ≤ nearest y := by
  rcases eq_or_lt_of_le hx with h0 | h0
  · rw [← h0, nearest_zero]
    exact nearest_nonneg y (le_trans hx h)
  · have hy : 0 < y := lt_of_lt_of_le h0 h
    rcases lt_or_eq_of_le (binade_mono x y h0 h) with hb | hb
    · have h1 := nearest_le_zpow x h0
      have h2 := zpow_le_nearest y hy (lt_of_le_of_lt (binade_ge x) hb)
      have h3 : (2 : ℚ) ^ (binade x + 1) ≤ 2 ^ (binade y) :=
        zpow_le_zpow_right₀ (by norm_num) (by omega)
      linarith
    · have hu : ulp x = ulp y := by unfold ulp; rw [hb]
      unfold nearest
      rw [hu]
      have h1 : x / ulp y ≤ y / ulp y := div_le_div_of_nonneg_right h (le_of_lt (ulp_pos y))
      have h2 := roundHalfEven_mono _ _ h1
      have h3 : (roundHalfEven (x / ulp y) : ℚ) ≤ (roundHalfEven (y / ulp y) : ℚ) := by
        exact_mod_cast h2
      exact mul_le_mul_of_nonneg_right h3 (le_of_lt (ulp_pos y))

/-- A number with a significand of at most 53 bits and an exponent in range is a `float64`:
rounding leaves it unchanged. -/
theorem nearest_fixed (n : Nat) (k : Int) (hn : n ≤ 2 ^ 53) (hk : -1074 ≤ k) :
    nearest ((n : ℚ) * 2 ^ k) = (n : ℚ) * 2 ^ k := by
  rcases Nat.eq_zero_or_pos n with h0 | h0
  · subst h0
    simp [nearest_zero]
  · have hq : (0 : ℚ) < (n : ℚ) * 2 ^ k := by positivity
    have hb : binade ((n : ℚ) * 2 ^ k) - 52 ≤ k ∨ (n : ℚ) * 2 ^ k = 2 ^ (k + 53) := by
      rcases Nat.lt_or_ge n (2 ^ 53) with hlt | hge
      · left
        have : binade ((n : ℚ) * 2 ^ k) ≤ k + 52 := by
          apply binade_le_of_lt _ _ hq _ (by omega)
          have e : (2 : ℚ) ^ (k + 52 + 1) = ((2 ^ 53 : Nat) : ℚ) * 2 ^ k := by
            rw [← zpow_add_nat k 53]
            congr 1
            omega
          rw [e]
          apply mul_lt_mul_of_pos_right _ (by positivity)
          exact_mod_cast hlt
        omega
      · right
        have : n = 2 ^ 53 := le_antisymm hn hge
        subst this
        rw [← zpow_add_nat k 53]
        congr 1
    have key : ∀ (m : Nat) (j : Int), 0 < m → binade ((m : ℚ) * 2 ^ j) - 52 ≤ j →
        nearest ((m : ℚ) * 2 ^ j) = (m : ℚ) * 2 ^ j := by
      intro m j _ hj
      obtain ⟨d, hd⟩ := Int.eq_ofNat_of_zero_le (by omega : 0 ≤ j - (binade ((m : ℚ) * 2 ^ j) - 52))
      have e : (m : ℚ) * 2 ^ j / ulp ((m : ℚ) * 2 ^ j) = ((m * 2 ^ d : Nat) : Int) := by
        unfold ulp
        rw [mul_div_assoc, ← zpow_sub₀ (by norm_num), hd, zpow_natCast]
        push_cast
        rfl
      unfold nearest
      rw [e, roundHalfEven_int]
      rw [← e]
      exact div_mul_cancel₀ _ (ne_of_gt (ulp_pos _))
    rcases hb with hb | hb
    · exact key n k h0 hb
    · rw [hb]
      have e1 : (2 : ℚ) ^ (k + 53) = ((1 : Nat) : ℚ) * 2 ^ (k + 53) := by simp
      rw [e1]
      apply key 1 (k + 53) (by omega)
      have : binade (((1 : Nat) : ℚ) * 2 ^ (k + 53)) = k + 53 := by
        apply binade_eq _ _ (by positivity) (by simp) _ (by omega)
        simp only [Nat.cast_one, one_mul]
        exact zpow_lt_zpow_right₀ (by norm_num) (by omega)
      omega

/-- A number below the middle between the `float64` value `m * 2 ^ k` and the next one is
rounded to at most `m * 2 ^ k`. -/
theorem nearest_le_of_lt_mid (m : Nat) (k : Int) (hm : 2 ^ 52 ≤ m) (hm2 : m < 2 ^ 53)
    (hk : -1074 ≤ k) (y : ℚ) (hy0 : 0 ≤ y) (hy : y < ((m : ℚ) + 1 / 2) * 2 ^ k) :
    nearest y ≤ (m : ℚ) * 2 ^ k := by
  rcases le_or_lt y ((m : ℚ) * 2 ^ k) with h | h
  · have := nearest_mono y _ hy0 h
    rwa [nearest_fixed m k (le_of_lt hm2) hk] at this
  · have hpos : (0 : ℚ) < (m : ℚ) * 2 ^ k := by positivity
    have hy1 : 0 < y := lt_trans hpos h
    have hb : binade y = k + 52 := by
      apply binade_eq y _ hy1 _ _ (by omega)
      · have e : (2 : ℚ) ^ (k + 52) = ((2 ^ 52 : Nat) : ℚ) * 2 ^ k := by
          rw [← zpow_add_nat k 52]
          congr 1
        rw [e]
        refine le_trans ?_ (le_of_lt h)
        apply mul_le_mul_of_nonneg_right _ (by positivity)
        exact_mod_cast hm
      · have e : (2 : ℚ) ^ (k + 52 + 1) = ((2 ^ 53 : Nat) : ℚ) * 2 ^ k := by
          rw [← zpow_add_nat k 53]
          congr 1
          omega
        rw [e]
        refine lt_of_lt_of_le hy ?_
        apply mul_le_mul_of_nonneg_right _ (by positivity)
        have h53 : (m : ℚ) + 1 ≤ ((2 ^ 53 : Nat) : ℚ) := by exact_mod_cast hm2
        have h12 : (1 / 2 : ℚ) ≤ 1 := by norm_num
        exact le_trans (by linarith) h53
    have hu : ulp y = 2 ^ k := by
      unfold ulp
      rw [hb]
      congr 1
      omega
    unfold nearest
    rw [hu]
    apply mul_le_mul_of_nonneg_right _ (by positivity)
    have : roundHalfEven (y / 2 ^ k) ≤ (m : Int) := by
      apply roundHalfEven_le_of_lt_half
      rw [div_lt_iff₀ (by positivity)]
      exact_mod_cast hy
    exact_mod_cast this

/-! ## The function `clamp` -/

theorem nearest_natCast (n : Nat) (hn : n ≤ 2 ^ 53) : nearest (n : ℚ) = n := by
  have := nearest_fixed n 0 hn (by omega)
  simpa using this

theorem nearest_half_add (n : Nat) (hn : n < 2 ^ 52) : nearest ((n : ℚ) + 1 / 2) = n + 1 / 2 := by
  have := nearest_fixed (2 * n + 1) (-1) (by omega) (by omega)
  have e : ((2 * n + 1 : Nat) : ℚ) * 2 ^ (-1 : Int) = (n : ℚ) + 1 / 2 := by
    rw [zpow_neg_one]
    push_cast
    ring
  rwa [e] at this

theorem nearest_zpow64 : nearest ((2 : ℚ) ^ (64 : Nat)) = 2 ^ (64 : Nat) := by
  have := nearest_fixed 1 64 (by norm_num) (by omega)
  have e : ((1 : Nat) : ℚ) * 2 ^ (64 : Int) = (2 : ℚ) ^ (64 : Nat) := by
    norm_num
  rwa [e] at this

/-- No overflow up to `2 ^ 64`: the operation returns the rounded value. -/
theorem round64_of_le (q : ℚ) (h0 : 0 ≤ q) (h : q ≤ 2 ^ (64 : Nat)) :
    round64 q = .fin (nearest q) := by
  have h1 := nearest_mono q _ h0 h
  rw [nearest_zpow64] at h1
  have h2 := nearest_nonneg q h0
  unfold round64
  rw [abs_of_nonneg h2, if_neg]
  rw [not_le]
  refine lt_of_le_of_lt h1 ?_
  norm_num

/-- A `float64` below 1 is at most `1 - 2 ^ (-53)`. -/
theorem le_pred_one (q : ℚ) (h0 : 0 ≤ q) (h1 : q < 1) (hq : nearest q = q) :
    q ≤ 1 - 1 / 2 ^ (53 : Nat) := by
  rcases eq_or_lt_of_le h0 with h | h
  · rw [← h]
    norm_num
  · have hb : binade q ≤ -1 := binade_le_of_lt q (-1) h (by simpa using h1) (by omega)
    rcases lt_or_eq_of_le hb with hb1 | hb1
    · have h2 := lt_zpow_binade q h
      have h3 : (2 : ℚ) ^ (binade q + 1) ≤ 2 ^ (-1 : Int) :=
        zpow_le_zpow_right₀ (by norm_num) (by omega)
      have h4 : (2 : ℚ) ^ (-1 : Int) ≤ 1 - 1 / 2 ^ (53 : Nat) := by norm_num
      exact le_of_lt (lt_of_lt_of_le h2 (le_trans h3 h4))
    · have hu : ulp q = 1 / 2 ^ (53 : Nat) := by
        unfold ulp
        rw [hb1]
        norm_num
      have hz : (roundHalfEven (q / ulp q) : ℚ) * (1 / 2 ^ (53 : Nat)) = q := by
        have := hq
        unfold nearest at this
        rwa [hu] at this ⊢
      have hlt : (roundHalfEven (q / ulp q) : ℚ) < ((2 ^ 53 : Int) : ℚ) := by
        have : (roundHalfEven (q / ulp q) : ℚ) * (1 / 2 ^ (53 : Nat)) < 1 := by rw [hz]; exact h1
        have h53 : (0 : ℚ) < 2 ^ (53 : Nat) := by positivity
        rw [mul_one_div, div_lt_one h53] at this
        push_cast
        exact this
      have hle : roundHalfEven (q / ulp q) ≤ 2 ^ 53 - 1 := by
        have : roundHalfEven (q / ulp q) < 2 ^ 53 := by exact_mod_cast hlt
        omega
      have hle2 : (roundHalfEven (q / ulp q) : ℚ) ≤ 2 ^ (53 : Nat) - 1 := by exact_mod_cast hle
      rw [← hz]
      have h53 : (0 : ℚ) < 1 / 2 ^ (53 : Nat) := by positivity
      calc (roundHalfEven (q / ulp q) : ℚ) * (1 / 2 ^ (53 : Nat))
          ≤ (2 ^ (53 : Nat) - 1) * (1 / 2 ^ (53 : Nat)) :=
            mul_le_mul_of_nonneg_right hle2 (le_of_lt h53)
        _ = 1 - 1 / 2 ^ (53 : Nat) := by norm_num

/-- The value that `clamp` converts is at most `maxVal` when the product and the sum are
rounded one after the other. -/
theorem unfused_le (K : Nat) (q : ℚ) (hK : K < 2 ^ 63) (hq0 : 0 ≤ q) (hq1 : q < 1)
    (hq : nearest q = q) :
    nearest (1 / 2 + nearest (q * nearest (K : ℚ))) < (K : ℚ) + 1 := by
  have hpred := le_pred_one q hq0 hq1 hq
  have hM0 : 0 ≤ nearest (K : ℚ) := nearest_nonneg _ (by positivity)
  have hx0 : 0 ≤ q * nearest (K : ℚ) := mul_nonneg hq0 hM0
  have hp0 : 0 ≤ nearest (q * nearest (K : ℚ)) := nearest_nonneg _ hx0
  rcases Nat.lt_or_ge K (2 ^ 52) with hA | hB
  · -- the conversion is exact and `K + 1/2` is a `float64`
    have hM : nearest (K : ℚ) = K := nearest_natCast K (by omega)
    rw [hM]
    have hx : q * (K : ℚ) ≤ K := by
      have : q * (K : ℚ) ≤ 1 * K := mul_le_mul_of_nonneg_right (le_of_lt hq1) (by positivity)
      simpa using this
    have hp : nearest (q * (K : ℚ)) ≤ K := by
      have := nearest_mono _ _ (by rw [hM] at hx0; exact hx0) hx
      rwa [hM] at this
    have hr : nearest (1 / 2 + nearest (q * (K : ℚ))) ≤ (K : ℚ) + 1 / 2 := by
      have := nearest_mono (1 / 2 + nearest (q * (K : ℚ))) ((K : ℚ) + 1 / 2)
        (by rw [hM] at hp0; linarith) (by linarith)
      rwa [nearest_half_add K hA] at this
    linarith
  · -- `K` lies in the binade with exponent `d + 52`
    have hKpos : (0 : ℚ) < K := by
      have : 0 < K := lt_of_lt_of_le (by norm_num) hB
      exact_mod_cast this
    have he1 : 52 ≤ binade (K : ℚ) :=
      le_binade_of_le _ _ hKpos (by norm_cast)
    have he2 : binade (K : ℚ) ≤ 62 :=
      binade_le_of_lt _ _ hKpos (by norm_cast) (by omega)
    obtain ⟨d, hd⟩ := Int.eq_ofNat_of_zero_le (by omega : 0 ≤ binade (K : ℚ) - 52)
    have hd10 : d ≤ 10 := by omega
    have hu : ulp (K : ℚ) = 2 ^ d := by
      unfold ulp
      rw [hd, zpow_natCast]
    have hupos : (0 : ℚ) < 2 ^ d := by positivity
    have hlo : (2 : ℚ) ^ (52 : Nat) * 2 ^ d ≤ K := by
      have := zpow_binade_le (K : ℚ) hKpos (by omega)
      have e : binade (K : ℚ) = ((52 + d : Nat) : Int) := by push_cast; omega
      rw [e, zpow_natCast, pow_add] at this
      exact this
    have hhi : (K : ℚ) < 2 ^ (53 : Nat) * 2 ^ d := by
      have := lt_zpow_binade (K : ℚ) hKpos
      have e : binade (K : ℚ) + 1 = ((53 + d : Nat) : Int) := by push_cast; omega
      rw [e, zpow_natCast, pow_add] at this
      exact this
    -- the significand of the greatest `float64` that is at most `K`
    have hf0 : 0 ≤ ⌊(K : ℚ) / 2 ^ d⌋ := Int.floor_nonneg.mpr (by positivity)
    obtain ⟨m, hm⟩ := Int.eq_ofNat_of_zero_le hf0
    have hm1 : (m : ℚ) ≤ (K : ℚ) / 2 ^ d := by
      have := Int.floor_le ((K : ℚ) / 2 ^ d)
      rw [hm] at this
      exact_mod_cast this
    have hm2 : (K : ℚ) / 2 ^ d < (m : ℚ) + 1 := by
      have := Int.lt_floor_add_one ((K : ℚ) / 2 ^ d)
      rw [hm] at this
      exact_mod_cast this
    have hm52 : 2 ^ 52 ≤ m := by
      have h1 : ((2 ^ 52 : Int) : ℚ) ≤ (K : ℚ) / 2 ^ d := by
        rw [le_div_iff₀ hupos]
        push_cast
        exact hlo
      have := Int.le_floor.mpr h1
      rw [hm] at this
      exact_mod_cast this
    have hm53 : m < 2 ^ 53 := by
      have h1 : (K : ℚ) / 2 ^ d < ((2 ^ 53 : Nat) : ℚ) := by
        rw [div_lt_iff₀ hupos]
        push_cast
        exact hhi
      have : (m : ℚ) < ((2 ^ 53 : Nat) : ℚ) := lt_of_le_of_lt hm1 h1
      exact_mod_cast this
    have hT : (m : ℚ) * 2 ^ d ≤ K := by
      rwa [le_div_iff₀ hupos] at hm1
    -- the conversion gives that `float64` or the next one
    have hM : nearest (K : ℚ) ≤ ((m : ℚ) + 1) * 2 ^ d := by
      unfold nearest
      rw [hu]
      apply mul_le_mul_of_nonneg_right _ (le_of_lt hupos)
      have := roundHalfEven_le_floor_succ ((K : ℚ) / 2 ^ d)
      rw [hm] at this
      exact_mod_cast this
    -- the product is rounded to at most `m * 2 ^ d`
    have hx : q * nearest (K : ℚ) < ((m : ℚ) + 1 / 2) * 2 ^ (d : Int) := by
      rw [zpow_natCast]
      have h1 : q * nearest (K : ℚ) ≤ (1 - 1 / 2 ^ (53 : Nat)) * (((m : ℚ) + 1) * 2 ^ d) :=
        mul_le_mul hpred hM hM0 (by norm_num)
      have h2 : (1 - 1 / 2 ^ (53 : Nat)) * ((m : ℚ) + 1) < (m : ℚ) + 1 / 2 := by
        have : ((2 ^ 52 : Nat) : ℚ) ≤ (m : ℚ) := by exact_mod_cast hm52
        push_cast at this
        have h53 : (1 : ℚ) / 2 ^ (53 : Nat) * 2 ^ (52 : Nat) = 1 / 2 := by norm_num
        nlinarith
      calc q * nearest (K : ℚ)
          ≤ (1 - 1 / 2 ^ (53 : Nat)) * ((m : ℚ) + 1) * 2 ^ d := by rw [mul_assoc]; exact h1
        _ < ((m : ℚ) + 1 / 2) * 2 ^ d := mul_lt_mul_of_pos_right h2 hupos
    have hp : nearest (q * nearest (K : ℚ)) ≤ (m : ℚ) * 2 ^ (d : Int) :=
      nearest_le_of_lt_mid m d hm52 hm53 (by omega) _ hx0 hx
    rw [zpow_natCast] at hp
    rcases Nat.eq_zero_or_pos d with hd0 | hd0
    · -- spacing 1: `K` itself is a `float64`
      subst hd0
      simp only [pow_zero, mul_one, div_one] at hT hm1 hm2 hp hM hlo hhi
      have hmK : m = K := by
        have h1 : (m : ℚ) ≤ K := hm1
        have h2 : (K : ℚ) < (m : ℚ) + 1 := hm2
        have h3 : m ≤ K := by exact_mod_cast h1
        have h4 : K < m + 1 := by exact_mod_cast h2
        omega
      subst hmK
      have hMK : nearest (m : ℚ) = m := nearest_natCast m (le_of_lt hm53)
      rw [hMK] at hp hx0 hp0 ⊢
      have hxK : q * (m : ℚ) ≤ (m : ℚ) - 1 / 2 := by
        have h1 : q * (m : ℚ) ≤ (1 - 1 / 2 ^ (53 : Nat)) * m :=
          mul_le_mul_of_nonneg_right hpred (by positivity)
        have : ((2 ^ 52 : Nat) : ℚ) ≤ (m : ℚ) := by exact_mod_cast hm52
        push_cast at this
        have h53 : (1 : ℚ) / 2 ^ (53 : Nat) * 2 ^ (52 : Nat) = 1 / 2 := by norm_num
        nlinarith
      have hp2 : nearest (q * (m : ℚ)) ≤ (m : ℚ) - 1 / 2 := by
        rcases Nat.eq_or_lt_of_le hm52 with h52 | h52
        · -- `m = 2 ^ 52`: `m - 1/2` is a `float64`
          have hfix := nearest_fixed (2 ^ 53 - 1) (-1) (by norm_num) (by omega)
          have e : (((2 ^ 53 - 1 : Nat) : ℚ)) * 2 ^ (-1 : Int) = (m : ℚ) - 1 / 2 := by
            rw [← h52]
            norm_num
          rw [e] at hfix
          have := nearest_mono _ _ hx0 hxK
          rwa [hfix] at this
        · -- `m > 2 ^ 52`: the product is below the middle between `m - 1` and `m`
          have hlt : q * (m : ℚ) < (((m - 1 : Nat) : ℚ) + 1 / 2) * 2 ^ (0 : Int) := by
            have h1 : q * (m : ℚ) ≤ (1 - 1 / 2 ^ (53 : Nat)) * m :=
              mul_le_mul_of_nonneg_right hpred (by positivity)
            have : ((2 ^ 52 + 1 : Nat) : ℚ) ≤ (m : ℚ) := by exact_mod_cast h52
            push_cast at this
            have h53 : (1 : ℚ) / 2 ^ (53 : Nat) * 2 ^ (52 : Nat) = 1 / 2 := by norm_num
            have hc : ((m - 1 : Nat) : ℚ) = (m : ℚ) - 1 := by
              rw [Nat.cast_sub (by omega)]
              simp
            rw [hc, zpow_zero, mul_one]
            nlinarith
          have := nearest_le_of_lt_mid (m - 1) 0 (by omega) (by omega) (by omega) _ hx0 hlt
          have hc : ((m - 1 : Nat) : ℚ) = (m : ℚ) - 1 := by
            rw [Nat.cast_sub (by omega)]
            simp
          rw [hc, zpow_zero, mul_one] at this
          linarith
      have hr := nearest_mono (1 / 2 + nearest (q * (m : ℚ))) (m : ℚ) (by linarith) (by linarith)
      rw [hMK] at hr
      linarith
    · -- spacing at least 2: adding one half does not reach the middle
      have h2d : (2 : ℚ) ≤ 2 ^ d := by
        have : (2 : ℚ) ^ 1 ≤ 2 ^ d := pow_le_pow_right₀ (by norm_num) hd0
        simpa using this
      have hlt : 1 / 2 + nearest (q * nearest (K : ℚ)) < ((m : ℚ) + 1 / 2) * 2 ^ (d : Int) := by
        rw [zpow_natCast]
        nlinarith
      have hr := nearest_le_of_lt_mid m d hm52 hm53
        (le_trans (by decide) (Int.ofNat_nonneg d)) _ (add_nonneg (by norm_num) hp0) hlt
      rw [zpow_natCast] at hr
      exact lt_of_le_of_lt (le_trans hr hT) (lt_add_one _)

/-- Rounding a rounded number changes nothing. -/
theorem nearest_nearest (q : ℚ) (hq : 0 ≤ q) : nearest (nearest q) = nearest q := by
  rcases eq_or_lt_of_le hq with h | h
  · rw [← h, nearest_zero, nearest_zero]
  · have hu := ulp_pos q
    have h0 : 0 ≤ roundHalfEven (q / ulp q) := by
      have h1 : (0 : ℚ) ≤ q / ulp q := div_nonneg hq (le_of_lt hu)
      exact le_trans (Int.floor_nonneg.mpr h1) (roundHalfEven_floor_le _)
    have h53 : roundHalfEven (q / ulp q) ≤ 2 ^ 53 := by
      have h1 : q / ulp q ≤ ((2 ^ 53 : Int) : ℚ) := by
        rw [div_le_iff₀ hu, ← zpow_ulp q 53]
        refine le_trans (le_of_lt (lt_zpow_binade q h)) (le_of_eq ?_)
        congr 1
        omega
      have h2 := roundHalfEven_mono _ _ h1
      rwa [roundHalfEven_int] at h2
    obtain ⟨n, hn⟩ := Int.eq_ofNat_of_zero_le h0
    have e : nearest q = (n : ℚ) * 2 ^ (binade q - 52) := by
      unfold nearest
      rw [hn]
      rfl
    rw [e]
    exact nearest_fixed n _ (by omega) (by have := binade_ge q; omega)

/-- The value that `clamp` converts is at most `maxVal` when the product and the sum are
rounded at once and `float64(maxVal)` is not greater than `maxVal`. -/
theorem fused_le (K : Nat) (q : ℚ) (hM : nearest (K : ℚ) ≤ K) (hq0 : 0 ≤ q) (hq1 : q < 1)
    (hq : nearest q = q) :
    nearest (q * nearest (K : ℚ) + 1 / 2) < (K : ℚ) + 1 := by
  have hpred := le_pred_one q hq0 hq1 hq
  have hM0 : 0 ≤ nearest (K : ℚ) := nearest_nonneg _ (by positivity)
  have hx0 : 0 ≤ q * nearest (K : ℚ) := mul_nonneg hq0 hM0
  rcases Nat.lt_or_ge K (2 ^ 52) with hA | hB
  · have hMK : nearest (K : ℚ) = K := nearest_natCast K (by omega)
    rw [hMK] at hx0 ⊢
    have hx : q * (K : ℚ) ≤ K := by
      have : q * (K : ℚ) ≤ 1 * K := mul_le_mul_of_nonneg_right (le_of_lt hq1) (by positivity)
      simpa using this
    have := nearest_mono (q * (K : ℚ) + 1 / 2) ((K : ℚ) + 1 / 2) (by linarith) (by linarith)
    rw [nearest_half_add K hA] at this
    linarith
  · have hM52 : (2 : ℚ) ^ (52 : Nat) ≤ nearest (K : ℚ) := by
      have h1 : (((2 ^ 52 : Nat)) : ℚ) ≤ (K : ℚ) := by exact_mod_cast hB
      have := nearest_mono _ _ (by positivity) h1
      rw [nearest_natCast (2 ^ 52) (by norm_num)] at this
      exact_mod_cast this
    have hx : q * nearest (K : ℚ) + 1 / 2 ≤ nearest (K : ℚ) := by
      have h1 : q * nearest (K : ℚ) ≤ (1 - 1 / 2 ^ (53 : Nat)) * nearest (K : ℚ) :=
        mul_le_mul_of_nonneg_right hpred hM0
      have h53 : (1 : ℚ) / 2 ^ (53 : Nat) * 2 ^ (52 : Nat) = 1 / 2 := by norm_num
      nlinarith
    have := nearest_mono (q * nearest (K : ℚ) + 1 / 2) (nearest (K : ℚ))
      (add_nonneg hx0 (by norm_num)) hx
    rw [nearest_nearest _ (by positivity)] at this
    exact lt_of_le_of_lt (le_trans this hM) (lt_add_one _)

theorem scaled_nonneg (fused : Bool) (q : ℚ) (K : Nat) (hq0 : 0 ≤ q) :
    0 ≤ scaled fused q (K : Int) := by
  have hM0 : 0 ≤ nearest (K : ℚ) := nearest_nonneg _ (by positivity)
  unfold scaled
  rw [Int.cast_natCast]
  split
  · exact nearest_nonneg _ (add_nonneg (mul_nonneg hq0 hM0) (by norm_num))
  · exact nearest_nonneg _ (add_nonneg (by norm_num) (nearest_nonneg _ (mul_nonneg hq0 hM0)))

theorem scaled_lt (fused : Bool) (q : ℚ) (K : Nat) (hK : K < 2 ^ 63)
    (hf : fused = false ∨ nearest (K : ℚ) ≤ K) (hq0 : 0 ≤ q) (hq1 : q < 1) (hq : nearest q = q) :
    scaled fused q (K : Int) < (K : ℚ) + 1 := by
  unfold scaled
  rw [Int.cast_natCast]
  cases fused with
  | false => exact unfused_le K q hK hq0 hq1 hq
  | true =>
    rcases hf with hf | hf
    · exact absurd hf (by decide)
    · exact fused_le K q hf hq0 hq1 hq

theorem scaled_mono (fused : Bool) (q1 q2 : ℚ) (K : Nat) (hq0 : 0 ≤ q1) (h : q1 ≤ q2) :
    scaled fused q1 (K : Int) ≤ scaled fused q2 (K : Int) := by
  have hM0 : 0 ≤ nearest (K : ℚ) := nearest_nonneg _ (by positivity)
  have hx : q1 * nearest (K : ℚ) ≤ q2 * nearest (K : ℚ) := mul_le_mul_of_nonneg_right h hM0
  have hx0 : 0 ≤ q1 * nearest (K : ℚ) := mul_nonneg hq0 hM0
  unfold scaled
  rw [Int.cast_natCast]
  split
  · exact nearest_mono _ _ (add_nonneg hx0 (by norm_num)) (by linarith)
  · have hp := nearest_mono _ _ hx0 hx
    exact nearest_mono _ _ (add_nonneg (by norm_num) (nearest_nonneg _ hx0)) (by linarith)

theorem nearest_le_zpow63 (K : Nat) (hK : K < 2 ^ 63) : nearest (K : ℚ) ≤ 2 ^ (63 : Nat) := by
  have h1 : (K : ℚ) ≤ ((2 ^ 63 : Nat) : ℚ) := by exact_mod_cast le_of_lt hK
  have := nearest_mono _ _ (by positivity) h1
  have e := nearest_fixed 1 63 (by norm_num) (by omega)
  have e2 : ((1 : Nat) : ℚ) * 2 ^ (63 : Int) = ((2 ^ 63 : Nat) : ℚ) := by norm_num
  rw [e2] at e
  rw [e] at this
  exact_mod_cast this

/-- On a finite `v` in `[0, 1)` no operation of `clamp` overflows, and `clamp` returns the
floor of the `float64` value of `0.5 + v*float64(maxVal)`. -/
theorem clamp_scaled (fused : Bool) (q : ℚ) (K : Nat) (hK : K < 2 ^ 63)
    (hq0 : 0 ≤ q) (hq1 : q < 1) (hs : scaled fused q (K : Int) < 2 ^ (63 : Nat)) :
    clamp fused (.fin q) (K : Int) = ⌊scaled fused q (K : Int)⌋ := by
  have hM0 : 0 ≤ nearest (K : ℚ) := nearest_nonneg _ (by positivity)
  have hM63 := nearest_le_zpow63 K hK
  have hx0 : 0 ≤ q * nearest (K : ℚ) := mul_nonneg hq0 hM0
  have hx63 : q * nearest (K : ℚ) ≤ 2 ^ (63 : Nat) := by
    have : q * nearest (K : ℚ) ≤ 1 * nearest (K : ℚ) :=
      mul_le_mul_of_nonneg_right (le_of_lt hq1) hM0
    linarith
  have hofInt : F64.ofInt (K : Int) = .fin (nearest (K : ℚ)) := by
    unfold F64.ofInt
    rw [Int.cast_natCast]
    apply round64_of_le _ (by positivity)
    have h1 : (K : ℚ) ≤ ((2 ^ 63 : Nat) : ℚ) := by exact_mod_cast le_of_lt hK
    refine le_trans h1 ?_
    norm_num
  have hs0 := scaled_nonneg fused q K hq0
  have hval : (if fused then F64.fma (.fin q) (F64.ofInt (K : Int)) (.fin (1 / 2))
      else F64.add (.fin (1 / 2)) (F64.mul (.fin q) (F64.ofInt (K : Int))))
      = .fin (scaled fused q (K : Int)) := by
    rw [hofInt]
    unfold scaled
    rw [Int.cast_natCast]
    cases fused with
    | true =>
      simp only [if_true, F64.fma]
      apply round64_of_le _ (add_nonneg hx0 (by norm_num))
      refine le_trans (add_le_add_right hx63 _) ?_
      norm_num
    | false =>
      simp only [Bool.false_eq_true, if_false, F64.mul, F64.add]
      have hp : round64 (q * nearest (K : ℚ)) = .fin (nearest (q * nearest (K : ℚ))) := by
        apply round64_of_le _ hx0
        refine le_trans hx63 ?_
        norm_num
      rw [hp]
      simp only []
      apply round64_of_le _ (add_nonneg (by norm_num) (nearest_nonneg _ hx0))
      have h1 := nearest_mono _ _ hx0 hx63
      have e := nearest_fixed 1 63 (by norm_num) (by omega)
      have e2 : ((1 : Nat) : ℚ) * 2 ^ (63 : Int) = (2 : ℚ) ^ (63 : Nat) := by norm_num
      rw [e2] at e
      rw [e] at h1
      refine le_trans (add_le_add_left h1 _) ?_
      norm_num
  have hlt : F64.lt (.fin q) (.fin 0) = false := by
    simp [F64.lt, hq0]
  have hle : F64.le (.fin 1) (.fin q) = false := by
    simp [F64.le, hq1]
  have hfl0 : 0 ≤ ⌊scaled fused q (K : Int)⌋ := Int.floor_nonneg.mpr hs0
  have hfl1 : ⌊scaled fused q (K : Int)⌋ < 2 ^ 63 := by
    rw [Int.floor_lt]
    push_cast
    exact hs
  unfold clamp
  rw [hlt, hle, hval]
  simp only [Bool.false_eq_true, if_false, F64.floor, F64.toInt]
  have hc : (0 : ℚ) ≤ (⌊scaled fused q (K : Int)⌋ : ℚ) := by exact_mod_cast hfl0
  rw [if_pos hc, Int.floor_intCast, if_pos ⟨by omega, hfl1⟩]

theorem scaled_lt_zpow63 (fused : Bool) (q : ℚ) (K : Nat) (hK : K < 2 ^ 63)
    (hf : fused = false ∨ nearest (K : ℚ) ≤ K) (hq0 : 0 ≤ q) (hq1 : q < 1) (hq : nearest q = q) :
    scaled fused q (K : Int) < 2 ^ (63 : Nat) := by
  have h1 := scaled_lt fused q K hK hf hq0 hq1 hq
  have h2 : (K : ℚ) + 1 ≤ ((2 ^ 63 : Nat) : ℚ) := by exact_mod_cast hK
  refine lt_of_lt_of_le h1 (le_trans h2 ?_)
  norm_num

theorem isFloat64_fin (q : ℚ) (h : F64.isFloat64 (.fin q) = true) : nearest q = q := by
  simp only [F64.isFloat64, decide_eq_true_eq] at h
  unfold round64 at h
  split at h
  · exact absurd h (by simp)
  · exact F64.fin.inj h

/-- The result of `clamp` lies between 0 and `maxVal`. -/
theorem clamp_bounds (fused : Bool) (v : F64) (K : Nat) (hK : K < 2 ^ 63)
    (hf : fused = false ∨ nearest (K : ℚ) ≤ K) (hv : v.isFloat64 = true) (hvn : v ≠ .nan) :
    0 ≤ clamp fused v (K : Int) ∧ clamp fused v (K : Int) ≤ (K : Int) := by
  have hK0 : (0 : Int) ≤ K := Int.ofNat_nonneg K
  by_cases h1 : F64.lt v (.fin 0) = true
  · simp [clamp, h1]
  · by_cases h2 : F64.le (.fin 1) v = true
    · simp [clamp, h1, h2]
    · cases v with
      | nan => exact absurd rfl hvn
      | inf n =>
        cases n with
        | true => exact absurd rfl h1
        | false => exact absurd rfl h2
      | fin q =>
        have hq0 : 0 ≤ q := by
          simp only [F64.lt, decide_eq_true_eq, not_lt] at h1
          exact h1
        have hq1 : q < 1 := by
          simp only [F64.le, decide_eq_true_eq, not_le] at h2
          exact h2
        have hq := isFloat64_fin q hv
        rw [clamp_scaled fused q K hK hq0 hq1 (scaled_lt_zpow63 fused q K hK hf hq0 hq1 hq)]
        have hs0 := scaled_nonneg fused q K hq0
        have hs1 := scaled_lt fused q K hK hf hq0 hq1 hq
        refine ⟨Int.floor_nonneg.mpr hs0, ?_⟩
        have : ⌊scaled fused q (K : Int)⌋ < (K : Int) + 1 := by
          rw [Int.floor_lt]
          push_cast
          exact hs1
        omega

/-- The result of `clamp` does not decrease when `v` grows. -/
theorem clamp_mono (fused : Bool) (v w : F64) (K : Nat) (hK : K < 2 ^ 63)
    (hf : fused = false ∨ nearest (K : ℚ) ≤ K) (hv : v.isFloat64 = true) (hvn : v ≠ .nan)
    (hw : w.isFloat64 = true) (hwn : w ≠ .nan) (hvw : F64.le v w = true) :
    clamp fused v (K : Int) ≤ clamp fused w (K : Int) := by
  have bv := clamp_bounds fused v K hK hf hv hvn
  have bw := clamp_bounds fused w K hK hf hw hwn
  by_cases h1 : F64.lt v (.fin 0) = true
  · have : clamp fused v (K : Int) = 0 := by simp [clamp, h1]
    rw [this]
    exact bw.1
  · by_cases h2 : F64.le (.fin 1) w = true
    · have h3 : ¬ F64.lt w (.fin 0) = true := by
        cases w with
        | nan => exact absurd rfl hwn
        | inf n =>
          cases n with
          | true => simp [F64.le] at h2
          | false => simp [F64.lt]
        | fin q =>
          simp only [F64.le, decide_eq_true_eq] at h2
          simp only [F64.lt, decide_eq_true_eq, not_lt]
          linarith
      have : clamp fused w (K : Int) = (K : Int) := by simp [clamp, h3, h2]
      rw [this]
      exact bv.2
    · cases v with
      | nan => exact absurd rfl hvn
      | inf n =>
        cases n with
        | true => exact absurd rfl h1
        | false =>
          cases w with
          | nan => exact absurd rfl hwn
          | inf n2 =>
            cases n2 with
            | true => simp [F64.le] at hvw
            | false => exact absurd rfl h2
          | fin q => simp [F64.le] at hvw
      | fin qv =>
        cases w with
        | nan => exact absurd rfl hwn
        | inf n2 =>
          cases n2 with
          | true => simp [F64.le] at hvw
          | false => exact absurd rfl h2
        | fin qw =>
          have hv0 : 0 ≤ qv := by
            simp only [F64.lt, decide_eq_true_eq, not_lt] at h1
            exact h1
          have hw1 : qw < 1 := by
            simp only [F64.le, decide_eq_true_eq, not_le] at h2
            exact h2
          have hle : qv ≤ qw := by
            simp only [F64.le, decide_eq_true_eq] at hvw
            exact hvw
          rw [clamp_scaled fused qv K hK hv0 (lt_of_le_of_lt hle hw1)
              (scaled_lt_zpow63 fused qv K hK hf hv0 (lt_of_le_of_lt hle hw1)
                (isFloat64_fin qv hv)),
            clamp_scaled fused qw K hK (le_trans hv0 hle) hw1
              (scaled_lt_zpow63 fused qw K hK hf (le_trans hv0 hle) hw1 (isFloat64_fin qw hw))]
          exact Int.floor_mono (scaled_mono fused qv qw K hv0 hle)

/-- The rounding of a number whose binade and rounded significand are known. -/
theorem nearest_eq (q : ℚ) (e n : Int) (hq : 0 < q) (h1 : 2 ^ e ≤ q) (h2 : q < 2 ^ (e + 1))
    (he : -1022 ≤ e) (hn : roundHalfEven (q / 2 ^ (e - 52)) = n) :
    nearest q = (n : ℚ) * 2 ^ (e - 52) := by
  unfold nearest ulp
  rw [binade_eq q e hq h1 h2 he, hn]

theorem isFloat64_dyadic (n : Nat) (k : Int) (hn : n ≤ 2 ^ 53) (hk : -1074 ≤ k) (hk0 : k ≤ 0) :
    F64.isFloat64 (.fin ((n : ℚ) * 2 ^ k)) = true := by
  have hfix := nearest_fixed n k hn hk
  have h1 : (n : ℚ) * 2 ^ k ≤ 2 ^ (64 : Nat) := by
    have h2 : (2 : ℚ) ^ k ≤ 1 := zpow_le_one_of_nonpos₀ (by norm_num) hk0
    have h3 : (n : ℚ) ≤ ((2 ^ 53 : Nat) : ℚ) := by exact_mod_cast hn
    calc (n : ℚ) * 2 ^ k ≤ (n : ℚ) * 1 := mul_le_mul_of_nonneg_left h2 (by positivity)
      _ ≤ 2 ^ (64 : Nat) := by rw [mul_one]; refine le_trans h3 ?_; norm_num
  have := round64_of_le _ (by positivity) h1
  rw [hfix] at this
  simp [F64.isFloat64, this]

/-- C19, as stated, fails. At `v = 282578800148737 / 2 ^ 57`, the `float64` nearest to `1/510`,
and `maxVal = 255`, the floor of `0.5 + v * maxVal` is 0, and `clamp` returns 1, because the
product is rounded to `0.5` (or, where the operations are fused, the sum to 1). Where they are
fused the result can exceed `maxVal` when `float64(maxVal)` is not exact: for
`maxVal = 2 ^ 53 + 3` and `v = 1 - 2 ^ (-53)` it is `2 ^ 53 + 4`. And for the `float64` that is
no number, NaN, the result is the least `int64`. -/
theorem C19_counterexample :
    F64.isFloat64 (.fin (282578800148737 / 2 ^ 57)) = true
    ∧ (0 : ℚ) ≤ 282578800148737 / 2 ^ 57 ∧ (282578800148737 / 2 ^ 57 : ℚ) < 1
    ∧ ⌊(1 / 2 : ℚ) + 282578800148737 / 2 ^ 57 * 255⌋ = 0
    ∧ clamp false (.fin (282578800148737 / 2 ^ 57)) 255 = 1
    ∧ clamp true (.fin (282578800148737 / 2 ^ 57)) 255 = 1
    ∧ F64.isFloat64 (.fin (1 - 1 / 2 ^ 53)) = true
    ∧ clamp true (.fin (1 - 1 / 2 ^ 53)) (2 ^ 53 + 3) = 2 ^ 53 + 4
    ∧ clamp false .nan 255 = -2 ^ 63 := by
  have hM : nearest (255 : ℚ) = 255 := by
    have := nearest_natCast 255 (by norm_num)
    simpa using this
  have hp : nearest ((282578800148737 / 2 ^ 57 : ℚ) * 255) = 1 / 2 := by
    rw [nearest_eq _ (-2) (2 ^ 53) (by norm_num) (by norm_num) (by norm_num) (by norm_num)
      (by norm_num [roundHalfEven])]
    norm_num
  have h1 : nearest (1 : ℚ) = 1 := by
    have := nearest_natCast 1 (by norm_num)
    simpa using this
  have hs1 : scaled false (282578800148737 / 2 ^ 57) 255 = 1 := by
    unfold scaled
    simp only [Bool.false_eq_true, if_false, Int.cast_ofNat]
    rw [hM, hp]
    norm_num
    exact h1
  have hs2 : scaled true (282578800148737 / 2 ^ 57) 255 = 1 := by
    unfold scaled
    simp only [if_true, Int.cast_ofNat]
    rw [hM, nearest_eq _ (-1) (2 ^ 53) (by norm_num) (by norm_num) (by norm_num) (by norm_num)
      (by norm_num [roundHalfEven])]
    norm_num
  have hM3 : nearest ((2 ^ 53 + 3 : Int) : ℚ) = 2 ^ 53 + 4 := by
    rw [nearest_eq _ 53 (2 ^ 52 + 2) (by norm_num) (by norm_num) (by norm_num) (by norm_num)
      (by norm_num [roundHalfEven])]
    norm_num
  have hs3 : scaled true (1 - 1 / 2 ^ 53) (2 ^ 53 + 3) = 2 ^ 53 + 4 := by
    unfold scaled
    simp only [if_true]
    rw [hM3, nearest_eq _ 53 (2 ^ 52 + 2) (by norm_num) (by norm_num) (by norm_num)
      (by norm_num) (by norm_num [roundHalfEven])]
    norm_num
  refine ⟨?_, by norm_num, by norm_num, ?_, ?_, ?_, ?_, ?_, ?_⟩
  · have := isFloat64_dyadic 282578800148737 (-57) (by norm_num) (by norm_num) (by norm_num)
    have e : ((282578800148737 : Nat) : ℚ) * 2 ^ (-57 : Int) = 282578800148737 / 2 ^ 57 := by
      norm_num
    rwa [e] at this
  · rw [Int.floor_eq_iff]
    norm_num
  · have := clamp_scaled false (282578800148737 / 2 ^ 57) 255 (by norm_num) (by norm_num)
      (by norm_num) (by
        have e : (((255 : Nat) : Int)) = (255 : Int) := rfl
        rw [e, hs1]
        norm_num)
    have e : (((255 : Nat) : Int)) = (255 : Int) := rfl
    rw [e, hs1] at this
    rw [this]
    norm_num
  · have := clamp_scaled true (282578800148737 / 2 ^ 57) 255 (by norm_num) (by norm_num)
      (by norm_num) (by
        have e : (((255 : Nat) : Int)) = (255 : Int) := rfl
        rw [e, hs2]
        norm_num)
    have e : (((255 : Nat) : Int)) = (255 : Int) := rfl
    rw [e, hs2] at this
    rw [this]
    norm_num
  · have := isFloat64_dyadic (2 ^ 53 - 1) (-53) (by norm_num) (by norm_num) (by norm_num)
    have e : (((2 ^ 53 - 1 : Nat)) : ℚ) * 2 ^ (-53 : Int) = 1 - 1 / 2 ^ 53 := by
      norm_num
    rwa [e] at this
  · have e : (((2 ^ 53 + 3 : Nat) : Int)) = (2 ^ 53 + 3 : Int) := by norm_num
    have := clamp_scaled true (1 - 1 / 2 ^ 53) (2 ^ 53 + 3) (by norm_num) (by norm_num)
      (by norm_num) (by
        rw [e, hs3]
        norm_num)
    rw [e, hs3] at this
    rw [this]
    have e2 : ((2 : ℚ) ^ 53 + 4) = (((2 ^ 53 + 4 : Int)) : ℚ) := by norm_num
    rw [e2, Int.floor_intCast]
  · simp [clamp, F64.lt, F64.le, F64.mul, F64.add, F64.floor, F64.toInt]

/-- C19, amended. For every `maxVal` with `0 ≤ maxVal < 2 ^ 63` and every `float64` `v` other
than NaN, `clamp v maxVal` lies between 0 and `maxVal`; it is 0 when `v < 0`, `maxVal` when
`v ≥ 1`, and, when `0 ≤ v < 1`, the floor of the `float64` value of `0.5 + v*float64(maxVal)`
(`scaled`: every operation rounds to the nearest `float64`, ties to even); and `clamp` is
monotone non-decreasing in `v`. This holds where the multiplication and the addition are
rounded one after the other; where they are fused it holds when `float64(maxVal)` is not
greater than `maxVal`, and for every `maxVal ≤ 2 ^ 53` the conversion is exact. -/
theorem C19_clamp_range (fused : Bool) (v w : F64) (maxVal : Int)
    (h0 : 0 ≤ maxVal) (h63 : maxVal < 2 ^ 63)
    (hf : fused = false ∨ F64.le (F64.ofInt maxVal) (.fin maxVal) = true)
    (hv : v.isFloat64 = true) (hvn : v ≠ .nan) (hw : w.isFloat64 = true) (hwn : w ≠ .nan) :
    (0 ≤ clamp fused v maxVal ∧ clamp fused v maxVal ≤ maxVal)
    ∧ (F64.lt v (.fin 0) = true → clamp fused v maxVal = 0)
    ∧ (F64.le (.fin 1) v = true → clamp fused v maxVal = maxVal)
    ∧ (∀ q : ℚ, v = .fin q → 0 ≤ q → q < 1 →
        clamp fused v maxVal = ⌊scaled fused q maxVal⌋)
    ∧ (F64.le v w = true → clamp fused v maxVal ≤ clamp fused w maxVal)
    ∧ (maxVal ≤ 2 ^ 53 → F64.ofInt maxVal = .fin maxVal) := by
  obtain ⟨K, rfl⟩ := Int.eq_ofNat_of_zero_le h0
  have hK : K < 2 ^ 63 := by exact_mod_cast h63
  have hofInt : F64.ofInt (K : Int) = .fin (nearest (K : ℚ)) := by
    unfold F64.ofInt
    rw [Int.cast_natCast]
    apply round64_of_le _ (by positivity)
    have h1 : (K : ℚ) ≤ ((2 ^ 63 : Nat) : ℚ) := by exact_mod_cast le_of_lt hK
    refine le_trans h1 ?_
    norm_num
  have hf2 : fused = false ∨ nearest (K : ℚ) ≤ K := by
    rcases hf with h | h
    · exact Or.inl h
    · rw [hofInt, Int.cast_natCast] at h
      simp only [F64.le, decide_eq_true_eq] at h
      exact Or.inr h
  refine ⟨clamp_bounds fused v K hK hf2 hv hvn, ?_, ?_, ?_,
    clamp_mono fused v w K hK hf2 hv hvn hw hwn, ?_⟩
  rotate_left 3
  · intro h53
    have h53n : K ≤ 2 ^ 53 := by exact_mod_cast h53
    rw [hofInt, nearest_natCast K h53n, Int.cast_natCast]
  · intro h
    simp [clamp, h]
  · intro h
    have h3 : ¬ F64.lt v (.fin 0) = true := by
      cases v with
      | nan => exact absurd rfl hvn
      | inf n =>
        cases n with
        | true => simp [F64.le] at h
        | false => simp [F64.lt]
      | fin q =>
        simp only [F64.le, decide_eq_true_eq] at h
        simp only [F64.lt, decide_eq_true_eq, not_lt]
        linarith
    simp [clamp, h3, h]
  · intro q hq hq0 hq1
    subst hq
    exact clamp_scaled fused q K hK hq0 hq1
      (scaled_lt_zpow63 fused q K hK hf2 hq0 hq1 (isFloat64_fin q hv))

theorem C19_clamp_range_witness :
    (0 : Int) ≤ 255 ∧ (255 : Int) < 2 ^ 63
    ∧ F64.isFloat64 (.fin (1 / 2)) = true ∧ F64.fin (1 / 2) ≠ .nan
    ∧ F64.isFloat64 (.fin (3 / 4)) = true ∧ F64.fin (3 / 4) ≠ .nan
    ∧ F64.le (.fin (1 / 2)) (.fin (3 / 4)) = true
    ∧ (0 ≤ clamp false (.fin (1 / 2)) 255 ∧ clamp false (.fin (1 / 2)) 255 ≤ 255)
    ∧ clamp false (.fin (1 / 2)) 255 ≤ clamp false (.fin (3 / 4)) 255 := by
  have f1 : F64.isFloat64 (.fin (1 / 2)) = true := by
    have := isFloat64_dyadic 1 (-1) (by norm_num) (by norm_num) (by norm_num)
    have e : ((1 : Nat) : ℚ) * 2 ^ (-1 : Int) = 1 / 2 := by norm_num
    rwa [e] at this
  have f2 : F64.isFloat64 (.fin (3 / 4)) = true := by
    have := isFloat64_dyadic 3 (-2) (by norm_num) (by norm_num) (by norm_num)
    have e : ((3 : Nat) : ℚ) * 2 ^ (-2 : Int) = 3 / 4 := by norm_num
    rwa [e] at this
  have hle : F64.le (.fin (1 / 2)) (.fin (3 / 4)) = true := by
    simp only [F64.le, decide_eq_true_eq]
    norm_num
  have key := C19_clamp_range false (.fin (1 / 2)) (.fin (3 / 4)) 255 (by norm_num) (by norm_num)
    (Or.inl rfl) f1 (by simp) f2 (by simp)
  exact ⟨by norm_num, by norm_num, f1, by simp, f2, by simp, hle, key.1, key.2.2.2.2.1 hle⟩


/-! ## Binary files for a given mesh -/

theorem Uint32_littleEndian32 (b : Nat) (h : b < 4294967296) (rest : Bytes) :
    Uint32 (littleEndian32 b ++ rest) 0 = b := by
  simp only [Uint32, littleEndian32, List.cons_append, List.nil_append, List.getD_cons_zero,
    List.getD_cons_succ, Nat.zero_add]
  omega

theorem decodeSTLTri_recordData (t : STLTri) (h : t.is32 = true) :
    decodeSTLTri (recordData t) = t.quieted := by
  obtain ⟨a1, a2, a3, a4, a5, a6, a7, a8, a9, a10, a11, a12⟩ := t
  simp only [STLTri.is32, List.all_cons, List.all_nil, Bool.and_true, Bool.and_eq_true,
    decide_eq_true_eq] at h
  obtain ⟨h1, h2, h3, h4, h5, h6, h7, h8, h9, h10, h11, h12⟩ := h
  simp only [decodeSTLTri, recordData, Float32frombits, Uint32, littleEndian32,
    List.cons_append, List.nil_append, List.getD_cons_zero, List.getD_cons_succ]
  have r : ∀ a : Nat, a < 4294967296 →
      a % 256 + 256 * (a / 256 % 256) + 65536 * (a / 65536 % 256)
        + 16777216 * (a / 16777216 % 256) = a := by
    intro a ha
    omega
  rw [r a1 h1, r a2 h2, r a3 h3, r a4 h4, r a5 h5, r a6 h6, r a7 h7, r a8 h8, r a9 h9,
    r a10 h10, r a11 h11, r a12 h12]
  rfl

theorem recordData_length (t : STLTri) : (recordData t).length = 48 := by
  simp [recordData, littleEndian32]

theorem ReadFull_recordData (t : STLTri) (b : Bytes) :
    ReadFull 48 (recordData t ++ b) = .ok (recordData t, b) := by
  have := ReadFull_append (recordData t) b
  rwa [recordData_length] at this

theorem readBinaryLoop_records (ts : List STLTri) (rest : Bytes) :
    ∀ (i : Nat) (tris : List STLTri), (∀ t ∈ ts, t.is32 = true) →
      tris.length = i + ts.length →
      readBinaryLoop ts.length i (ts.flatMap (fun t => recordData t ++ [0, 0]) ++ rest) tris
        = .ret (some (tris.take i ++ ts.map STLTri.quieted)) none := by
  induction ts with
  | nil =>
    intro i tris _ hl
    simp only [List.length_nil, Nat.add_zero] at hl
    simp only [readBinaryLoop, List.length_nil, List.append_nil, List.map_nil]
    rw [List.take_of_length_le (by omega)]
  | cons t ts ih =>
    intro i tris h hl
    simp only [List.length_cons] at hl
    have e : (t :: ts).flatMap (fun t => recordData t ++ [0, 0]) ++ rest
        = recordData t ++ ([0, 0] ++ (ts.flatMap (fun t => recordData t ++ [0, 0]) ++ rest)) := by
      simp [List.flatMap_cons]
    have h2 : ∀ b : Bytes, ReadFull 2 ([0, 0] ++ b) = .ok ([0, 0], b) :=
      fun b => ReadFull_append [0, 0] b
    rw [e]
    simp only [List.length_cons, readBinaryLoop, ReadFull_recordData, h2]
    rw [ih (i + 1) _ (fun u hu => h u (List.mem_cons_of_mem _ hu))
      (by rw [List.length_set]; omega), take_set_succ _ _ _ (by omega),
      decodeSTLTri_recordData t (h t (List.mem_cons_self _ _))]
    simp

/-- C13, as stated, fails. With the binary encoding laid out as the specification gives it, the
mesh of one triangle whose first field is the signalling NaN `0x7FA00000` is not what the
decoder returns for its encoding: the field comes back as `0x7FE00000`, because `binary.Read`
stores each field through `float64`. -/
theorem C13_counterexample :
    signallingTri.is32 = true
    ∧ Read parseFloatSmall exampleMemory (.ok (encodeBinary [signallingTri]))
      = some (.ret (some [{ STLTri.zero with Nx := 0x7FE00000 }]) none)
    ∧ Read parseFloatSmall exampleMemory (.ok (encodeBinary [signallingTri]))
      ≠ some (.ret (some [signallingTri]) none) := by
  refine ⟨by decide, by decide, by decide⟩

/-- C13, amended. The package has no encode operation; for the binary encoding laid out as the
specification gives it (`encodeBinary`), and every mesh `m` of fewer than `2 ^ 32` triangles
(the count field has 32 bits) whose slice can be allocated, `Read` returns for the encoding of
`m` the triangles of `m` in the same order, every field stored through `float64`
(`STLTri.quieted`): so it returns exactly `m`, bit for bit, when no field of `m` is a
signalling NaN. -/
theorem C13_round_trip (mem : Nat) (pf : Bytes → Except Error F32) (m : List STLTri)
    (hm : ∀ t ∈ m, t.is32 = true) (hlen : m.length < 4294967296)
    (hmem : 48 * m.length ≤ mem) :
    Read pf mem (.ok (encodeBinary m)) = some (.ret (some (m.map STLTri.quieted)) none)
    ∧ ((∀ t ∈ m, t.noSignalling = true) →
        Read pf mem (.ok (encodeBinary m)) = some (.ret (some m) none)) := by
  have e5 : encodeBinary m = List.replicate 5 0 ++ (List.replicate 75 0
      ++ (littleEndian32 m.length ++ (m.flatMap (fun t => recordData t ++ [0, 0]) ++ []))) := by
    have : List.replicate 80 (0 : Nat) = List.replicate 5 0 ++ List.replicate 75 0 := by decide
    simp [encodeBinary, this]
  have h5 : ReadFull 5 (encodeBinary m) = .ok (List.replicate 5 0, List.replicate 75 0
      ++ (littleEndian32 m.length ++ (m.flatMap (fun t => recordData t ++ [0, 0]) ++ []))) := by
    rw [e5]
    exact ReadFull_append (List.replicate 5 0) _
  have h75 : ∀ b : Bytes, ReadFull 75 (List.replicate 75 0 ++ b) = .ok (List.replicate 75 0, b) := by
    intro b
    have := ReadFull_append (List.replicate 75 0) b
    rwa [List.length_replicate] at this
  have h4 : ∀ b : Bytes, ReadFull 4 (littleEndian32 m.length ++ b)
      = .ok (littleEndian32 m.length, b) :=
    fun b => ReadFull_append (littleEndian32 m.length) b
  have hN : Uint32 (littleEndian32 m.length) 0 = m.length := by
    have := Uint32_littleEndian32 m.length hlen []
    rwa [List.append_nil] at this
  have hp : HasPrefix (List.replicate 5 0) (bytes "solid") = false := by decide
  have key : Read pf mem (.ok (encodeBinary m))
      = some (.ret (some (m.map STLTri.quieted)) none) := by
    simp only [Read, h5, hp, readBinary, h75, h4, hN]
    rw [if_neg (by simp), if_neg (by omega), readBinaryLoop_records m [] 0 _ hm (by simp)]
    simp
  refine ⟨key, ?_⟩
  intro hq
  rw [key]
  congr 3
  conv_rhs => rw [← List.map_id m]
  apply List.map_congr_left
  intro t ht
  exact quieted_noSignalling t (hq t ht)

theorem C13_round_trip_witness :
    (∀ t ∈ [exampleTri, exampleTri], t.is32 = true) ∧
    [exampleTri, exampleTri].length < 4294967296 ∧
    48 * [exampleTri, exampleTri].length ≤ exampleMemory ∧
    (∀ t ∈ [exampleTri, exampleTri], t.noSignalling = true) ∧
    Read parseFloatSmall exampleMemory (.ok (encodeBinary [exampleTri, exampleTri]))
      = some (.ret (some [exampleTri, exampleTri]) none) :=
  ⟨by decide, by decide, by decide, by decide,
    (C13_round_trip exampleMemory parseFloatSmall [exampleTri, exampleTri] (by decide)
      (by decide) (by decide)).2 (by decide)⟩

/-! ## White space around a line -/

theorem find_congr (T : List Bytes) (p q : Bytes → Bool) (h : ∀ r ∈ T, p r = q r) :
    T.find? p = T.find? q := by
  induction T with
  | nil => rfl
  | cons r T ih =>
    have hr := h r (List.mem_cons_self _ _)
    have := ih (fun x hx => h x (List.mem_cons_of_mem _ hx))
    simp only [List.find?_cons, hr, this]

theorem isAsciiSpace_cases (c : Nat) (h : isAsciiSpace c = true) :
    c = 9 ∨ c = 10 ∨ c = 11 ∨ c = 12 ∨ c = 13 ∨ c = 32 := by
  simp only [isAsciiSpace, Bool.or_eq_true, beq_iff_eq] at h
  tauto

theorem find_space (c : Nat) (s : Bytes) (h : isAsciiSpace c = true) :
    spaceRunes.find? (fun r => r.isPrefixOf (c :: s)) = some [c] := by
  rcases isAsciiSpace_cases c h with rfl | rfl | rfl | rfl | rfl | rfl <;>
    simp [spaceRunes, List.find?, List.isPrefixOf]

theorem find_space_rev (c : Nat) (s : Bytes) (h : isAsciiSpace c = true) :
    (spaceRunes.map List.reverse).find? (fun r => r.isPrefixOf (c :: s)) = some [c] := by
  rcases isAsciiSpace_cases c h with rfl | rfl | rfl | rfl | rfl | rfl <;>
    simp [spaceRunes, List.find?, List.isPrefixOf]

/-- Stripping a run of ASCII white space takes one step for each byte. -/
theorem stripRunes_spaces (T : List Bytes)
    (hT : ∀ c s, isAsciiSpace c = true → T.find? (fun r => r.isPrefixOf (c :: s)) = some [c])
    (ws : Bytes) (hws : ∀ x ∈ ws, isAsciiSpace x = true) (n : Nat) (s : Bytes) :
    stripRunes T (ws.length + n) (ws ++ s) = stripRunes T n s := by
  induction ws with
  | nil => simp
  | cons c ws ih =>
    have hc := hws c (List.mem_cons_self _ _)
    have e : (c :: ws).length + n = (ws.length + n) + 1 := by
      simp only [List.length_cons]; omega
    rw [e, List.cons_append, stripRunes, hT c _ hc]
    simp only [List.length_singleton, List.drop_succ_cons, List.drop_zero]
    exact ih (fun x hx => hws x (List.mem_cons_of_mem _ hx))

theorem stripRunes_nil (T : List Bytes) (hT : ∀ r ∈ T, r ≠ []) (n : Nat) :
    stripRunes T n [] = [] := by
  cases n with
  | zero => rfl
  | succ n =>
    have : T.find? (fun r => r.isPrefixOf []) = none := by
      rw [List.find?_eq_none]
      intro r hr hp
      cases r with
      | nil => exact hT [] hr rfl
      | cons a r => simp [List.isPrefixOf] at hp
    simp only [stripRunes, this]

/-- More steps than the string has bytes change nothing. -/
theorem stripRunes_fuel (T : List Bytes) (hT : ∀ r ∈ T, r ≠ []) (n : Nat) :
    ∀ (m : Nat) (s : Bytes), s.length ≤ n → s.length ≤ m →
      stripRunes T n s = stripRunes T m s := by
  induction n with
  | zero =>
    intro m s hn _
    have : s = [] := List.length_eq_zero.mp (by omega)
    subst this
    rw [stripRunes_nil T hT, stripRunes_nil T hT]
  | succ n ih =>
    intro m s hn hm
    cases m with
    | zero =>
      have : s = [] := List.length_eq_zero.mp (by omega)
      subst this
      rw [stripRunes_nil T hT, stripRunes_nil T hT]
    | succ m =>
      simp only [stripRunes]
      cases hf : T.find? (fun r => r.isPrefixOf s) with
      | none => rfl
      | some r =>
        have hr := hT r (List.mem_of_find?_eq_some hf)
        have hp := List.find?_some hf
        simp only [List.isPrefixOf_iff_prefix] at hp
        have h1 : 0 < r.length := List.length_pos.mpr hr
        have h2 := hp.length_le
        have h3 : (s.drop r.length).length ≤ n := by rw [List.length_drop]; omega
        have h4 : (s.drop r.length).length ≤ m := by rw [List.length_drop]; omega
        exact ih m _ h3 h4

theorem spaceRunes_ne_nil : ∀ r ∈ spaceRunes, r ≠ [] :=
  fun r hr => (spaceRunes_not_plain r hr).1

theorem spaceRunes_rev_ne_nil : ∀ r ∈ spaceRunes.map List.reverse, r ≠ [] :=
  fun r hr => (spaceRunes_rev_not_plain r hr).1

theorem TrimLeft_spaces (ws s : Bytes) (hws : ∀ x ∈ ws, isAsciiSpace x = true) :
    TrimLeft (ws ++ s) = TrimLeft s := by
  unfold TrimLeft
  rw [List.length_append]
  exact stripRunes_spaces spaceRunes find_space ws hws s.length s

theorem TrimRight_spaces (s ws : Bytes) (hws : ∀ x ∈ ws, isAsciiSpace x = true) :
    TrimRight (s ++ ws) = TrimRight s := by
  unfold TrimRight
  rw [List.reverse_append, List.length_append, Nat.add_comm, ← List.length_reverse ws,
    ← List.length_reverse s,
    stripRunes_spaces (spaceRunes.map List.reverse) find_space_rev ws.reverse
      (fun x hx => hws x (List.mem_reverse.mp hx)) s.reverse.length s.reverse]

theorem spaceRunes_shape : ∀ r ∈ spaceRunes, r.length = 1 ∨ ∀ b ∈ r, 128 ≤ b := by
  decide

theorem isAsciiSpace_lt (c : Nat) (h : isAsciiSpace c = true) : c < 128 := by
  rcases isAsciiSpace_cases c h with rfl | rfl | rfl | rfl | rfl | rfl <;> decide

/-- ASCII white space after a non-empty string does not change which white-space rune the
string starts with. -/
theorem find_append_spaces (c : Nat) (l ws : Bytes) (hws : ∀ x ∈ ws, isAsciiSpace x = true) :
    spaceRunes.find? (fun r => r.isPrefixOf ((c :: l) ++ ws))
      = spaceRunes.find? (fun r => r.isPrefixOf (c :: l)) := by
  apply find_congr
  intro r hr
  rw [Bool.eq_iff_iff, List.isPrefixOf_iff_prefix, List.isPrefixOf_iff_prefix]
  constructor
  · intro hp
    by_cases hle : r.length ≤ (c :: l).length
    · exact List.prefix_of_prefix_length_le hp (List.prefix_append _ _) hle
    · exfalso
      push_neg at hle
      rcases spaceRunes_shape r hr with h1 | h128
      · simp only [List.length_cons] at hle
        omega
      · obtain ⟨t, ht⟩ := hp
        have e : (r ++ t)[(c :: l).length]? = ((c :: l) ++ ws)[(c :: l).length]? := by rw [ht]
        rw [List.getElem?_append_left hle, List.getElem?_append_right (le_refl _),
          Nat.sub_self] at e
        cases ws with
        | nil =>
          have := congrArg List.length ht
          simp only [List.length_append, List.length_nil, List.length_cons] at this hle
          omega
        | cons w ws =>
          simp only [List.getElem?_cons_zero] at e
          have h3 := h128 w (List.getElem?_mem e)
          have h4 := isAsciiSpace_lt w (hws w (List.mem_cons_self _ _))
          omega
  · intro hp
    exact hp.trans (List.prefix_append _ _)

/-- Leading white space of a string followed by ASCII white space: when the string is all
white space everything is removed, otherwise what follows the string stays. -/
theorem TrimLeft_append_spaces (ws : Bytes) (hws : ∀ x ∈ ws, isAsciiSpace x = true) (n : Nat) :
    ∀ l : Bytes, l.length + ws.length ≤ n →
      stripRunes spaceRunes n (l ++ ws)
        = if stripRunes spaceRunes l.length l = [] then []
          else stripRunes spaceRunes l.length l ++ ws := by
  induction n with
  | zero =>
    intro l hl
    have h1 : l = [] := List.length_eq_zero.mp (by omega)
    have h2 : ws = [] := List.length_eq_zero.mp (by omega)
    subst h1 h2
    simp [stripRunes]
  | succ n ih =>
    intro l hl
    cases l with
    | nil =>
      have := stripRunes_spaces spaceRunes find_space ws hws (n + 1 - ws.length) []
      simp only [List.length_nil, Nat.zero_add] at hl
      rw [List.append_nil, Nat.add_sub_cancel' hl, stripRunes_nil _ spaceRunes_ne_nil] at this
      rw [List.nil_append, this]
      simp [stripRunes]
    | cons c l =>
      rw [stripRunes, find_append_spaces c l ws hws]
      simp only [List.length_cons]
      rw [stripRunes]
      cases hf : spaceRunes.find? (fun r => r.isPrefixOf (c :: l)) with
      | none => simp
      | some r =>
        have hr := spaceRunes_ne_nil r (List.mem_of_find?_eq_some hf)
        have hp := List.find?_some hf
        simp only [List.isPrefixOf_iff_prefix] at hp
        have h1 : 0 < r.length := List.length_pos.mpr hr
        have h2 := hp.length_le
        simp only [List.length_cons] at h2 hl
        have hd : ((c :: l).drop r.length).length = l.length + 1 - r.length := by
          rw [List.length_drop, List.length_cons]
        dsimp only
        rw [List.drop_append_of_le_length (by simpa using h2),
          ih _ (by rw [hd]; omega),
          stripRunes_fuel spaceRunes spaceRunes_ne_nil l.length
            ((c :: l).drop r.length).length _ (by rw [hd]; omega) (le_refl _)]

/-- ASCII white space before and after a string does not change its trimmed form. -/
theorem TrimSpace_spaces (ws l ws2 : Bytes) (hws : ∀ x ∈ ws, isAsciiSpace x = true)
    (hws2 : ∀ x ∈ ws2, isAsciiSpace x = true) : TrimSpace (ws ++ l ++ ws2) = TrimSpace l := by
  unfold TrimSpace
  rw [List.append_assoc, TrimLeft_spaces ws _ hws]
  have := TrimLeft_append_spaces ws2 hws2 (l ++ ws2).length l (by simp)
  unfold TrimLeft
  rw [this]
  split
  · rename_i h
    rw [h]
  · exact TrimRight_spaces _ ws2 hws2

/-! ## Spaces and tabs around the lines of an ASCII input -/

theorem isBlank_space (c : Nat) (h : isBlank c = true) : isAsciiSpace c = true := by
  simp only [isBlank, Bool.or_eq_true, beq_iff_eq] at h
  rcases h with rfl | rfl <;> decide

theorem isBlank_ne_newline (c : Nat) (h : isBlank c = true) : c ≠ 10 := by
  rintro rfl
  exact Bool.noConfusion h

theorem LinePad.valid_iff (p : LinePad) :
    p.valid = true ↔ (∀ x ∈ p.lead, isBlank x = true) ∧ (∀ x ∈ p.trail, isBlank x = true)
      ∧ (∀ x ∈ p.text, x ≠ 10) := by
  simp [LinePad.valid, and_assoc]

theorem PadRel_refl (a : Bytes) : PadRel a a :=
  ⟨[], a, by simp, by simp [plainLines], by simp [paddedLines]⟩

/-- A padded line has the trimmed form of the line. -/
theorem TrimSpace_padded (p : LinePad) (h : p.valid = true) :
    TrimSpace ((p.lead ++ p.text ++ p.trail) ++ [10]) = TrimSpace (p.text ++ [10]) := by
  obtain ⟨h1, h2, -⟩ := (LinePad.valid_iff p).mp h
  have e : (p.lead ++ p.text ++ p.trail) ++ [10] = p.lead ++ p.text ++ (p.trail ++ [10]) := by
    simp
  have hs : ∀ x ∈ p.trail ++ [10], isAsciiSpace x = true := by
    intro x hx
    rcases List.mem_append.mp hx with hx | hx
    · exact isBlank_space x (h2 x hx)
    · rw [List.mem_singleton.mp hx]; rfl
  rw [e, TrimSpace_spaces p.lead p.text _ (fun x hx => isBlank_space x (h1 x hx)) hs]
  have := TrimSpace_spaces [] p.text [10] (by simp) (by decide)
  simpa using this.symm

/-- `nextLine` on related readers: the same error, or the same line and related readers. -/
theorem nextLine_rel : LineRel PadRel := by
  intro a b h
  obtain ⟨ls, tail, hv, rfl, rfl⟩ := h
  cases ls with
  | nil =>
    have e1 : plainLines [] tail = tail := by simp [plainLines]
    have e2 : paddedLines [] tail = tail := by simp [paddedLines]
    rw [e1, e2]
    cases hn : nextLine tail with
    | error e => exact Or.inl ⟨e, rfl, rfl⟩
    | ok r => exact Or.inr ⟨r.1, r.2, r.2, rfl, rfl, PadRel_refl _⟩
  | cons p ls =>
    have hp := hv p (List.mem_cons_self _ _)
    obtain ⟨h1, h2, h3⟩ := (LinePad.valid_iff p).mp hp
    have e1 : plainLines (p :: ls) tail = p.text ++ 10 :: plainLines ls tail := by
      simp [plainLines]
    have e2 : paddedLines (p :: ls) tail
        = (p.lead ++ p.text ++ p.trail) ++ 10 :: paddedLines ls tail := by
      simp [paddedLines]
    have h10 : ∀ x ∈ p.lead ++ p.text ++ p.trail, x ≠ 10 := by
      intro x hx
      simp only [List.mem_append] at hx
      rcases hx with (hx | hx) | hx
      · exact isBlank_ne_newline x (h1 x hx)
      · exact h3 x hx
      · exact isBlank_ne_newline x (h2 x hx)
    refine Or.inr ⟨TrimSpace (p.text ++ [10]), plainLines ls tail, paddedLines ls tail, ?_, ?_,
      ⟨ls, tail, fun q hq => hv q (List.mem_cons_of_mem _ hq), rfl, rfl⟩⟩
    · rw [e1, nextLine_append _ _ h3]
    · rw [e2, nextLine_append _ _ h10, TrimSpace_padded p hp]

theorem getLine_rel (R : Bytes → Bytes → Prop) (hR : LineRel R) (a b s : Bytes) (h : R a b) :
    (∃ e, getLine a s = .error e ∧ getLine b s = .error e)
    ∨ (∃ a2 b2, getLine a s = .ok a2 ∧ getLine b s = .ok b2 ∧ R a2 b2) := by
  unfold getLine
  rcases hR a b h with ⟨e, h1, h2⟩ | ⟨line, a2, b2, h1, h2, r⟩
  · rw [h1, h2]
    exact Or.inl ⟨e, rfl, rfl⟩
  · rw [h1, h2]
    dsimp only
    by_cases c : HasPrefix line s = true
    · simp only [c, Bool.not_true, Bool.false_eq_true, if_false]
      exact Or.inr ⟨a2, b2, rfl, rfl, r⟩
    · simp only [c, Bool.not_eq_true, Bool.not_false, if_true]
      exact Or.inl ⟨_, rfl, rfl⟩

theorem getVertex_rel (R : Bytes → Bytes → Prop) (hR : LineRel R)
    (pf : Bytes → Except Error F32) (a b : Bytes) (h : R a b) :
    (∃ e, getVertex pf a = .err e ∧ getVertex pf b = .err e)
    ∨ (∃ i n, getVertex pf a = .panic i n ∧ getVertex pf b = .panic i n)
    ∨ (∃ v a2 b2, getVertex pf a = .ok (v, a2) ∧ getVertex pf b = .ok (v, b2)
        ∧ R a2 b2) := by
  unfold getVertex
  rcases hR a b h with ⟨e, h1, h2⟩ | ⟨line, a2, b2, h1, h2, r⟩
  · rw [h1, h2]
    exact Or.inl ⟨e, rfl, rfl⟩
  · rw [h1, h2]
    dsimp only
    by_cases c : HasPrefix line (bytes "vertex ") = true
    · simp only [c, Bool.not_true, Bool.false_eq_true, if_false]
      cases g1 : (Split line 32).get? 1 with
      | none => exact Or.inr (Or.inl ⟨_, _, rfl, rfl⟩)
      | some p1 =>
        dsimp only
        cases g2 : (Split line 32).get? 2 with
        | none => exact Or.inr (Or.inl ⟨_, _, rfl, rfl⟩)
        | some p2 =>
          dsimp only
          cases g3 : (Split line 32).get? 3 with
          | none => exact Or.inr (Or.inl ⟨_, _, rfl, rfl⟩)
          | some p3 =>
            dsimp only
            cases g4 : threeFloats pf p1 p2 p3 with
            | error e => exact Or.inl ⟨e, rfl, rfl⟩
            | ok v => exact Or.inr (Or.inr ⟨v, a2, b2, rfl, rfl, r⟩)
    · simp only [c, Bool.not_eq_true, Bool.not_false, if_true]
      exact Or.inl ⟨_, rfl, rfl⟩

/-- One pass through the loop body on related readers ends alike. -/
theorem readAsciiBody_rel (R : Bytes → Bytes → Prop) (hR : LineRel R)
    (pf : Bytes → Except Error F32) (a b : Bytes) (t : Option (List STLTri)) (h : R a b) :
    StepRel R (readAsciiBody pf a t) (readAsciiBody pf b t) := by
  unfold readAsciiBody
  rcases hR a b h with ⟨e, h1, h2⟩ | ⟨line, a1, b1, h1, h2, r1⟩
  · rw [h1, h2]
    simp only [StepRel]
  · rw [h1, h2]
    dsimp only
    by_cases c1 : HasPrefix line (bytes "endsolid") = true
    · simp only [c1, if_true, StepRel]
    · simp only [c1, Bool.false_eq_true, if_false]
      by_cases c2 : HasPrefix line (bytes "facet normal ") = true
      · simp only [c2, Bool.not_true, Bool.false_eq_true, if_false]
        by_cases c3 : (Split line 32).length < 5
        · simp only [c3, if_true, StepRel]
        · simp only [c3, if_false]
          cases hf : threeFloats pf ((Split line 32).getD 2 []) ((Split line 32).getD 3 [])
              ((Split line 32).getD 4 []) with
          | error e => simp only [StepRel]
          | ok v =>
            obtain ⟨nx, ny, nz⟩ := v
            dsimp only
            rcases getLine_rel R hR a1 b1 (bytes "outer loop") r1 with
              ⟨e, g1, g2⟩ | ⟨a2, b2, g1, g2, r2⟩
            · rw [g1, g2]
              simp only [StepRel]
            · rw [g1, g2]
              dsimp only
              rcases getVertex_rel R hR pf a2 b2 r2 with
                ⟨e, k1, k2⟩ | ⟨i, n, k1, k2⟩ | ⟨v1, a3, b3, k1, k2, r3⟩
              · rw [k1, k2]
                simp only [StepRel]
              · rw [k1, k2]
                simp only [StepRel]
              · rw [k1, k2]
                obtain ⟨v1x, v1y, v1z⟩ := v1
                dsimp only
                rcases getVertex_rel R hR pf a3 b3 r3 with
                  ⟨e, m1, m2⟩ | ⟨i, n, m1, m2⟩ | ⟨v2, a4, b4, m1, m2, r4⟩
                · rw [m1, m2]
                  simp only [StepRel]
                · rw [m1, m2]
                  simp only [StepRel]
                · rw [m1, m2]
                  obtain ⟨v2x, v2y, v2z⟩ := v2
                  dsimp only
                  rcases getVertex_rel R hR pf a4 b4 r4 with
                    ⟨e, n1, n2⟩ | ⟨i, n, n1, n2⟩ | ⟨v3, a5, b5, n1, n2, r5⟩
                  · rw [n1, n2]
                    simp only [StepRel]
                  · rw [n1, n2]
                    simp only [StepRel]
                  · rw [n1, n2]
                    obtain ⟨v3x, v3y, v3z⟩ := v3
                    dsimp only
                    rcases getLine_rel R hR a5 b5 (bytes "endloop") r5 with
                      ⟨e, q1, q2⟩ | ⟨a6, b6, q1, q2, r6⟩
                    · rw [q1, q2]
                      simp only [StepRel]
                    · rw [q1, q2]
                      dsimp only
                      rcases getLine_rel R hR a6 b6 (bytes "endfacet") r6 with
                        ⟨e, s1, s2⟩ | ⟨a7, b7, s1, s2, r7⟩
                      · rw [s1, s2]
                        simp only [StepRel]
                      · rw [s1, s2]
                        simp only [StepRel]
                        exact ⟨trivial, r7⟩
      · simp only [c2, Bool.not_eq_true, Bool.not_false, if_true, StepRel]

/-- The loop of `readAscii` gives the same result on related readers. -/
theorem readAsciiLoop_rel (R : Bytes → Bytes → Prop) (hR : LineRel R)
    (pf : Bytes → Except Error F32) (n : Nat) :
    ∀ (a b : Bytes) (t : Option (List STLTri)), a.length < n → R a b →
      readAsciiLoop pf (a.length + 1) a t = readAsciiLoop pf (b.length + 1) b t := by
  induction n with
  | zero => intro a b t h; omega
  | succ n ih =>
    intro a b t hl h
    have hs := readAsciiBody_rel R hR pf a b t h
    cases ha : readAsciiBody pf a t with
    | done o =>
      cases hb : readAsciiBody pf b t with
      | done o2 =>
        rw [ha, hb] at hs
        simp only [StepRel] at hs
        rw [readAsciiLoop_done pf a t o ha, readAsciiLoop_done pf b t o2 hb, hs]
      | next b2 t2 =>
        rw [ha, hb] at hs
        simp only [StepRel] at hs
    | next a2 t2 =>
      cases hb : readAsciiBody pf b t with
      | done o2 =>
        rw [ha, hb] at hs
        simp only [StepRel] at hs
      | next b2 t3 =>
        rw [ha, hb] at hs
        simp only [StepRel] at hs
        obtain ⟨rfl, r⟩ := hs
        have hlt := readAsciiBody_length pf a a2 t t2 ha
        rw [readAsciiLoop_next pf a a2 t t2 ha, readAsciiLoop_next pf b b2 t t2 hb]
        exact ih a2 b2 t2 (by omega) r

/-- C16. For every ASCII input, given as its first line, the lines `ls` that follow it (each
with its newline) and whatever comes after them (`tail`), adding spaces or tabs at the start or
at the end, before the newline, of any of the lines `ls` leaves the result of `readAscii` and of
`Read` unchanged; and a line with such additions has the trimmed form of the line itself. -/
theorem C16_padding_ignored (mem : Nat) (pf : Bytes → Except Error F32) (name tail : Bytes)
    (ls : List LinePad) (hname : ∀ x ∈ name, x ≠ 10) (hls : ∀ p ∈ ls, p.valid = true) :
    readAscii pf (name ++ 10 :: paddedLines ls tail)
      = readAscii pf (name ++ 10 :: plainLines ls tail)
    ∧ Read pf mem (.ok (bytes "solid" ++ (name ++ 10 :: paddedLines ls tail)))
      = Read pf mem (.ok (bytes "solid" ++ (name ++ 10 :: plainLines ls tail)))
    ∧ (∀ p ∈ ls, TrimSpace ((p.lead ++ p.text ++ p.trail) ++ [10])
        = TrimSpace (p.text ++ [10])) := by
  have key : readAscii pf (name ++ 10 :: paddedLines ls tail)
      = readAscii pf (name ++ 10 :: plainLines ls tail) := by
    rw [readAscii_first_line pf name _ hname, readAscii_first_line pf name _ hname]
    exact (readAsciiLoop_rel PadRel nextLine_rel pf _ _ _ none (Nat.lt_succ_self _)
      ⟨ls, tail, hls, rfl, rfl⟩).symm
  refine ⟨key, ?_, fun p hp => TrimSpace_padded p (hls p hp)⟩
  rw [Read_solid, Read_solid, key]

theorem C16_padding_ignored_witness :
    (∀ x ∈ bytes " test", x ≠ 10) ∧ (∀ p ∈ examplePads, p.valid = true) ∧
    bytes "solid" ++ (bytes " test" ++ 10 :: plainLines examplePads []) = exampleInput ∧
    Read parseFloatSmall exampleMemory
        (.ok (bytes "solid" ++ (bytes " test" ++ 10 :: paddedLines examplePads [])))
      = Read parseFloatSmall exampleMemory
        (.ok (bytes "solid" ++ (bytes " test" ++ 10 :: plainLines examplePads []))) :=
  ⟨by decide, by decide, by decide,
    (C16_padding_ignored exampleMemory parseFloatSmall (bytes " test") [] examplePads (by decide)
      (by decide)).2.1⟩

/-! ## A line without its newline -/

theorem ReadString_none (l : Bytes) (h : ∀ x ∈ l, x ≠ 10) : ReadString 10 l = none := by
  induction l with
  | nil => rfl
  | cons c cs ih =>
    have hc : c ≠ 10 := h c (List.mem_cons_self _ _)
    simp [ReadString, hc, ih (fun x hx => h x (List.mem_cons_of_mem _ hx))]

theorem nextLine_unterminated (l : Bytes) (h : ∀ x ∈ l, x ≠ 10) :
    nextLine l = .error (Error.ErrorfV "error reading line: %v" [] Error.EOF) := by
  simp [nextLine, ReadString_none l h]

theorem ReadString_no_newline (f : Bytes) (h : ReadString 10 f = none) : ∀ x ∈ f, x ≠ 10 := by
  induction f with
  | nil => simp
  | cons c cs ih =>
    simp only [ReadString] at h
    by_cases hc : c = 10
    · simp [hc] at h
    · simp only [hc, if_false] at h
      cases hr : ReadString 10 cs with
      | none =>
        intro x hx
        rcases List.mem_cons.mp hx with rfl | hx
        · exact hc
        · exact ih hr x hx
      | some p => simp [hr] at h

/-- What `ReadString` returns is a line without newline, its newline, and the rest. -/
theorem ReadString_split (f line rest : Bytes) (h : ReadString 10 f = some (line, rest)) :
    ∃ l : Bytes, (∀ x ∈ l, x ≠ 10) ∧ line = l ++ [10] ∧ f = l ++ 10 :: rest := by
  induction f generalizing line with
  | nil => simp [ReadString] at h
  | cons c cs ih =>
    simp only [ReadString] at h
    by_cases hc : c = 10
    · simp only [hc, if_true, Option.some.injEq, Prod.mk.injEq] at h
      obtain ⟨h1, h2⟩ := h
      subst h1 h2
      exact ⟨[], by simp, by simp, by simp [hc]⟩
    · simp only [hc, if_false] at h
      cases hr : ReadString 10 cs with
      | none => simp [hr] at h
      | some p =>
        obtain ⟨l2, r2⟩ := p
        simp only [hr, Option.some.injEq, Prod.mk.injEq] at h
        obtain ⟨h1, h2⟩ := h
        subst h1 h2
        obtain ⟨l, hl, e1, e2⟩ := ih l2 hr
        refine ⟨c :: l, ?_, by simp [e1], by simp [e2]⟩
        intro x hx
        rcases List.mem_cons.mp hx with rfl | hx
        · exact hc
        · exact hl x hx

theorem nextLine_split (buf line rest : Bytes) (h : nextLine buf = .ok (line, rest)) :
    ∃ l : Bytes, (∀ x ∈ l, x ≠ 10) ∧ line = TrimSpace (l ++ [10]) ∧ buf = l ++ 10 :: rest := by
  unfold nextLine at h
  cases hr : ReadString 10 buf with
  | none => simp [hr] at h
  | some p =>
    obtain ⟨l1, r⟩ := p
    simp only [hr, Except.ok.injEq, Prod.mk.injEq] at h
    obtain ⟨l, hl, e1, e2⟩ := ReadString_split buf l1 r hr
    exact ⟨l, hl, by rw [← h.1, e1], by rw [e2, h.2]⟩

/-- A text without newline at the end of the reader is not seen by `nextLine`. -/
theorem nextLine_cut : LineRel CutRel := by
  intro a b h
  obtain ⟨l, hl, rfl⟩ := h
  cases hr : ReadString 10 b with
  | none =>
    have hb := ReadString_no_newline b hr
    refine Or.inl ⟨_, nextLine_unterminated (b ++ l) ?_, nextLine_unterminated b hb⟩
    intro x hx
    rcases List.mem_append.mp hx with h | h
    · exact hb x h
    · exact hl x h
  | some p =>
    obtain ⟨line, rest⟩ := p
    obtain ⟨l0, h0, -, e2⟩ := ReadString_split b line rest hr
    refine Or.inr ⟨TrimSpace (l0 ++ [10]), rest ++ l, rest, ?_, ?_, ⟨l, hl, rfl⟩⟩
    · have e : b ++ l = l0 ++ 10 :: (rest ++ l) := by rw [e2]; simp
      rw [e, nextLine_append _ _ h0]
    · rw [e2, nextLine_append _ _ h0]

/-- The text of an unterminated last line is discarded: `readAscii` returns what it returns
for the reader without it. -/
theorem readAscii_cut (pf : Bytes → Except Error F32) (a l : Bytes) (hl : ∀ x ∈ l, x ≠ 10) :
    readAscii pf (a ++ l) = readAscii pf a := by
  unfold readAscii
  cases hr : ReadString 10 a with
  | none =>
    have hb := ReadString_no_newline a hr
    rw [ReadString_none (a ++ l) (by
      intro x hx
      rcases List.mem_append.mp hx with h | h
      · exact hb x h
      · exact hl x h)]
  | some p =>
    obtain ⟨line, rest⟩ := p
    obtain ⟨l0, h0, -, e2⟩ := ReadString_split a line rest hr
    have e : a ++ l = l0 ++ 10 :: (rest ++ l) := by rw [e2]; simp
    rw [e, ReadString_append _ _ h0]
    dsimp only
    exact readAsciiLoop_rel CutRel nextLine_cut pf _ _ _ none (Nat.lt_succ_self _) ⟨l, hl, rfl⟩

theorem consumed_trans (a b d : Bytes) (h1 : ∃ c : Bytes, a = c ++ 10 :: b)
    (h2 : ∃ c : Bytes, b = c ++ 10 :: d) : ∃ c : Bytes, a = c ++ 10 :: d := by
  obtain ⟨c1, rfl⟩ := h1
  obtain ⟨c2, rfl⟩ := h2
  exact ⟨c1 ++ 10 :: c2, by simp⟩

theorem nextLine_consumed (buf line rest : Bytes) (h : nextLine buf = .ok (line, rest)) :
    ∃ c : Bytes, buf = c ++ 10 :: rest := by
  obtain ⟨l, -, -, e⟩ := nextLine_split buf line rest h
  exact ⟨l, e⟩

theorem getLine_consumed (buf s rest : Bytes) (h : getLine buf s = .ok rest) :
    ∃ c : Bytes, buf = c ++ 10 :: rest := by
  unfold getLine at h
  split at h
  · exact Except.noConfusion h
  · rename_i line b hn
    split at h
    · exact Except.noConfusion h
    · rw [← Except.ok.inj h]
      exact nextLine_consumed buf line b hn

theorem getVertex_consumed (pf : Bytes → Except Error F32) (buf rest : Bytes)
    (v : F32 × F32 × F32) (h : getVertex pf buf = .ok (v, rest)) :
    ∃ c : Bytes, buf = c ++ 10 :: rest := by
  unfold getVertex at h
  split at h
  · exact Res.noConfusion h
  · rename_i line b hn
    have hl := nextLine_consumed buf line b hn
    split at h
    · exact Res.noConfusion h
    · simp only [] at h
      split at h
      · exact Res.noConfusion h
      · split at h
        · exact Res.noConfusion h
        · split at h
          · exact Res.noConfusion h
          · split at h
            · exact Res.noConfusion h
            · simp only [Res.ok.injEq, Prod.mk.injEq] at h
              rw [← h.2]
              exact hl

/-- An iteration that does not leave the loop consumes whole lines of the reader. -/
theorem readAsciiBody_consumed (pf : Bytes → Except Error F32) (buf b : Bytes)
    (tris t : Option (List STLTri)) (h : readAsciiBody pf buf tris = .next b t) :
    ∃ c : Bytes, buf = c ++ 10 :: b := by
  unfold readAsciiBody at h
  split at h
  · exact Step.noConfusion h
  · rename_i line b1 hn
    have l1 := nextLine_consumed buf line b1 hn
    split at h
    · exact Step.noConfusion h
    · split at h
      · exact Step.noConfusion h
      · simp only [] at h
        split at h
        · exact Step.noConfusion h
        · split at h
          · exact Step.noConfusion h
          · split at h
            · exact Step.noConfusion h
            · rename_i b2 hg
              have l2 := consumed_trans _ _ _ l1 (getLine_consumed _ _ _ hg)
              split at h
              · exact Step.noConfusion h
              · exact Step.noConfusion h
              · rename_i b3 hv1
                have l3 := consumed_trans _ _ _ l2 (getVertex_consumed pf _ _ _ hv1)
                split at h
                · exact Step.noConfusion h
                · exact Step.noConfusion h
                · rename_i b4 hv2
                  have l4 := consumed_trans _ _ _ l3 (getVertex_consumed pf _ _ _ hv2)
                  split at h
                  · exact Step.noConfusion h
                  · exact Step.noConfusion h
                  · rename_i b5 hv3
                    have l5 := consumed_trans _ _ _ l4 (getVertex_consumed pf _ _ _ hv3)
                    split at h
                    · exact Step.noConfusion h
                    · rename_i b6 hg2
                      have l6 := consumed_trans _ _ _ l5 (getLine_consumed _ _ _ hg2)
                      split at h
                      · exact Step.noConfusion h
                      · rename_i b7 hg3
                        have l7 := consumed_trans _ _ _ l6 (getLine_consumed _ _ _ hg3)
                        simp only [Step.next.injEq] at h
                        rw [← h.1]
                        exact l7

/-- An iteration that leaves the loop returns an error, or panics, or returns without error
at a terminated line that begins with `endsolid`. -/
theorem readAsciiBody_done (pf : Bytes → Except Error F32) (buf : Bytes)
    (tris : Option (List STLTri)) (o : Outcome) (h : readAsciiBody pf buf tris = .done o) :
    (∃ e, o = .ret none (some e)) ∨ (∃ i n, o = .panic i n)
    ∨ (o = .ret tris none ∧ ∃ l rest : Bytes, buf = l ++ 10 :: rest ∧ (∀ x ∈ l, x ≠ 10)
        ∧ HasPrefix (TrimSpace (l ++ [10])) (bytes "endsolid") = true) := by
  unfold readAsciiBody at h
  cases hn : nextLine buf with
  | error e =>
    rw [hn] at h
    simp only [Step.done.injEq] at h
    exact Or.inl ⟨e, h.symm⟩
  | ok p =>
    obtain ⟨line, b1⟩ := p
    rw [hn] at h
    dsimp only at h
    by_cases c1 : HasPrefix line (bytes "endsolid") = true
    · simp only [c1, if_true, Step.done.injEq] at h
      obtain ⟨l, hl, e1, e2⟩ := nextLine_split buf line b1 hn
      exact Or.inr (Or.inr ⟨h.symm, l, b1, e2, hl, by rw [← e1]; exact c1⟩)
    · simp only [c1, Bool.false_eq_true, if_false] at h
      have key : (∃ e, o = .ret none (some e)) ∨ (∃ i n, o = .panic i n) := by
        repeat' split at h
        all_goals first
          | exact Step.noConfusion h
          | exact Or.inl ⟨_, (Step.done.inj h).symm⟩
          | exact Or.inr ⟨_, _, (Step.done.inj h).symm⟩
      rcases key with k | k
      · exact Or.inl k
      · exact Or.inr (Or.inl k)

/-- The loop of `readAscii` returns an error, or panics, or returns without error at a
terminated line of the reader that begins with `endsolid`. -/
theorem readAsciiLoop_outcome (pf : Bytes → Except Error F32) (fuel : Nat) :
    ∀ (buf : Bytes) (tris : Option (List STLTri)) (o : Outcome),
      readAsciiLoop pf fuel buf tris = some o →
      (∃ e, o = .ret none (some e)) ∨ (∃ i n, o = .panic i n)
      ∨ (∃ (t : Option (List STLTri)) (pre l rest : Bytes), o = .ret t none
          ∧ 10 :: buf = pre ++ 10 :: (l ++ 10 :: rest) ∧ (∀ x ∈ l, x ≠ 10)
          ∧ HasPrefix (TrimSpace (l ++ [10])) (bytes "endsolid") = true) := by
  induction fuel with
  | zero =>
    intro buf tris o h
    simp [readAsciiLoop] at h
  | succ n ih =>
    intro buf tris o h
    unfold readAsciiLoop at h
    cases hb : readAsciiBody pf buf tris with
    | done o2 =>
      rw [hb] at h
      simp only [Option.some.injEq] at h
      subst h
      rcases readAsciiBody_done pf buf tris o2 hb with k | k | ⟨k, l, rest, e, hl, hp⟩
      · exact Or.inl k
      · exact Or.inr (Or.inl k)
      · exact Or.inr (Or.inr ⟨tris, [], l, rest, k, by rw [e]; rfl, hl, hp⟩)
    | next b t =>
      rw [hb] at h
      dsimp only at h
      rcases ih b t o h with k | k | ⟨t2, pre, l, rest, k, e, hl, hp⟩
      · exact Or.inl k
      · exact Or.inr (Or.inl k)
      · obtain ⟨c, hc⟩ := readAsciiBody_consumed pf buf b tris t hb
        refine Or.inr (Or.inr ⟨t2, 10 :: c ++ pre, l, rest, k, ?_, hl, hp⟩)
        rw [hc]
        simp only [List.cons_append, List.append_assoc]
        rw [e]

/-- Every call of `readAscii` returns an error, or panics, or returns without error at a
newline-terminated line after the first that begins with `endsolid`. -/
theorem readAscii_outcome (pf : Bytes → Except Error F32) (f : Bytes) :
    (∃ e, readAscii pf f = some (.ret none (some e)))
    ∨ (∃ i n, readAscii pf f = some (.panic i n))
    ∨ (∃ (t : Option (List STLTri)) (pre l rest : Bytes), readAscii pf f = some (.ret t none)
        ∧ f = pre ++ 10 :: (l ++ 10 :: rest) ∧ (∀ x ∈ l, x ≠ 10)
        ∧ HasPrefix (TrimSpace (l ++ [10])) (bytes "endsolid") = true) := by
  obtain ⟨o, ho⟩ := readAscii_terminates pf f
  have h := ho
  unfold readAscii at h
  cases hr : ReadString 10 f with
  | none =>
    rw [hr] at h
    exact Or.inl ⟨_, by rw [ho, ← Option.some.inj h]⟩
  | some p =>
    obtain ⟨line, buf⟩ := p
    rw [hr] at h
    dsimp only at h
    obtain ⟨l0, -, -, e0⟩ := ReadString_split f line buf hr
    rcases readAsciiLoop_outcome pf _ buf none o h with
      ⟨e, k⟩ | ⟨i, n, k⟩ | ⟨t, pre, l, rest, k, e, hl, hp⟩
    · exact Or.inl ⟨e, by rw [ho, k]⟩
    · exact Or.inr (Or.inl ⟨i, n, by rw [ho, k]⟩)
    · refine Or.inr (Or.inr ⟨t, l0 ++ pre, l, rest, by rw [ho, k], ?_, hl, hp⟩)
      rw [e0, e]
      simp

theorem getLine_cut (last kw : Bytes) (h : ∀ x ∈ last, x ≠ 10) :
    getLine last kw = .error (Error.ErrorfV "error reading line: %v" [] Error.EOF) := by
  simp [getLine, nextLine_unterminated last h]

theorem getVertex_cut (pf : Bytes → Except Error F32) (last : Bytes) (h : ∀ x ∈ last, x ≠ 10) :
    getVertex pf last = .err (Error.ErrorfV "error reading line: %v" [] Error.EOF) := by
  simp [getVertex, nextLine_unterminated last h]

/-- The loop body on the first `j` lines of a well-formed block followed by a text without
newline. -/
theorem readAsciiBody_cut (pf : Bytes → Except Error F32) (t : FacetText) (j : Nat)
    (last : Bytes) (tris : Option (List STLTri)) (ht : t.wellFormed pf = true)
    (hj : j < 7) (hlast : ∀ x ∈ last, x ≠ 10) :
    readAsciiBody pf (t.firstLines j ++ last) tris = .done (.ret none (some (cutError j))) := by
  obtain ⟨⟨n1, n2, n3⟩, ⟨a1, a2, a3⟩, ⟨b1, b2, b3⟩, ⟨c1, c2, c3⟩⟩ := wellFormed_tokens pf t ht
  have m1 := (isNumeric_iff pf _).mp n1
  have m2 := (isNumeric_iff pf _).mp n2
  have m3 := (isNumeric_iff pf _).mp n3
  have hn := threeFloats_numeric pf _ _ _ m1.2 m2.2 m3.2
  interval_cases j
  · simp only [FacetText.firstLines, List.take_zero, List.flatten_nil, List.nil_append]
    simp [readAsciiBody, nextLine_unterminated last hlast, cutError]
  · have e : t.firstLines 1 ++ last
        = tripleLine (bytes "facet normal ") t.nx t.ny t.nz ++ last := by
      simp [FacetText.firstLines, FacetText.lines]
    rw [e, readAsciiBody_facet pf _ _ _ _ tris m1.1 m2.1 m3.1, hn]
    simp only []
    rw [getLine_cut last _ hlast]
    rfl
  · have e : t.firstLines 2 ++ last
        = tripleLine (bytes "facet normal ") t.nx t.ny t.nz ++ (bytes "outer loop\n"
          ++ last) := by
      simp [FacetText.firstLines, FacetText.lines]
    rw [e, readAsciiBody_facet pf _ _ _ _ tris m1.1 m2.1 m3.1, hn]
    simp only []
    rw [getLine_outer_loop]
    simp only []
    rw [getVertex_cut pf last hlast]
    rfl
  · have e : t.firstLines 3 ++ last
        = tripleLine (bytes "facet normal ") t.nx t.ny t.nz ++ (bytes "outer loop\n"
          ++ (tripleLine (bytes "vertex ") t.v1x t.v1y t.v1z ++ last)) := by
      simp [FacetText.firstLines, FacetText.lines]
    rw [e, readAsciiBody_facet pf _ _ _ _ tris m1.1 m2.1 m3.1, hn]
    simp only []
    rw [getLine_outer_loop]
    simp only []
    rw [getVertex_numeric pf _ _ _ _ a1 a2 a3]
    simp only []
    rw [getVertex_cut pf last hlast]
    rfl
  · have e : t.firstLines 4 ++ last
        = tripleLine (bytes "facet normal ") t.nx t.ny t.nz ++ (bytes "outer loop\n"
          ++ (tripleLine (bytes "vertex ") t.v1x t.v1y t.v1z
          ++ (tripleLine (bytes "vertex ") t.v2x t.v2y t.v2z ++ last))) := by
      simp [FacetText.firstLines, FacetText.lines]
    rw [e, readAsciiBody_facet pf _ _ _ _ tris m1.1 m2.1 m3.1, hn]
    simp only []
    rw [getLine_outer_loop]
    simp only []
    rw [getVertex_numeric pf _ _ _ _ a1 a2 a3]
    simp only []
    rw [getVertex_numeric pf _ _ _ _ b1 b2 b3]
    simp only []
    rw [getVertex_cut pf last hlast]
    rfl
  · have e : t.firstLines 5 ++ last
        = tripleLine (bytes "facet normal ") t.nx t.ny t.nz ++ (bytes "outer loop\n"
          ++ (tripleLine (bytes "vertex ") t.v1x t.v1y t.v1z
          ++ (tripleLine (bytes "vertex ") t.v2x t.v2y t.v2z
          ++ (tripleLine (bytes "vertex ") t.v3x t.v3y t.v3z ++ last)))) := by
      simp [FacetText.firstLines, FacetText.lines]
    rw [e, readAsciiBody_facet pf _ _ _ _ tris m1.1 m2.1 m3.1, hn]
    simp only []
    rw [getLine_outer_loop]
    simp only []
    rw [getVertex_numeric pf _ _ _ _ a1 a2 a3]
    simp only []
    rw [getVertex_numeric pf _ _ _ _ b1 b2 b3]
    simp only []
    rw [getVertex_numeric pf _ _ _ _ c1 c2 c3]
    simp only []
    rw [getLine_cut last _ hlast]
    rfl
  · have e : t.firstLines 6 ++ last
        = tripleLine (bytes "facet normal ") t.nx t.ny t.nz ++ (bytes "outer loop\n"
          ++ (tripleLine (bytes "vertex ") t.v1x t.v1y t.v1z
          ++ (tripleLine (bytes "vertex ") t.v2x t.v2y t.v2z
          ++ (tripleLine (bytes "vertex ") t.v3x t.v3y t.v3z
          ++ (bytes "endloop\n" ++ last))))) := by
      simp [FacetText.firstLines, FacetText.lines]
    rw [e, readAsciiBody_facet pf _ _ _ _ tris m1.1 m2.1 m3.1, hn]
    simp only []
    rw [getLine_outer_loop]
    simp only []
    rw [getVertex_numeric pf _ _ _ _ a1 a2 a3]
    simp only []
    rw [getVertex_numeric pf _ _ _ _ b1 b2 b3]
    simp only []
    rw [getVertex_numeric pf _ _ _ _ c1 c2 c3]
    simp only []
    rw [getLine_endloop]
    simp only []
    rw [getLine_cut last _ hlast]
    rfl

/-- C17, as stated, fails: the example input followed by the text `endsolid again`, which has
no newline, is an input whose last line is not terminated, and `Read` returns its triangle and
no error, because the loop is left at the terminated `endsolid` line before it. -/
theorem C17_counterexample :
    ReadString 10 (bytes "endsolid again") = none
    ∧ Read parseFloatSmall exampleMemory (.ok (exampleInput ++ bytes "endsolid again"))
      = some (.ret (some [exampleTri]) none) := by
  refine ⟨by decide, by decide⟩

/-- C17, amended. For every ASCII input `solid`, `a`, `last` whose last line `last` is not
terminated by a newline, `nextLine` reports that line as a read error and its text is
discarded: the decoder returns what it returns for the input without it. So the decode fails
with an error unless a line before the last already ends it: the only return without error is
the one at a newline-terminated line, after the first, that begins with `endsolid` (the other
way to end without an error value is the run-time panic of a vertex line). In particular the
decoder returns the nil slice and an error with cause `io.EOF` when the unterminated line is
the first line, and when it follows the first line, any number of well-formed facet blocks and
the first `j` lines (`j < 7`) of one more, also when it begins with `endsolid`. -/
theorem C17_unterminated_last_line (mem : Nat) (pf : Bytes → Except Error F32) (a last : Bytes)
    (hlast : ∀ x ∈ last, x ≠ 10) :
    nextLine last = .error (Error.ErrorfV "error reading line: %v" [] Error.EOF)
    ∧ readAscii pf (a ++ last) = readAscii pf a
    ∧ Read pf mem (.ok (bytes "solid" ++ (a ++ last))) = Read pf mem (.ok (bytes "solid" ++ a))
    ∧ ((∃ e, Read pf mem (.ok (bytes "solid" ++ (a ++ last))) = some (.ret none (some e)))
      ∨ (∃ i n, Read pf mem (.ok (bytes "solid" ++ (a ++ last))) = some (.panic i n))
      ∨ (∃ (t : Option (List STLTri)) (pre l rest : Bytes),
          Read pf mem (.ok (bytes "solid" ++ (a ++ last))) = some (.ret t none)
          ∧ a = pre ++ 10 :: (l ++ 10 :: rest) ∧ (∀ x ∈ l, x ≠ 10)
          ∧ HasPrefix (TrimSpace (l ++ [10])) (bytes "endsolid") = true))
    ∧ ((∀ x ∈ a, x ≠ 10) →
        Read pf mem (.ok (bytes "solid" ++ (a ++ last)))
          = some (.ret none (some (Error.ErrorfV "error reading first line: %v" [] Error.EOF))))
    ∧ (∀ (name : Bytes) (facets : List FacetText) (t : FacetText) (j : Nat),
        (∀ x ∈ name, x ≠ 10) → (∀ u ∈ facets, u.wellFormed pf = true) →
        t.wellFormed pf = true → j < 7 →
        Read pf mem (.ok (bytes "solid" ++ (name ++ 10 ::
            (blocksText facets ++ (t.firstLines j ++ last)))))
          = some (.ret none (some (cutError j)))
        ∧ Read pf mem (.ok (bytes "solid" ++ (name ++ 10 ::
            (blocksText facets ++ (bytes "endsolid" ++ last)))))
          = some (.ret none (some (Error.ErrorfV "error reading line: %v" [] Error.EOF)))) := by
  have hcut := readAscii_cut pf a last hlast
  refine ⟨nextLine_unterminated last hlast, hcut, ?_, ?_, ?_, ?_⟩
  · rw [Read_solid, Read_solid, hcut]
  · rw [Read_solid, hcut]
    rcases readAscii_outcome pf a with k | k | ⟨t, pre, l, rest, k, e, hl, hp⟩
    · exact Or.inl k
    · exact Or.inr (Or.inl k)
    · exact Or.inr (Or.inr ⟨t, pre, l, rest, k, e, hl, hp⟩)
  · intro ha
    rw [Read_solid]
    unfold readAscii
    rw [ReadString_none (a ++ last) (by
      intro x hx
      rcases List.mem_append.mp hx with h | h
      · exact ha x h
      · exact hlast x h)]
  · intro name facets t j hname hwf ht hj
    refine ⟨Read_blocks_done pf name _ facets _ hname hwf
      (readAsciiBody_cut pf t j last _ ht hj hlast), ?_⟩
    have h0 := @Read_blocks_done mem pf name _ facets _ hname hwf
      (readAsciiBody_cut pf t 0 (bytes "endsolid" ++ last) _ ht (by omega) (by
        intro x hx
        rcases List.mem_append.mp hx with h | h
        · exact (by decide : ∀ z ∈ bytes "endsolid", z ≠ 10) x h
        · exact hlast x h))
    simpa [FacetText.firstLines, cutError] using h0

theorem C17_unterminated_last_line_witness :
    (∀ x ∈ bytes "endsolid test", x ≠ 10) ∧
    Read parseFloatSmall exampleMemory (.ok (bytes "solid" ++
        (bytes " test\nfacet normal 0 0 1\nouter loop\n" ++ bytes "endsolid test")))
      = Read parseFloatSmall exampleMemory (.ok (bytes "solid" ++
        bytes " test\nfacet normal 0 0 1\nouter loop\n"))
    ∧ Read parseFloatSmall exampleMemory (.ok (bytes "solid" ++
        (bytes " test\nfacet normal 0 0 1\nouter loop\n" ++ bytes "endsolid test")))
      = some (.ret none (some (Error.ErrorfV "v1x, v1y, v1z parse: %v" []
          (Error.ErrorfV "error reading line: %v" [] Error.EOF)))) :=
  ⟨by decide,
    (C17_unterminated_last_line exampleMemory parseFloatSmall
      (bytes " test\nfacet normal 0 0 1\nouter loop\n") (bytes "endsolid test")
      (by decide)).2.2.1,
    by decide⟩

end STL
